import Mathlib

/-!
# csopesy-mo1: scheduler and memory manager

A shallow embedding of `MemoryManager.cpp`, `Config.cpp`, `Process.cpp`,
`Scheduler.cpp` and `ProcessManager::createProcess`, followed by theorems about
the embedded functions.

Modelling conventions.

* `std::vector<Frame>` is a `List Frame`; the `for` loops over it are structural
  recursions that carry the loop variables of the source.
* `std::map<std::string, ProcessMemoryInfo>` is an association list read with
  `mapFind` (first match), written with `mapAssign` (`map[key] = v`) and erased
  with `mapErase`; `std::set<std::string>` is a list with `setInsert` and
  `setErase`.  The key order in which the containers iterate is not modelled.
* `std::shared_ptr<Process>` is a `Handle` into a heap `Handle → Process`, so
  that two references to one process observe each other's writes; the null
  pointer is `none`.
* `Config::getInstance()` is an explicit `Config` argument.
* `memoryMutex` is not modelled as a lock.  The only place where it changes a
  result is the bounded `try_lock_for` at the top of `allocateMemory`; its
  outcome is the Boolean argument `lockAcquired`.
* `size_t` values are natural numbers.  In `findFirstFit`, `allocateMemory`,
  `releaseMemory` and `getExternalFragmentation` every value computed is at most
  `frames.size() * frameSize`, which for a constructed manager is at most the
  32-bit `maxOverallMem`, so these are computed without reduction.  The
  arithmetic of `getMemoryStatistics` is reduced modulo `2 ^ 64` and its `int`
  field modulo `2 ^ 32`.
* The scheduler's `cpuCycles` (a `uint64_t` that starts at 0 and grows by one),
  `coresWaiting` (an `int` bounded by the number of threads) and the process's
  `commandCounter` (bounded by the number of instructions) are computed without
  reduction; `quantumTime` is a `uint32_t` and is reduced modulo `2 ^ 32`.
* The scheduler's `mutex` and `syncMutex` and its condition variable are not
  modelled as data.  A function is embedded as the code that runs while it
  holds its lock, with one exception: locking a `std::mutex` that the calling
  thread already owns has no defined behaviour, so `updateCoreStatus` takes the
  Boolean `callerHoldsMutex` and has no result when it is `true`.
* The worker threads, the backup clock and the admitting threads are the steps
  of `threadStep`; each step is a stretch of code that runs under one lock or
  touches only the process of the worker that runs it.
* `stopScheduling` is embedded over the steps of `threadStep`: the flags
  `processingActive` and `cycleCounterActive` are not data; once they are
  cleared no worker takes a process, and the `join`s return when every worker
  stands at the top of its outer loop.
* `ProcessManager.h` is not among the sources; `createProcess` is embedded over
  the two data members that `ProcessManager.cpp` uses.  How far its `try` block
  gets before a statement throws, and the instruction count that the `Process`
  constructor draws at random, are an argument.
-/

namespace Csopesy

/-! ## Config (`Config.h`, `Config.cpp`) -/

/-- The fields of `class Config` (`Config.h`); the three memory fields carry the
in-class default initialisers. -/
structure Config where
  numCPU : Int
  schedulerType : String
  quantumCycles : Nat
  batchProcessFreq : Nat
  minInstructions : Nat
  maxInstructions : Nat
  delaysPerExec : Nat
  maxOverallMem : Nat := 16384
  memPerFrame : Nat := 16
  memPerProc : Nat := 4096
  deriving DecidableEq

/-- The ranges of the C++ field types: `numCPU` is an `int`, the other numeric
fields are `uint32_t`. -/
def Config.WellTyped (c : Config) : Prop :=
  -(2 ^ 31 : Int) ≤ c.numCPU ∧ c.numCPU < 2 ^ 31 ∧
  c.quantumCycles < 2 ^ 32 ∧ c.batchProcessFreq < 2 ^ 32 ∧
  c.minInstructions < 2 ^ 32 ∧ c.maxInstructions < 2 ^ 32 ∧
  c.delaysPerExec < 2 ^ 32 ∧ c.maxOverallMem < 2 ^ 32 ∧
  c.memPerFrame < 2 ^ 32 ∧ c.memPerProc < 2 ^ 32

instance (c : Config) : Decidable c.WellTyped := by
  unfold Config.WellTyped; infer_instance

/-- One constructor per `throw ConfigException(...)` of
`Config::validateParameters`, in source order. -/
inductive ConfigException where
  | invalidNumCPU
  | invalidSchedulerType
  | invalidQuantumCycles
  | invalidBatchProcessFreq
  | invalidMinInstructions
  | invalidMaxInstructions
  | invalidDelaysPerExec
  | maxOverallMemNotPositive
  | memPerFrameNotPositive
  | memPerProcNotPositive
  | memoryNotMultipleOfFrame
  | processNotMultipleOfFrame
  | processLargerThanMemory
  | frameLargerThanProcess
  deriving DecidableEq

/-- `Config::validateParameters`: the checks in source order.  The test
`delaysPerExec < 0` is on an unsigned field and the tests `<= 0` on the memory
fields are on unsigned fields; `%` by zero is never reached because
`memPerFrame <= 0` is tested first. -/
def validateParameters (c : Config) : Except ConfigException Unit :=
  if c.numCPU < 1 ∨ c.numCPU > 128 then .error .invalidNumCPU
  else if c.schedulerType ≠ "fcfs" ∧ c.schedulerType ≠ "rr" then .error .invalidSchedulerType
  else if c.quantumCycles < 1 then .error .invalidQuantumCycles
  else if c.batchProcessFreq < 1 then .error .invalidBatchProcessFreq
  else if c.minInstructions < 1 then .error .invalidMinInstructions
  else if c.maxInstructions < c.minInstructions then .error .invalidMaxInstructions
  else if c.delaysPerExec < 0 then .error .invalidDelaysPerExec
  else if c.maxOverallMem ≤ 0 then .error .maxOverallMemNotPositive
  else if c.memPerFrame ≤ 0 then .error .memPerFrameNotPositive
  else if c.memPerProc ≤ 0 then .error .memPerProcNotPositive
  else if c.maxOverallMem % c.memPerFrame ≠ 0 then .error .memoryNotMultipleOfFrame
  else if c.memPerProc % c.memPerFrame ≠ 0 then .error .processNotMultipleOfFrame
  else if c.memPerProc > c.maxOverallMem then .error .processLargerThanMemory
  else if c.memPerFrame > c.memPerProc then .error .frameLargerThanProcess
  else .ok ()

/-- A configuration that `loadConfig` accepts: values of the field types on
which `validateParameters` raises nothing. -/
def Config.Validated (c : Config) : Prop :=
  c.WellTyped ∧ validateParameters c = .ok ()

/-! ## Process (`Process.h`, `Process.cpp`) -/

/-- `Process::ProcessState`. -/
inductive ProcessState where
  | READY
  | RUNNING
  | WAITING
  | FINISHED
  deriving DecidableEq

/-- The fields of `class Process` that the scheduler and the memory manager read
or write; `linesOfCode` is `commandList.size()`. -/
structure Process where
  pid : Int
  name : String
  state : ProcessState
  cpuCoreID : Int
  linesOfCode : Nat
  commandCounter : Nat
  quantumTime : Nat
  deriving DecidableEq

/-- `Process::getName`. -/
def Process.getName (p : Process) : String := p.name

/-- `Process::setState`. -/
def Process.setState (p : Process) (newState : ProcessState) : Process :=
  { p with state := newState }

/-- A `std::shared_ptr<Process>` that is not null. -/
abbrev Handle := Nat

/-- A process called `name` with `lines` instructions, as `Process::Process`
leaves it. -/
def newProcess (pid : Int) (name : String) (lines : Nat) : Process :=
  { pid := pid, name := name, state := ProcessState.READY, cpuCoreID := -1
    linesOfCode := lines, commandCounter := 0, quantumTime := 0 }

/-- `Process::isFinished`. -/
def Process.isFinished (p : Process) : Bool := decide (p.commandCounter ≥ p.linesOfCode)

/-- `Process::moveToNextLine`. -/
def Process.moveToNextLine (p : Process) : Process :=
  if p.commandCounter < p.linesOfCode then { p with commandCounter := p.commandCounter + 1 }
  else p

/-- `Process::resetQuantumTime`. -/
def Process.resetQuantumTime (p : Process) : Process := { p with quantumTime := 0 }

/-- `Process::incrementQuantumTime`, on a `uint32_t`. -/
def Process.incrementQuantumTime (p : Process) : Process :=
  { p with quantumTime := (p.quantumTime + 1) % 2 ^ 32 }

/-- The `std::invalid_argument` that `Process::setCPUCoreID` throws. -/
inductive InvalidArgument where
  | invalidCPUCoreID
  deriving DecidableEq

/-- `Process::setCPUCoreID`. -/
def Process.setCPUCoreID (config : Config) (p : Process) (id : Int) :
    Except InvalidArgument Process :=
  if id ≥ -1 ∧ id < config.numCPU then .ok { p with cpuCoreID := id }
  else .error .invalidCPUCoreID

/-! ## Scheduler: state and admission (`Scheduler.h`, `Scheduler.cpp`) -/

/-- The data members of `class Scheduler` that hold scheduling state. -/
structure Scheduler where
  readyQueue : List Handle
  runningProcesses : List Handle
  finishedProcesses : List Handle
  coreStatus : List Bool
  coresWaiting : Int
  cpuCycles : Nat
  deriving DecidableEq

/-- `Scheduler::addProcess`: push at the back of the ready queue. -/
def Scheduler.addProcess (s : Scheduler) (process : Handle) : Scheduler :=
  { s with readyQueue := s.readyQueue ++ [process] }

/-- `Scheduler::Scheduler()`: one free core slot per configured CPU. -/
def Scheduler.ctor (config : Config) : Scheduler :=
  { readyQueue := [], runningProcesses := [], finishedProcesses := []
    coreStatus := List.replicate config.numCPU.toNat false, coresWaiting := 0, cpuCycles := 0 }

/-! ## Memory manager (`MemoryManager.h`, `MemoryManager.cpp`) -/

/-- `MemoryManager::Frame` with its default member initialisers. -/
structure Frame where
  processName : String := ""
  isFree : Bool := true
  startAddress : Nat := 0
  endAddress : Nat := 0
  deriving DecidableEq

/-- `MemoryManager::ProcessMemoryInfo`. -/
structure ProcessMemoryInfo where
  startFrame : Nat
  numFrames : Nat
  startAddress : Nat
  endAddress : Nat
  deriving DecidableEq

/-- `std::map::find` on the association list: the value of the first entry with
the key. -/
def mapFind {V : Type} (key : String) : List (String × V) → Option V
  | [] => none
  | e :: rest => if e.1 = key then some e.2 else mapFind key rest

/-- The assignment `map[key] = v`: overwrite the entry of `key`, or add one. -/
def mapAssign {V : Type} (key : String) (v : V) : List (String × V) → List (String × V)
  | [] => [(key, v)]
  | e :: rest => if e.1 = key then (key, v) :: rest else e :: mapAssign key v rest

/-- `std::map::erase(key)`. -/
def mapErase {V : Type} (key : String) (m : List (String × V)) : List (String × V) :=
  m.filter (fun e => decide (e.1 ≠ key))

/-- `std::set::insert`. -/
def setInsert (x : String) (s : List String) : List String :=
  if x ∈ s then s else s ++ [x]

/-- `std::set::erase`. -/
def setErase (x : String) (s : List String) : List String :=
  s.filter (fun y => decide (y ≠ x))

/-- The data members of `class MemoryManager` (the mutex apart). -/
structure MemoryManager where
  totalFrames : Nat
  frameSize : Nat
  processSize : Nat
  framesPerProcess : Nat
  processMemoryMap : List (String × ProcessMemoryInfo)
  frames : List Frame
  currentFragmentation : Nat
  processesInMemory : List String
  deriving DecidableEq

/-- The loop of `MemoryManager::findFirstFit`: `size` is `frames.size()`, the
list is the part of `frames` from index `i` on, and `consecutiveFree`,
`startFrame` are the two locals. -/
def findFirstFitLoop (framesPerProcess size : Nat) :
    List Frame → (i consecutiveFree startFrame : Nat) → Nat
  | [], _, _, _ => size
  | f :: rest, i, consecutiveFree, startFrame =>
    if f.isFree then
      let startFrame1 := if consecutiveFree = 0 then i else startFrame
      let consecutiveFree1 := consecutiveFree + 1
      if consecutiveFree1 = framesPerProcess then startFrame1
      else findFirstFitLoop framesPerProcess size rest (i + 1) consecutiveFree1 startFrame1
    else
      findFirstFitLoop framesPerProcess size rest (i + 1) 0 startFrame

/-- `MemoryManager::findFirstFit`. -/
def MemoryManager.findFirstFit (m : MemoryManager) : Nat :=
  findFirstFitLoop m.framesPerProcess m.frames.length m.frames 0 0 0

/-- The loop of `MemoryManager::getExternalFragmentation` together with the test
that follows it; the list is the part of `frames` still to visit. -/
def fragmentationLoop (framesPerProcess frameSize : Nat) :
    List Frame → (fragmentation consecutiveFree : Nat) → Nat
  | [], fragmentation, consecutiveFree =>
    if consecutiveFree > 0 ∧ consecutiveFree < framesPerProcess then
      fragmentation + consecutiveFree * frameSize
    else fragmentation
  | f :: rest, fragmentation, consecutiveFree =>
    if f.isFree then
      fragmentationLoop framesPerProcess frameSize rest fragmentation (consecutiveFree + 1)
    else if consecutiveFree > 0 then
      fragmentationLoop framesPerProcess frameSize rest
        (if consecutiveFree < framesPerProcess then fragmentation + consecutiveFree * frameSize
         else fragmentation) 0
    else
      fragmentationLoop framesPerProcess frameSize rest fragmentation consecutiveFree

/-- `MemoryManager::getExternalFragmentation`. -/
def MemoryManager.getExternalFragmentation (m : MemoryManager) : Nat :=
  fragmentationLoop m.framesPerProcess m.frameSize m.frames 0 0

/-- `MemoryManager::updateFragmentation`. -/
def MemoryManager.updateFragmentation (m : MemoryManager) : MemoryManager :=
  { m with currentFragmentation := m.getExternalFragmentation }

/-- `MemoryManager::MemoryManager()`. -/
def MemoryManager.ctor (config : Config) : MemoryManager :=
  let totalFrames := config.maxOverallMem / config.memPerFrame
  let frameSize := config.memPerFrame
  let processSize := config.memPerProc
  MemoryManager.updateFragmentation
    { totalFrames := totalFrames
      frames := List.replicate totalFrames {}
      frameSize := frameSize
      processSize := processSize
      framesPerProcess := processSize / frameSize
      processMemoryMap := []
      currentFragmentation := 0
      processesInMemory := [] }

/-- The frame-marking loop of `allocateMemory`: `count` iterations are left and
the loop variable is `i`. -/
def allocateFrames (name : String) (frameSize : Nat) :
    (count : Nat) → (i : Nat) → List Frame → List Frame
  | 0, _, frames => frames
  | count + 1, i, frames =>
    allocateFrames name frameSize count (i + 1)
      (frames.set i
        { processName := name
          isFree := false
          startAddress := i * frameSize
          endAddress := (i + 1) * frameSize - 1 })

/-- The frame-freeing loop of `releaseMemory`: it has run `i` times and `count`
iterations are left. -/
def releaseFrames (startFrame : Nat) : (count : Nat) → (i : Nat) → List Frame → List Frame
  | 0, _, frames => frames
  | count + 1, i, frames =>
    releaseFrames startFrame count (i + 1)
      (match frames[startFrame + i]? with
       | some f => frames.set (startFrame + i) { f with isFree := true, processName := "" }
       | none => frames)

/-- What the memory manager and the scheduler share: the processes behind the
shared pointers, the scheduler singleton and the memory-manager singleton. -/
structure World where
  heap : Handle → Process
  scheduler : Scheduler
  memory : MemoryManager

/-- `MemoryManager::allocateMemory`.  `process` is `none` for a null pointer;
`lockAcquired` is the outcome of `memoryMutex.try_lock_for(100ms)`. -/
def allocateMemory (config : Config) (lockAcquired : Bool) (process : Option Handle)
    (w : World) : Bool × World :=
  match process with
  | none => (false, w)
  | some p =>
    if !lockAcquired then (false, w)
    else
      let m := w.memory
      let startFrame := m.findFirstFit
      if startFrame = m.frames.length then
        if config.schedulerType = "rr" then
          let heap1 := Function.update w.heap p ((w.heap p).setState ProcessState.READY)
          (false, { w with heap := heap1, scheduler := w.scheduler.addProcess p })
        else (false, w)
      else
        let name := (w.heap p).getName
        let memInfo : ProcessMemoryInfo :=
          { startFrame := startFrame
            numFrames := m.framesPerProcess
            startAddress := startFrame * m.frameSize
            endAddress := (startFrame + m.framesPerProcess) * m.frameSize - 1 }
        let m1 : MemoryManager :=
          { m with
            frames := allocateFrames name m.frameSize m.framesPerProcess startFrame m.frames
            processMemoryMap := mapAssign name memInfo m.processMemoryMap
            processesInMemory := setInsert name m.processesInMemory }
        (true, { w with memory := m1.updateFragmentation })

/-- `MemoryManager::releaseMemory`. -/
def MemoryManager.releaseMemory (m : MemoryManager) (processName : String) : MemoryManager :=
  match mapFind processName m.processMemoryMap with
  | some processInfo =>
    MemoryManager.updateFragmentation
      { m with
        frames := releaseFrames processInfo.startFrame processInfo.numFrames 0 m.frames
        processMemoryMap := mapErase processName m.processMemoryMap
        processesInMemory := setErase processName m.processesInMemory }
  | none => m

/-- `struct MemoryStatistics`. -/
structure MemoryStatistics where
  totalMemory : Nat
  usedMemory : Nat
  freeMemory : Nat
  externalFragmentation : Nat
  processCount : Int
  deriving DecidableEq

/-- The number of values of `size_t`. -/
def sizeModulus : Nat := 2 ^ 64

/-- Conversion of a `size_t` to `int` (two-complement, 32 bits). -/
def toInt32 (n : Nat) : Int :=
  (((n + 2 ^ 31) % 2 ^ 32 : Nat) : Int) - 2 ^ 31

/-- `MemoryManager::getMemoryStatistics`; the product and the difference are
`size_t` operations. -/
def MemoryManager.getMemoryStatistics (config : Config) (m : MemoryManager) :
    MemoryStatistics :=
  let totalMemory := config.maxOverallMem
  let usedMemory := (m.processMemoryMap.length * m.processSize) % sizeModulus
  { totalMemory := totalMemory
    usedMemory := usedMemory
    processCount := toInt32 m.processMemoryMap.length
    freeMemory := (totalMemory + sizeModulus - usedMemory) % sizeModulus
    externalFragmentation := m.getExternalFragmentation }

/-- `MemoryManager::isMemoryFull`. -/
def MemoryManager.isMemoryFull (m : MemoryManager) : Bool :=
  decide (m.findFirstFit = m.frames.length)

/-- `MemoryManager::hasAvailableMemory`. -/
def MemoryManager.hasAvailableMemory (m : MemoryManager) : Bool :=
  !m.isMemoryFull

/-! ## Scheduler: dispatch, end of turn and cycle barrier (`Scheduler.cpp`) -/

/-- `Scheduler::fcfsSchedule`. -/
def fcfsSchedule (w : World) : Option Handle × World :=
  match w.scheduler.readyQueue with
  | [] => (none, w)
  | process :: rest => (some process, { w with scheduler := { w.scheduler with readyQueue := rest } })

/-- `Scheduler::isQuantumExpired`. -/
def isQuantumExpired (config : Config) (process : Process) : Bool :=
  decide (process.quantumTime ≥ config.quantumCycles)

/-- `Scheduler::handleQuantumExpiration`. -/
def handleQuantumExpiration (w : World) (process : Handle) : World :=
  { w with
    heap := Function.update w.heap process
      ((w.heap process).resetQuantumTime.setState ProcessState.READY)
    scheduler := { w.scheduler with readyQueue := w.scheduler.readyQueue ++ [process] } }

/-- `Scheduler::roundRobinSchedule`. -/
def roundRobinSchedule (config : Config) (w : World) : Option Handle × World :=
  match w.scheduler.readyQueue with
  | [] => (none, w)
  | process :: rest =>
    let w1 : World := { w with scheduler := { w.scheduler with readyQueue := rest } }
    if !isQuantumExpired config (w1.heap process) then (some process, w1)
    else (none, handleQuantumExpiration w1 process)

/-- The core scan of `getNextProcess`: the list is `coreStatus` from index `i`
on; the result is `availableCore`. -/
def availableCoreLoop : List Bool → (i : Nat) → Int
  | [], _ => -1
  | busy :: rest, i => if !busy then (i : Int) else availableCoreLoop rest (i + 1)

/-- `Scheduler::getNextProcess`, called with `mutex` held.  An exception of
`setCPUCoreID` leaves the function. -/
def getNextProcess (config : Config) (w : World) :
    Except InvalidArgument (Option Handle × World) :=
  if w.scheduler.readyQueue.isEmpty then .ok (none, w)
  else
    let availableCore := availableCoreLoop w.scheduler.coreStatus 0
    if availableCore = -1 then .ok (none, w)
    else
      let r := if config.schedulerType = "rr" then roundRobinSchedule config w
        else fcfsSchedule w
      match r.1 with
      | none => .ok (none, r.2)
      | some nextProcess =>
        match (r.2.heap nextProcess).setCPUCoreID config availableCore with
        | .error e => .error e
        | .ok bound =>
          .ok (some nextProcess,
            { r.2 with
              heap := Function.update r.2.heap nextProcess bound
              scheduler :=
                { r.2.scheduler with
                  coreStatus := r.2.scheduler.coreStatus.set availableCore.toNat true
                  runningProcesses := r.2.scheduler.runningProcesses ++ [nextProcess] } })

/-- `Scheduler::updateCoreStatus`.  Its first statement locks `mutex`; when the
calling thread already owns `mutex` that lock has undefined behaviour and the
function has no result. -/
def updateCoreStatus (callerHoldsMutex : Bool) (s : Scheduler) (coreID : Int) (active : Bool) :
    Option Scheduler :=
  if callerHoldsMutex then none
  else if coreID ≥ 0 ∧ coreID < (s.coreStatus.length : Int) then
    some { s with coreStatus := s.coreStatus.set coreID.toNat active }
  else some s

/-- The end-of-turn block of `executeProcesses` up to the call of
`updateCoreStatus` (`Scheduler.cpp` lines 122-136), run with `mutex` held. -/
def endOfTurnLists (w : World) (currentProcess : Handle) : World :=
  let w1 : World :=
    if (w.heap currentProcess).isFinished then
      { w with
        heap := Function.update w.heap currentProcess
          ((w.heap currentProcess).setState ProcessState.FINISHED)
        scheduler := { w.scheduler with
          finishedProcesses := w.scheduler.finishedProcesses ++ [currentProcess] } }
    else
      { w with
        heap := Function.update w.heap currentProcess
          (((w.heap currentProcess).setState ProcessState.READY).resetQuantumTime)
        scheduler := { w.scheduler with
          readyQueue := w.scheduler.readyQueue ++ [currentProcess] } }
  { w1 with scheduler := { w1.scheduler with
      runningProcesses := w1.scheduler.runningProcesses.erase currentProcess } }

/-- The end-of-turn block of `executeProcesses` (lines 120-138): the list
updates, then `updateCoreStatus` called while the block holds `mutex`. -/
def endOfTurn (w : World) (currentProcess : Handle) : Option World :=
  let w1 := endOfTurnLists w currentProcess
  match updateCoreStatus true w1.scheduler (w1.heap currentProcess).cpuCoreID false with
  | none => none
  | some s => some { w1 with scheduler := s }

/-- `Scheduler::waitForCycleSync` up to the point where the caller is released
or blocks: the scheduler afterwards, and whether the caller was released (it
blocks until `coresWaiting` is 0 otherwise). -/
def waitForCycleSync (s : Scheduler) : Scheduler × Bool :=
  let coresWaiting := s.coresWaiting + 1
  let activeCores : Int := max 1 (s.runningProcesses.length : Int)
  if coresWaiting ≥ activeCores then
    ({ s with coresWaiting := 0, cpuCycles := s.cpuCycles + 1 }, true)
  else ({ s with coresWaiting := coresWaiting }, false)

/-- One round of `Scheduler::cycleCounterLoop` after its sleep. -/
def cycleCounterTick (s : Scheduler) : Scheduler :=
  if s.runningProcesses.isEmpty then { s with cpuCycles := s.cpuCycles + 1 } else s

/-- Why a worker stops in the embedding of one pass of its loop. -/
inductive WorkerStop where
  /-- The inner `while` loop was left (process finished or quantum used up). -/
  | loopLeft
  /-- The worker blocks inside `waitForCycleSync`. -/
  | blockedInBarrier
  /-- The end-of-turn block reached `updateCoreStatus` while holding `mutex`. -/
  | relockedMutex
  /-- The end-of-turn block was completed. -/
  | turnCompleted
  /-- `getNextProcess` gave no process and `waitForCycleSync` released the worker. -/
  | idleReleased
  /-- The ready queue is empty: the worker waits on the condition variable. -/
  | waitsForQueue
  /-- `setCPUCoreID` threw. -/
  | threw
  /-- The fuel of the embedding ran out. -/
  | outOfFuel
  deriving DecidableEq

/-- The state of a worker inside the inner `while` loop of `executeProcesses`:
the world, the local `currentDelay`, and two observations, the processes whose
instructions `executeCurrentCommand` has run, in order, and the number of
`waitForCycleSync` calls. -/
structure TurnState where
  world : World
  currentDelay : Int
  executed : List Handle
  barrierCalls : Nat

/-- Where a worker stopped, and in which state. -/
structure WorkerOutcome where
  stop : WorkerStop
  state : TurnState

/-- The test of the inner `while` of `executeProcesses` and the `break` under
it (lines 90-96): whether the worker leaves the loop. -/
def turnOver (config : Config) (process : Process) : Bool :=
  process.isFinished ||
    (decide (config.schedulerType = "rr") &&
      decide (process.quantumTime ≥ config.quantumCycles))

/-- The delay-or-execute part of one iteration of the inner `while` (lines
98-113): the world and the local `currentDelay` afterwards. -/
def instructionRound (config : Config) (currentProcess : Handle) (delays : Int) (w : World)
    (currentDelay : Int) : World × Int :=
  if currentDelay < delays then (w, currentDelay + 1)
  else
    let moved := (w.heap currentProcess).moveToNextLine
    let counted := if config.schedulerType = "rr" then moved.incrementQuantumTime else moved
    ({ w with heap := Function.update w.heap currentProcess counted }, 0)

/-- The inner `while (!currentProcess->isFinished())` loop of
`executeProcesses`, run by a worker that no other thread interleaves with;
`delays` is the local `int delays`. -/
def dispatchTurnLoop (config : Config) (currentProcess : Handle) (delays : Int) :
    (fuel : Nat) → TurnState → WorkerOutcome
  | 0, s => { stop := .outOfFuel, state := s }
  | fuel + 1, s =>
    if turnOver config (s.world.heap currentProcess) then { stop := .loopLeft, state := s }
    else
      let round := instructionRound config currentProcess delays s.world s.currentDelay
      let sync := waitForCycleSync round.1.scheduler
      let s2 : TurnState :=
        { world := { round.1 with scheduler := sync.1 }
          currentDelay := round.2
          executed :=
            if s.currentDelay < delays then s.executed else s.executed ++ [currentProcess]
          barrierCalls := s.barrierCalls + 1 }
      if sync.2 then dispatchTurnLoop config currentProcess delays fuel s2
      else { stop := .blockedInBarrier, state := s2 }

/-- One pass of the outer `while (processingActive)` loop of
`executeProcesses` by one worker, while `processingActive` holds. -/
def workerPass (config : Config) (fuel : Nat) (w : World) : WorkerOutcome :=
  let start : TurnState := { world := w, currentDelay := 0, executed := [], barrierCalls := 0 }
  if w.scheduler.readyQueue.isEmpty then { stop := .waitsForQueue, state := start }
  else
    match getNextProcess config w with
    | .error _ => { stop := .threw, state := start }
    | .ok (none, w1) =>
      let sync := waitForCycleSync w1.scheduler
      { stop := if sync.2 then .idleReleased else .blockedInBarrier
        state := { start with world := { w1 with scheduler := sync.1 }, barrierCalls := 1 } }
    | .ok (some currentProcess, w1) =>
      let w2 : World :=
        { w1 with
          heap := Function.update w1.heap currentProcess
            ((w1.heap currentProcess).setState ProcessState.RUNNING) }
      let turn := dispatchTurnLoop config currentProcess (toInt32 config.delaysPerExec) fuel
        { start with world := w2 }
      match turn.stop with
      | .loopLeft =>
        match endOfTurn turn.state.world currentProcess with
        | none =>
          { stop := .relockedMutex
            state := { turn.state with world := endOfTurnLists turn.state.world currentProcess } }
        | some w3 => { stop := .turnCompleted, state := { turn.state with world := w3 } }
      | _ => turn

/-- One dispatch turn up to the end of its inner loop (`executeProcesses`,
lines 84-118): the state of the process becomes `RUNNING`, `delays` is read
from the configuration into an `int`, `currentDelay` starts at 0 and the inner
loop runs. -/
def dispatchTurn (config : Config) (currentProcess : Handle) (fuel : Nat) (w : World) :
    WorkerOutcome :=
  dispatchTurnLoop config currentProcess (toInt32 config.delaysPerExec) fuel
    { world :=
        { w with
          heap := Function.update w.heap currentProcess
            ((w.heap currentProcess).setState ProcessState.RUNNING) }
      currentDelay := 0, executed := [], barrierCalls := 0 }

/-! ## The threads of the scheduler as steps (`Scheduler.cpp`) -/

/-- Where a worker thread stands in `executeProcesses`. -/
inductive WorkerAt where
  /-- In `cv.wait` at the top of the outer loop (line 77). -/
  | queueWait
  /-- At the test of the inner `while` (line 90), with its `currentProcess` and
  the local `currentDelay`. -/
  | loopHead (currentProcess : Handle) (currentDelay : Int)
  /-- About to call `waitForCycleSync`: in the inner loop (line 117) with its
  process and `currentDelay`, or without a process (line 143). -/
  | beforeSync (held : Option (Handle × Int))
  /-- Blocked in the `cv.wait` of `waitForCycleSync` (line 284). -/
  | inBarrier (held : Option (Handle × Int))
  /-- Past the inner loop, before the end-of-turn block (line 121). -/
  | turnEnd (currentProcess : Handle)
  /-- In `updateCoreStatus` (line 291), locking the `mutex` that it holds. -/
  | relocking
  deriving DecidableEq

/-- Where a worker continues when `waitForCycleSync` returns. -/
def WorkerAt.resume : Option (Handle × Int) → WorkerAt
  | none => .queueWait
  | some (currentProcess, currentDelay) => .loopHead currentProcess currentDelay

/-- The world, the position of every worker thread, and a record that the code
does not keep: `called` lists the workers that called `waitForCycleSync` since
the last call that incremented the cycle counter. -/
structure SystemState where
  world : World
  workers : List WorkerAt
  called : List Nat

/-- The state that `startScheduling` leaves when it runs on the constructed
scheduler: `numCPU` workers, none of which has a process. -/
def initialState (config : Config) (heap : Handle → Process) (memory : MemoryManager) :
    SystemState :=
  { world := { heap := heap, scheduler := Scheduler.ctor config, memory := memory }
    workers := List.replicate config.numCPU.toNat WorkerAt.queueWait
    called := [] }

/-- The steps of the threads.  Each is one stretch of code that runs under one
lock, or that touches only the process of the worker that runs it. -/
inductive ThreadStep where
  /-- Another thread calls `addProcess` for `p`. -/
  | addProcess (p : Handle)
  /-- Another thread calls `allocateMemory` for `p`. -/
  | allocateMemory (lockAcquired : Bool) (p : Handle)
  /-- Worker `i` leaves `cv.wait` and calls `getNextProcess` (lines 75-87). -/
  | fetch (i : Nat)
  /-- Worker `i` tests the inner `while` and runs the delay-or-execute part of
  one iteration (lines 90-114). -/
  | round (i : Nat)
  /-- Worker `i` calls `waitForCycleSync` (lines 271-285). -/
  | sync (i : Nat)
  /-- Worker `i` leaves the `cv.wait` of `waitForCycleSync`. -/
  | wake (i : Nat)
  /-- Worker `i` runs the end-of-turn block (lines 121-138). -/
  | finishTurn (i : Nat)
  /-- One round of `cycleCounterLoop`. -/
  | tick
  deriving DecidableEq

/-- No worker stands in `updateCoreStatus` with `mutex` held: `mutex` can be
locked. -/
def mutexFree (st : SystemState) : Bool :=
  st.workers.all (fun pos => decide (pos ≠ WorkerAt.relocking))

/-- One step of one thread; `none` when the thread cannot take the step in
this state (it stands elsewhere, waits for a condition or a lock that is not
available, or `setCPUCoreID` throws). -/
def threadStep (config : Config) (st : SystemState) : ThreadStep → Option SystemState
  | .addProcess p =>
    if mutexFree st then
      some { st with world := { st.world with scheduler := st.world.scheduler.addProcess p } }
    else none
  | .allocateMemory lockAcquired p =>
    if mutexFree st then
      some { st with world := (allocateMemory config lockAcquired (some p) st.world).2 }
    else none
  | .fetch i =>
    match st.workers[i]? with
    | some .queueWait =>
      if mutexFree st && !st.world.scheduler.readyQueue.isEmpty then
        match getNextProcess config st.world with
        | .error _ => none
        | .ok (none, w1) =>
          some { st with world := w1, workers := st.workers.set i (.beforeSync none) }
        | .ok (some currentProcess, w1) =>
          some { st with
            world :=
              { w1 with
                heap := Function.update w1.heap currentProcess
                  ((w1.heap currentProcess).setState ProcessState.RUNNING) }
            workers := st.workers.set i (.loopHead currentProcess 0) }
      else none
    | _ => none
  | .round i =>
    match st.workers[i]? with
    | some (.loopHead currentProcess currentDelay) =>
      if turnOver config (st.world.heap currentProcess) then
        some { st with workers := st.workers.set i (.turnEnd currentProcess) }
      else
        let round := instructionRound config currentProcess (toInt32 config.delaysPerExec)
          st.world currentDelay
        some { st with
          world := round.1
          workers := st.workers.set i (.beforeSync (some (currentProcess, round.2))) }
    | _ => none
  | .sync i =>
    match st.workers[i]? with
    | some (.beforeSync held) =>
      let sync := waitForCycleSync st.world.scheduler
      some
        { world := { st.world with scheduler := sync.1 }
          workers := st.workers.set i (if sync.2 then WorkerAt.resume held else .inBarrier held)
          called := if sync.2 then [] else st.called ++ [i] }
    | _ => none
  | .wake i =>
    match st.workers[i]? with
    | some (.inBarrier held) =>
      if st.world.scheduler.coresWaiting = 0 then
        some { st with workers := st.workers.set i (WorkerAt.resume held) }
      else none
    | _ => none
  | .finishTurn i =>
    match st.workers[i]? with
    | some (.turnEnd currentProcess) =>
      if mutexFree st then
        match endOfTurn st.world currentProcess with
        | none =>
          some { st with
            world := endOfTurnLists st.world currentProcess
            workers := st.workers.set i .relocking }
        | some w1 => some { st with world := w1, workers := st.workers.set i .queueWait }
      else none
    | _ => none
  | .tick =>
    some { st with world := { st.world with scheduler := cycleCounterTick st.world.scheduler } }

/-- The state after the given steps, in order; a step that cannot be taken is
skipped. -/
def afterSteps (config : Config) : List ThreadStep → SystemState → SystemState
  | [], st => st
  | a :: rest, st =>
    match threadStep config st a with
    | none => afterSteps config rest st
    | some st2 => afterSteps config rest st2

/-- The process that a worker holds at its position, if any. -/
def WorkerAt.process : WorkerAt → Option Handle
  | .loopHead currentProcess _ => some currentProcess
  | .beforeSync held => held.map Prod.fst
  | .inBarrier held => held.map Prod.fst
  | .turnEnd currentProcess => some currentProcess
  | .queueWait => none
  | .relocking => none

/-- Whether the step is a worker's call of `getNextProcess`. -/
def ThreadStep.isFetch : ThreadStep → Bool
  | .fetch _ => true
  | _ => false

/-- `Scheduler::stopScheduling` (lines 39-59).  Once `processingActive` is false
a worker at the wait on the ready queue leaves `executeProcesses` (lines 77-80)
and takes no further process; a worker elsewhere runs on, since neither the
inner loop nor `waitForCycleSync` tests the flag.  `steps` is the order in which
the threads run after the flags are cleared and `cv` is notified.  The `join`s
return when every worker has come to the top of the outer loop; the result is
`none` when after `steps` some worker has not. -/
def stopScheduling (config : Config) (steps : List ThreadStep) (st : SystemState) :
    Option SystemState :=
  let st2 := afterSteps config (steps.filter (fun a => !a.isFetch)) st
  if st2.workers.all (fun pos => decide (pos = WorkerAt.queueWait)) then
    some { st2 with workers := [] }
  else none

/-! ## Process manager (`ProcessManager.cpp`) -/

/-- The data members that `ProcessManager::createProcess` uses: the map
`processes` from names to processes and the counter `nextPID`. -/
structure ProcessManager where
  processes : List (String × Handle)
  nextPID : Int
  deriving DecidableEq

/-- What leaves `createProcess` as an exception: the two `std::runtime_error`s
that it throws itself (lines 12 and 19), and the exception of a statement of
its `try` block, which the `catch` clause logs and throws again (lines 28-32). -/
inductive RuntimeError where
  | nameEmpty
  | nameExists
  | rethrown
  deriving DecidableEq

/-- How far the `try` block of `createProcess` gets (lines 24-26).  Each of its
three statements can throw: the constructor of `Process` draws the instruction
count from `std::random_device` and allocates one command per instruction, the
assignment `processes[name] = process` allocates a map node, and
`Scheduler::addProcess` locks a mutex and pushes on the queue.  `lines` is the
instruction count that the constructor drew. -/
inductive TryOutcome where
  | constructorThrows
  | insertThrows (lines : Nat)
  | addProcessThrows (lines : Nat)
  | completes (lines : Nat)
  deriving DecidableEq

/-- `ProcessManager::createProcess`.  `newHandle` is the pointer that
`std::make_shared<Process>` returns.  The result is the exception that leaves
the call, if any, with the manager and the world as the call leaves them.  The
argument `nextPID++` is evaluated before the constructor runs; a map insertion
or a queue push that throws leaves its container as it was. -/
def createProcess (newHandle : Handle) (outcome : TryOutcome) (name : String)
    (pm : ProcessManager) (w : World) : Option RuntimeError × ProcessManager × World :=
  if name = "" then (some .nameEmpty, pm, w)
  else if (mapFind name pm.processes).isSome then (some .nameExists, pm, w)
  else
    match outcome with
    | .constructorThrows => (some .rethrown, { pm with nextPID := pm.nextPID + 1 }, w)
    | .insertThrows _ => (some .rethrown, { pm with nextPID := pm.nextPID + 1 }, w)
    | .addProcessThrows lines =>
      (some .rethrown,
        { processes := mapAssign name newHandle pm.processes, nextPID := pm.nextPID + 1 },
        { w with heap := Function.update w.heap newHandle (newProcess pm.nextPID name lines) })
    | .completes lines =>
      (none,
        { processes := mapAssign name newHandle pm.processes, nextPID := pm.nextPID + 1 },
        { w with
          heap := Function.update w.heap newHandle (newProcess pm.nextPID name lines)
          scheduler := w.scheduler.addProcess newHandle })

/-! ## Vocabulary of the claims -/

/-- Frame `i` exists and is free. -/
def FreeAt (frames : List Frame) (i : Nat) : Prop :=
  (frames[i]?).map Frame.isFree = some true

instance (frames : List Frame) (i : Nat) : Decidable (FreeAt frames i) := by
  unfold FreeAt; infer_instance

/-- Frame `i` exists and is not free. -/
def UsedAt (frames : List Frame) (i : Nat) : Prop :=
  (frames[i]?).map Frame.isFree = some false

instance (frames : List Frame) (i : Nat) : Decidable (UsedAt frames i) := by
  unfold UsedAt; infer_instance

/-- Frames `s, s+1, ..., s+k-1` all exist and are free. -/
def FreeRunAt (frames : List Frame) (k s : Nat) : Prop :=
  ∀ i, i < k → FreeAt frames (s + i)

instance (frames : List Frame) (k s : Nat) : Decidable (FreeRunAt frames k s) := by
  unfold FreeRunAt; infer_instance

/-- The free flag and the owner of a frame. -/
def Frame.status (f : Frame) : Bool × String := (f.isFree, f.processName)

/-- The number of frames marked not free. -/
def usedFrames (frames : List Frame) : Nat := frames.countP (fun f => !f.isFree)

/-- Frame index `i` lies in the run of `k` frames that `info` records. -/
def InRun (info : ProcessMemoryInfo) (k i : Nat) : Prop :=
  info.startFrame ≤ i ∧ i < info.startFrame + k

instance (info : ProcessMemoryInfo) (k i : Nat) : Decidable (InRun info k i) := by
  unfold InRun; infer_instance

/-- Frames `a .. b-1` are a maximal run of consecutive free frames: the run is
not empty, every frame of it is free, the frame before it (if any) and the
frame after it (if any) are not free. -/
def MaximalFreeRun (frames : List Frame) (a b : Nat) : Prop :=
  a < b ∧ b ≤ frames.length ∧ (∀ i, i < b → a ≤ i → FreeAt frames i) ∧
    (a = 0 ∨ ¬ FreeAt frames (a - 1)) ∧ (b = frames.length ∨ ¬ FreeAt frames b)

instance (frames : List Frame) (a b : Nat) : Decidable (MaximalFreeRun frames a b) := by
  unfold MaximalFreeRun; infer_instance

/-- External fragmentation in the words of the specification: the sum, over
every maximal run of consecutive free frames that is strictly shorter than
`framesPerProcess`, of run length times frame size. -/
def specExternalFragmentation (frames : List Frame) (framesPerProcess frameSize : Nat) : Nat :=
  ∑ a in Finset.range frames.length, ∑ b in Finset.range (frames.length + 1),
    if MaximalFreeRun frames a b ∧ b - a < framesPerProcess then (b - a) * frameSize else 0

/-- The world in which the memory manager has just been constructed. -/
def freshWorld (config : Config) (heap : Handle → Process) (scheduler : Scheduler) : World :=
  { heap := heap, scheduler := scheduler, memory := MemoryManager.ctor config }

/-- Two calls of `allocateMemory` in a row, for `p1` and then for `p2`: the two
results and the final world. -/
def allocateTwice (config : Config) (lock1 lock2 : Bool) (p1 p2 : Handle) (w : World) :
    Bool × Bool × World :=
  let r1 := allocateMemory config lock1 (some p1) w
  let r2 := allocateMemory config lock2 (some p2) r1.2
  (r1.1, r2.1, r2.2)

/-- The memory states reachable from the freshly constructed manager by calls
of `allocateMemory` (any process handle, any lock outcome, any state of the
rest of the world) and of `releaseMemory` (any name). -/
inductive Reachable (config : Config) : MemoryManager → Prop where
  | ctor : Reachable config (MemoryManager.ctor config)
  | allocate (lockAcquired : Bool) (process : Option Handle) (w : World) :
      Reachable config w.memory →
      Reachable config (allocateMemory config lockAcquired process w).2.memory
  | release (m : MemoryManager) (processName : String) :
      Reachable config m → Reachable config (m.releaseMemory processName)

/-- The reachable memory states in which `allocateMemory` was never called for
a process whose name had an entry in the process-memory map at the time of the
call. -/
inductive ReachableFresh (config : Config) : MemoryManager → Prop where
  | ctor : ReachableFresh config (MemoryManager.ctor config)
  | allocate (lockAcquired : Bool) (process : Option Handle) (w : World) :
      ReachableFresh config w.memory →
      (∀ p, process = some p → mapFind (w.heap p).name w.memory.processMemoryMap = none) →
      ReachableFresh config (allocateMemory config lockAcquired process w).2.memory
  | release (m : MemoryManager) (processName : String) :
      ReachableFresh config m → ReachableFresh config (m.releaseMemory processName)

/-- Core slot `c` is free and every slot before it is busy. -/
def LowestFreeCore (coreStatus : List Bool) (c : Nat) : Prop :=
  coreStatus[c]? = some false ∧ ∀ i, i < c → coreStatus[i]? = some true

instance (coreStatus : List Bool) (c : Nat) : Decidable (LowestFreeCore coreStatus c) := by
  unfold LowestFreeCore; infer_instance

/-- The policy call of `getNextProcess`. -/
def policySchedule (config : Config) (w : World) : Option Handle × World :=
  if config.schedulerType = "rr" then roundRobinSchedule config w else fcfsSchedule w

/-- The scheduler states (with the processes behind the handles) reachable from
the constructed scheduler by the steps admission (`addProcess`), re-admission by
`allocateMemory`, dispatch (`getNextProcess` returning normally) and a completed
end-of-turn block. -/
inductive SchedulerReachable (config : Config) : World → Prop where
  | init (heap : Handle → Process) (memory : MemoryManager) :
      SchedulerReachable config
        { heap := heap, scheduler := Scheduler.ctor config, memory := memory }
  | addProcess (w : World) (p : Handle) :
      SchedulerReachable config w →
      SchedulerReachable config { w with scheduler := w.scheduler.addProcess p }
  | allocateMemory (w : World) (lockAcquired : Bool) (p : Handle) :
      SchedulerReachable config w →
      SchedulerReachable config (allocateMemory config lockAcquired (some p) w).2
  | dispatch (w w2 : World) (r : Option Handle) :
      SchedulerReachable config w → getNextProcess config w = .ok (r, w2) →
      SchedulerReachable config w2
  | endOfTurn (w w2 : World) (p : Handle) :
      SchedulerReachable config w → p ∈ w.scheduler.runningProcesses →
      endOfTurn w p = some w2 → SchedulerReachable config w2

/-- The states reachable by admission, re-admission and dispatch when only
processes that are neither in the ready queue nor in the running list are
admitted or re-admitted. -/
inductive SchedulerReachableFresh (config : Config) : World → Prop where
  | init (heap : Handle → Process) (memory : MemoryManager) :
      SchedulerReachableFresh config
        { heap := heap, scheduler := Scheduler.ctor config, memory := memory }
  | addProcess (w : World) (p : Handle) :
      SchedulerReachableFresh config w →
      p ∉ w.scheduler.readyQueue → p ∉ w.scheduler.runningProcesses →
      SchedulerReachableFresh config { w with scheduler := w.scheduler.addProcess p }
  | allocateMemory (w : World) (lockAcquired : Bool) (p : Handle) :
      SchedulerReachableFresh config w →
      p ∉ w.scheduler.readyQueue → p ∉ w.scheduler.runningProcesses →
      SchedulerReachableFresh config (allocateMemory config lockAcquired (some p) w).2
  | dispatch (w w2 : World) (r : Option Handle) :
      SchedulerReachableFresh config w → getNextProcess config w = .ok (r, w2) →
      SchedulerReachableFresh config w2

/-- The states of the step model that the threads reach from the state that
`startScheduling` leaves. -/
inductive SystemReachable (config : Config) : SystemState → Prop where
  | init (heap : Handle → Process) (memory : MemoryManager) :
      SystemReachable config (initialState config heap memory)
  | step (st st2 : SystemState) (a : ThreadStep) :
      SystemReachable config st → threadStep config st a = some st2 →
      SystemReachable config st2

/-- Worker `i` holds a process of the running list. -/
def HoldsRunning (st : SystemState) (i : Nat) : Prop :=
  ∃ p d, p ∈ st.world.scheduler.runningProcesses ∧
    (st.workers[i]? = some (.loopHead p d) ∨ st.workers[i]? = some (.beforeSync (some (p, d))) ∨
      st.workers[i]? = some (.inBarrier (some (p, d))))

/-- The number of free frames. -/
def freeFrames (frames : List Frame) : Nat := frames.countP (fun f => f.isFree)

/-- A sequence of `allocateMemory` calls made in order, each given with the
outcome of its lock and its process: for every call its result together with
the map entry of its process right after the call, and the final world. -/
def allocateSequence (config : Config) :
    List (Bool × Handle) → World → List (Bool × Option ProcessMemoryInfo) × World
  | [], w => ([], w)
  | (lockAcquired, p) :: rest, w =>
    let r := allocateMemory config lockAcquired (some p) w
    let rs := allocateSequence config rest r.2
    ((r.1, mapFind (w.heap p).getName r.2.memory.processMemoryMap) :: rs.1, rs.2)

/-- The number of instructions that a dispatch turn is to execute for a
process: all that remain, and under `"rr"` at most what the quantum allows. -/
def turnLength (config : Config) (process : Process) : Nat :=
  if config.schedulerType = "rr" then
    min (process.linesOfCode - process.commandCounter)
      (config.quantumCycles - process.quantumTime)
  else process.linesOfCode - process.commandCounter

/-- The pointer that `std::make_shared<Process>` returns is new: the process is
not in the ready queue and no worker holds it. -/
def FreshHandle (st : SystemState) (newHandle : Handle) : Prop :=
  newHandle ∉ st.world.scheduler.readyQueue ∧
  ∀ (i : Nat) (pos : WorkerAt), st.workers[i]? = some pos → pos.process ≠ some newHandle

/-- The states of the step model that the threads reach from the state that
`startScheduling` leaves when processes are admitted by `createProcess` only,
each call with a newly made `Process`: the steps are the calls of
`createProcess`, whether they return or throw, and the steps of the worker
threads and of the backup clock. -/
inductive CreatedReachable (config : Config) : SystemState → Prop where
  | init (heap : Handle → Process) (memory : MemoryManager) :
      CreatedReachable config (initialState config heap memory)
  | create (st : SystemState) (pm pm2 : ProcessManager) (newHandle : Handle)
      (outcome : TryOutcome) (name : String) (raised : Option RuntimeError) (w2 : World) :
      CreatedReachable config st → FreshHandle st newHandle →
      createProcess newHandle outcome name pm st.world = (raised, pm2, w2) →
      CreatedReachable config { st with world := w2 }
  | step (st st2 : SystemState) (a : ThreadStep) :
      CreatedReachable config st → (∀ p, a ≠ .addProcess p) →
      (∀ lockAcquired p, a ≠ .allocateMemory lockAcquired p) →
      threadStep config st a = some st2 → CreatedReachable config st2

/-- The process `p` is admitted as a process is that no thread has in hand: it
is not in the ready queue, no worker holds it, and its quantum counter is 0,
the value that the constructor of `Process` sets and that the end-of-turn block
restores before it requeues. -/
def FreshProcess (st : SystemState) (p : Handle) : Prop :=
  FreshHandle st p ∧ (st.world.heap p).quantumTime = 0

/-- The states of the step model that the threads reach from the state that
`startScheduling` leaves when every admission is that of a fresh process: the
calls of `createProcess`, each with a newly made `Process`, the calls of
`addProcess` and of `allocateMemory` for a process that is fresh at that
moment, and every step of the worker threads and of the backup clock. -/
inductive FreshReachable (config : Config) : SystemState → Prop where
  | init (heap : Handle → Process) (memory : MemoryManager) :
      FreshReachable config (initialState config heap memory)
  | create (st : SystemState) (pm pm2 : ProcessManager) (newHandle : Handle)
      (outcome : TryOutcome) (name : String) (raised : Option RuntimeError) (w2 : World) :
      FreshReachable config st → FreshHandle st newHandle →
      createProcess newHandle outcome name pm st.world = (raised, pm2, w2) →
      FreshReachable config { st with world := w2 }
  | step (st st2 : SystemState) (a : ThreadStep) :
      FreshReachable config st → (∀ p, a = .addProcess p → FreshProcess st p) →
      (∀ lockAcquired p, a = .allocateMemory lockAcquired p → FreshProcess st p) →
      threadStep config st a = some st2 → FreshReachable config st2

/-! ## Vocabulary of the proofs -/

/-- What `findFirstFit` is to return on `full` for a footprint of `k` frames. -/
def FirstFitResult (full : List Frame) (k r : Nat) : Prop :=
  (r = full.length ∧ ∀ t, ¬ FreeRunAt full k t) ∨
  (FreeRunAt full k r ∧ ∀ t, FreeRunAt full k t → r ≤ t)

/-- The frame that `allocateMemory` writes at index `i`. -/
def allocatedFrame (name : String) (frameSize i : Nat) : Frame :=
  { processName := name
    isFree := false
    startAddress := i * frameSize
    endAddress := (i + 1) * frameSize - 1 }

/-- The memory manager after the success branch of `allocateMemory` for a
process called `name`. -/
def MemoryManager.allocated (m : MemoryManager) (name : String) : MemoryManager :=
  MemoryManager.updateFragmentation
    { m with
      frames := allocateFrames name m.frameSize m.framesPerProcess m.findFirstFit m.frames
      processMemoryMap := mapAssign name
        { startFrame := m.findFirstFit
          numFrames := m.framesPerProcess
          startAddress := m.findFirstFit * m.frameSize
          endAddress := (m.findFirstFit + m.framesPerProcess) * m.frameSize - 1 }
        m.processMemoryMap
      processesInMemory := setInsert name m.processesInMemory }

/-- What `releaseMemory` does to one frame. -/
def Frame.release (f : Frame) : Frame := { f with isFree := true, processName := "" }

/-- The memory manager after the branch of `releaseMemory` taken when the map
holds `info` for `name`. -/
def MemoryManager.released (m : MemoryManager) (name : String) (info : ProcessMemoryInfo) :
    MemoryManager :=
  MemoryManager.updateFragmentation
    { m with
      frames := releaseFrames info.startFrame info.numFrames 0 m.frames
      processMemoryMap := mapErase name m.processMemoryMap
      processesInMemory := setErase name m.processesInMemory }

/-- The number of free frames at the front of `l`. -/
def leadingFree (l : List Frame) : Nat := (l.takeWhile (fun f => f.isFree)).length

/-- What a free run of `len` frames adds to the external fragmentation. -/
def runContribution (k fs len : Nat) : Nat := if len < k then len * fs else 0

/-- Index `a` of `l` starts a maximal free run, where `prevFree` tells whether
the frame before the head of `l` is free. -/
def StartsRun (prevFree : Bool) (l : List Frame) (a : Nat) : Prop :=
  FreeAt l a ∧ (if a = 0 then prevFree = false else ¬ FreeAt l (a - 1))

instance (prevFree : Bool) (l : List Frame) (a : Nat) : Decidable (StartsRun prevFree l a) := by
  unfold StartsRun; infer_instance

/-- The fragmentation of `l` counted run by run from the run starts. -/
def runSum (k fs : Nat) (prevFree : Bool) (l : List Frame) : Nat :=
  ∑ a in Finset.range l.length,
    if StartsRun prevFree l a then runContribution k fs (leadingFree (l.drop a)) else 0

/-- The invariant of the reachable memory states. -/
structure MemInv (m : MemoryManager) : Prop where
  length_eq : m.frames.length = m.totalFrames
  nodup : (m.processMemoryMap.map Prod.fst).Nodup
  entry : ∀ e ∈ m.processMemoryMap,
    e.2.numFrames = m.framesPerProcess ∧
    e.2.startFrame + m.framesPerProcess ≤ m.frames.length ∧
    ∀ i, InRun e.2 m.framesPerProcess i → UsedAt m.frames i
  disjoint : ∀ e1 ∈ m.processMemoryMap, ∀ e2 ∈ m.processMemoryMap, e1.1 ≠ e2.1 →
    ∀ i, ¬ (InRun e1.2 m.framesPerProcess i ∧ InRun e2.2 m.framesPerProcess i)
  count : m.processMemoryMap.length * m.framesPerProcess ≤ usedFrames m.frames

/-- What holds in addition to `MemInv` when no name is allocated twice. -/
structure FreshInv (m : MemoryManager) : Prop where
  owner : ∀ e ∈ m.processMemoryMap, ∀ i, InRun e.2 m.framesPerProcess i →
    (m.frames[i]?).map Frame.processName = some e.1
  cover : ∀ i f, m.frames[i]? = some f → f.isFree = false →
    ∃ info, (f.processName, info) ∈ m.processMemoryMap ∧ InRun info m.framesPerProcess i
  count_eq : m.processMemoryMap.length * m.framesPerProcess = usedFrames m.frames

/-- The invariant of the scheduler states reached with fresh admissions. -/
structure SchedInv (heap : Handle → Process) (s : Scheduler) : Prop where
  nodup : (s.readyQueue ++ s.runningProcesses).Nodup
  bound : ∀ p ∈ s.runningProcesses,
    ∃ c : Nat, (heap p).cpuCoreID = (c : Int) ∧ s.coreStatus[c]? = some true
  inj : ∀ p ∈ s.runningProcesses, ∀ q ∈ s.runningProcesses,
    (heap p).cpuCoreID = (heap q).cpuCoreID → p = q
  busy : ∀ c : Nat, s.coreStatus[c]? = some true →
    ∃ p ∈ s.runningProcesses, (heap p).cpuCoreID = (c : Int)

/-- The invariant of the step model that relates `coresWaiting` to the callers
of `waitForCycleSync`: every caller since the last incrementing call is blocked
in the barrier, and `coresWaiting` counts them. -/
structure BarrierInv (st : SystemState) : Prop where
  count : st.world.scheduler.coresWaiting = (st.called.length : Int)
  nodup : st.called.Nodup
  blocked : ∀ i ∈ st.called, ∃ held, st.workers[i]? = some (.inBarrier held)

/-- What the reachable memory states satisfy besides `MemInv`: a free frame has
no owner, every resident name has a map entry, and the stored fragmentation is
up to date. -/
structure RestoreInv (m : MemoryManager) : Prop where
  owner_free : ∀ (i : Nat) (f : Frame), m.frames[i]? = some f → f.isFree = true →
    f.processName = ""
  resident : ∀ n ∈ m.processesInMemory, mapFind n m.processMemoryMap ≠ none
  fragmentation : m.currentFragmentation = m.getExternalFragmentation

/-- The first `s` footprints of the frame table are used and every later frame
is free. -/
structure PrefixFilled (m : MemoryManager) (s : Nat) : Prop where
  used : ∀ i, i < s * m.framesPerProcess → UsedAt m.frames i
  free : ∀ i, s * m.framesPerProcess ≤ i → i < m.frames.length → FreeAt m.frames i
  fits : s * m.framesPerProcess ≤ m.frames.length

/-- The frame table is made of whole footprints: the frames of one footprint
`b * k .. b * k + k - 1` are free together or used together, the frames after
the last whole footprint are free, and every recorded run starts at a multiple
of the footprint. -/
structure AlignedInv (m : MemoryManager) : Prop where
  block : ∀ b t1 t2, t1 < m.framesPerProcess → t2 < m.framesPerProcess →
    b * m.framesPerProcess + m.framesPerProcess ≤ m.frames.length →
    FreeAt m.frames (b * m.framesPerProcess + t1) → FreeAt m.frames (b * m.framesPerProcess + t2)
  tail : ∀ i, (m.frames.length / m.framesPerProcess) * m.framesPerProcess ≤ i →
    i < m.frames.length → FreeAt m.frames i
  start : ∀ e ∈ m.processMemoryMap, ∃ b, e.2.startFrame = b * m.framesPerProcess

/-- The invariant of the states reached with `createProcess` admissions: the
processes in the ready queue are pairwise distinct, have quantum counter 0 and
are held by no worker, and no process is held by two workers. -/
structure QueueInv (config : Config) (st : SystemState) : Prop where
  quantum : ∀ p ∈ st.world.scheduler.readyQueue, (st.world.heap p).quantumTime = 0
  nodup : st.world.scheduler.readyQueue.Nodup
  unheld : ∀ p ∈ st.world.scheduler.readyQueue, ∀ (i : Nat) (pos : WorkerAt),
    st.workers[i]? = some pos → pos.process ≠ some p
  distinct : ∀ (i j : Nat) (pos1 pos2 : WorkerAt) (p : Handle),
    st.workers[i]? = some pos1 → st.workers[j]? = some pos2 →
    pos1.process = some p → pos2.process = some p → i = j
  cores : st.world.scheduler.coreStatus.length = config.numCPU.toNat

/-- Worker 0 is blocked in `waitForCycleSync` with `coresWaiting = 1`, and worker
1 is past its last call of `waitForCycleSync`: it holds the finished `P2` at the
test of the inner loop, or stands before or inside the end-of-turn block. -/
structure BlockedInv (st : SystemState) : Prop where
  waiting : st.world.scheduler.coresWaiting = 1
  workers :
    (st.workers = [.inBarrier (some (1, 0)), .loopHead 2 0] ∧
      (st.world.heap 2).isFinished = true) ∨
    st.workers = [.inBarrier (some (1, 0)), .turnEnd 2] ∨
    st.workers = [.inBarrier (some (1, 0)), .relocking]

/-- The invariant of the states reached with fresh admissions: the running list
holds, once each, exactly the processes that the workers hold; no worker is at
the barrier without a process; and no more core slots are busy than workers
have left the wait on the ready queue. -/
structure HolderInv (config : Config) (st : SystemState) : Prop where
  queue : QueueInv config st
  running_nodup : st.world.scheduler.runningProcesses.Nodup
  held_running : ∀ (i : Nat) (pos : WorkerAt) (p : Handle), st.workers[i]? = some pos →
    pos.process = some p → p ∈ st.world.scheduler.runningProcesses
  running_held : ∀ p ∈ st.world.scheduler.runningProcesses,
    ∃ (i : Nat) (pos : WorkerAt), st.workers[i]? = some pos ∧ pos.process = some p
  no_idle : ∀ (i : Nat) (pos : WorkerAt), st.workers[i]? = some pos →
    pos ≠ .beforeSync none ∧ pos ≠ .inBarrier none
  busy : st.world.scheduler.coreStatus.countP (fun b => b) ≤
    st.workers.countP (fun pos => decide (pos ≠ WorkerAt.queueWait))
  workers_length : st.workers.length = config.numCPU.toNat

/-! ## Example inputs -/

/-- A used frame owned by `name`. -/
def usedFrame (name : String) : Frame := { processName := name, isFree := false }

/-- Seven frames, all free except frames 0 and 3; a footprint of three frames. -/
def exampleMemory : MemoryManager :=
  { totalFrames := 7
    frameSize := 16
    processSize := 48
    framesPerProcess := 3
    processMemoryMap := []
    frames := [usedFrame "A", {}, {}, usedFrame "B", {}, {}, {}]
    currentFragmentation := 32
    processesInMemory := [] }

/-- Three frames of which only the middle one is free; a footprint of two. -/
def fullMemory : MemoryManager :=
  { totalFrames := 3
    frameSize := 16
    processSize := 32
    framesPerProcess := 2
    processMemoryMap := []
    frames := [usedFrame "A", {}, usedFrame "B"]
    currentFragmentation := 16
    processesInMemory := [] }

/-- Three frames of which the first two belong to `A`, recorded in the map. -/
def residentMemory : MemoryManager :=
  { totalFrames := 3
    frameSize := 16
    processSize := 32
    framesPerProcess := 2
    processMemoryMap :=
      [("A", { startFrame := 0, numFrames := 2, startAddress := 0, endAddress := 31 })]
    frames := [allocatedFrame "A" 16 0, allocatedFrame "A" 16 1, {}]
    currentFragmentation := 16
    processesInMemory := ["A"] }

/-- A scheduler with `numCPUs` idle cores and nothing queued. -/
def idleScheduler (numCPUs : Nat) : Scheduler :=
  { readyQueue := [], runningProcesses := [], finishedProcesses := []
    coreStatus := List.replicate numCPUs false, coresWaiting := 0, cpuCycles := 0 }

/-- A heap whose handle `1` is process `P1` and every other handle is `P2`. -/
def exampleHeap : Handle → Process :=
  fun h => if h = 1 then newProcess 1 "P1" 5 else newProcess 2 "P2" 5

/-- A heap in which every handle is the process `P1`, currently `RUNNING`. -/
def runningHeap : Handle → Process :=
  fun _ => { newProcess 1 "P1" 5 with state := ProcessState.RUNNING }

/-- A configuration with the given policy and memory sizes. -/
def exampleConfig (policy : String) (maxOverallMem memPerFrame memPerProc : Nat) : Config :=
  { numCPU := 1, schedulerType := policy, quantumCycles := 2, batchProcessFreq := 1
    minInstructions := 1, maxInstructions := 5, delaysPerExec := 0
    maxOverallMem := maxOverallMem, memPerFrame := memPerFrame, memPerProc := memPerProc }

/-- The world used in the examples: `exampleHeap`, an idle one-core scheduler
and the given memory manager. -/
def exampleWorld (m : MemoryManager) : World :=
  { heap := exampleHeap, scheduler := idleScheduler 1, memory := m }

/-- A validated configuration with four frames of one byte and a footprint of
two frames. -/
def smallConfig : Config := exampleConfig "fcfs" 4 1 2

/-- The memory manager after `allocateMemory` has succeeded twice for the
process of handle 1 (named `P1`) from the fresh manager of `smallConfig`. -/
def twiceAllocated : MemoryManager :=
  (allocateMemory smallConfig true (some 1)
    (allocateMemory smallConfig true (some 1)
      (freshWorld smallConfig exampleHeap (idleScheduler 1))).2).2.memory

/-- The memory manager after `allocateMemory` has succeeded for `P1` (handle 1)
and then for `P2` (handle 2) from the fresh manager of `smallConfig`. -/
def bothAllocated : MemoryManager :=
  (allocateTwice smallConfig true true 1 2
    (freshWorld smallConfig exampleHeap (idleScheduler 1))).2.2.memory

/-- Two processes of `lines` instructions each: handle 1 is `P1`, every other
handle is `P2`. -/
def twoProcessHeap (lines : Nat) : Handle → Process :=
  fun h => if h = 1 then newProcess 1 "P1" lines else newProcess 2 "P2" lines

/-- A configuration with the given core count, policy and quantum, no delay
and the default memory sizes. -/
def schedulerConfig (numCPU : Int) (policy : String) (quantum : Nat) : Config :=
  { numCPU := numCPU, schedulerType := policy, quantumCycles := quantum, batchProcessFreq := 1
    minInstructions := 1, maxInstructions := 5, delaysPerExec := 0 }

/-- The world after `P1` and `P2` were admitted, in this order, to the freshly
constructed scheduler of `config`. -/
def admittedWorld (config : Config) (lines : Nat) : World :=
  { heap := twoProcessHeap lines
    scheduler := ((Scheduler.ctor config).addProcess 1).addProcess 2
    memory := MemoryManager.ctor config }

/-- The world after one dispatch step (`getNextProcess`), or the world itself
when `setCPUCoreID` throws. -/
def dispatchWorld (config : Config) (w : World) : World :=
  match getNextProcess config w with
  | .ok r => r.2
  | .error _ => w

/-- The world in which `P1` alone was admitted twice to the freshly constructed
scheduler of `config`. -/
def twiceAdmittedWorld (config : Config) : World :=
  { heap := twoProcessHeap 3
    scheduler := ((Scheduler.ctor config).addProcess 1).addProcess 1
    memory := MemoryManager.ctor config }

/-- Two cores under `"rr"` with quantum 1; `P1` was admitted twice, worker 0
fetched it and executed one instruction, and worker 1 then found the expired
`P1` at the head of the queue and got no process. -/
def idleCallState : SystemState :=
  afterSteps (schedulerConfig 2 "rr" 1)
    [.addProcess 1, .addProcess 1, .fetch 0, .round 0, .fetch 1]
    (initialState (schedulerConfig 2 "rr" 1) (twoProcessHeap 3)
      (MemoryManager.ctor (schedulerConfig 2 "rr" 1)))

/-- One core, `"fcfs"`, and an inter-instruction delay of `2 ^ 31`, a value of
the `uint32_t` field that `validateParameters` accepts. -/
def longDelayConfig : Config :=
  { schedulerConfig 1 "fcfs" 2 with delaysPerExec := 2147483648 }

/-- One core, `"fcfs"`, and an inter-instruction delay of 1. -/
def shortDelayConfig : Config :=
  { schedulerConfig 1 "fcfs" 2 with delaysPerExec := 1 }

/-- One core under `"rr"` with quantum 2; `createProcess` was called once, for
`P1` with three instructions, in the state that `startScheduling` leaves. -/
def createdState : SystemState :=
  { initialState (schedulerConfig 1 "rr" 2) exampleHeap
      (MemoryManager.ctor (schedulerConfig 1 "rr" 2)) with
    world :=
      { heap := Function.update exampleHeap 1 (newProcess 0 "P1" 3)
        scheduler := (Scheduler.ctor (schedulerConfig 1 "rr" 2)).addProcess 1
        memory := MemoryManager.ctor (schedulerConfig 1 "rr" 2) } }

/-- A heap with `P1` of three instructions and `P2` of one. -/
def unevenHeap : Handle → Process :=
  fun h => if h = 1 then newProcess 1 "P1" 3 else newProcess 2 "P2" 1

/-- Two cores under `"fcfs"`; worker 0 runs `P1`, worker 1 runs `P2`.  Both pass
the barrier once; worker 0 then executes its second instruction and calls
`waitForCycleSync` again while `P2`, finished, is still in the running list. -/
def barrierBlockedState : SystemState :=
  afterSteps (schedulerConfig 2 "fcfs" 2)
    [.addProcess 1, .addProcess 2, .fetch 0, .fetch 1, .round 0, .sync 0, .round 1, .sync 1,
      .wake 0, .round 0, .sync 0]
    (initialState (schedulerConfig 2 "fcfs" 2) unevenHeap
      (MemoryManager.ctor (schedulerConfig 2 "fcfs" 2)))

/-- Two cores under `"fcfs"`; `P1` and `P2`, with three instructions each, were
admitted in this order to the scheduler that `startScheduling` left. -/
def freshlyAdmittedState : SystemState :=
  { initialState (schedulerConfig 2 "fcfs" 2) (twoProcessHeap 3)
      (MemoryManager.ctor (schedulerConfig 2 "fcfs" 2)) with
    world := admittedWorld (schedulerConfig 2 "fcfs" 2) 3 }

/-- Worker 0 runs `P1` and worker 1 runs `P2`; worker 0 has executed one
instruction and is blocked in the barrier, worker 1 has executed one
instruction and is about to call `waitForCycleSync`. -/
def quorumState : SystemState :=
  afterSteps (schedulerConfig 2 "fcfs" 2)
    [.fetch 0, .fetch 1, .round 0, .sync 0, .round 1] freshlyAdmittedState

/-! ## Lemmas -/

theorem FreeAt.free_lt_length {frames : List Frame} {i : Nat} (h : FreeAt frames i) :
    i < frames.length := by
  unfold FreeAt at h
  by_contra hc
  rw [List.getElem?_eq_none (by omega)] at h
  simp at h

theorem FreeRunAt.run_le_length {frames : List Frame} {k s : Nat} (hk : 1 ≤ k)
    (h : FreeRunAt frames k s) : s + k ≤ frames.length := by
  have := (h (k - 1) (by omega)).free_lt_length
  omega

theorem findFirstFitLoop_spec (k : Nat) (full : List Frame) (hk : 1 ≤ k) :
    ∀ (rest pre : List Frame) (cf sf b : Nat), full = pre ++ rest → b + cf = pre.length →
      cf < k → (∀ j, b ≤ j → j < pre.length → FreeAt full j) → (0 < cf → sf = b) →
      (∀ t, t < b → ¬ FreeRunAt full k t) →
      FirstFitResult full k (findFirstFitLoop k full.length rest pre.length cf sf) := by
  intro rest
  induction rest with
  | nil =>
    intro pre cf sf b hfull hb hcf _ _ hno
    left
    refine ⟨rfl, fun t ht => ?_⟩
    by_cases htb : t < b
    · exact hno t htb ht
    · have := ht.run_le_length hk
      simp [hfull] at this
      omega
  | cons f rest ih =>
    intro pre cf sf b hfull hb hcf hfree hsf hno
    have hfull1 : full = (pre ++ [f]) ++ rest := by simp [hfull]
    have hlen : (pre ++ [f]).length = pre.length + 1 := by simp
    have hf : full[pre.length]? = some f := by
      rw [hfull, List.getElem?_append_right (le_refl _)]; simp
    unfold findFirstFitLoop
    by_cases hfr : f.isFree = true
    · simp only [hfr, if_true]
      have hfree1 : ∀ j, b ≤ j → j < (pre ++ [f]).length → FreeAt full j := by
        intro j hj1 hj2
        by_cases hj : j < pre.length
        · exact hfree j hj1 hj
        · have : j = pre.length := by omega
          subst this
          simp [FreeAt, hf, hfr]
      have hsf1 : (if cf = 0 then pre.length else sf) = b := by
        by_cases h0 : cf = 0
        · simp [h0]; omega
        · simp [h0]; exact hsf (by omega)
      by_cases hk1 : cf + 1 = k
      · simp only [hk1, if_true]
        right
        rw [hsf1]
        refine ⟨fun i hi => hfree1 _ (by omega) (by omega), fun t ht => ?_⟩
        by_contra hc
        exact hno t (by omega) ht
      · simp only [hk1, if_false]
        rw [hsf1, ← hlen]
        exact ih (pre ++ [f]) (cf + 1) b b hfull1 (by omega) (by omega) hfree1 (fun _ => rfl) hno
    · simp only [hfr]
      rw [← hlen]
      refine ih (pre ++ [f]) 0 sf (pre.length + 1) hfull1 (by omega) (by omega)
        (fun j hj1 hj2 => by omega) (fun h => absurd h (by omega)) ?_
      intro t ht hrun
      by_cases htb : t < b
      · exact hno t htb hrun
      · have := hrun (pre.length - t) (by omega)
        rw [show t + (pre.length - t) = pre.length by omega] at this
        simp [FreeAt, hf] at this
        exact hfr this

theorem findFirstFit_spec (m : MemoryManager) (hk : 1 ≤ m.framesPerProcess) :
    FirstFitResult m.frames m.framesPerProcess m.findFirstFit := by
  have := findFirstFitLoop_spec m.framesPerProcess m.frames hk m.frames [] 0 0 0 rfl rfl
    (by omega) (fun j _ hj => absurd hj (by simp)) (fun h => absurd h (by omega))
    (fun t ht => absurd ht (by omega))
  simpa [MemoryManager.findFirstFit] using this

theorem findFirstFit_zero (m : MemoryManager) (hk : m.framesPerProcess = 0) :
    m.findFirstFit = m.frames.length := by
  have h : ∀ (rest : List Frame) (size i cf sf : Nat),
      findFirstFitLoop 0 size rest i cf sf = size := by
    intro rest
    induction rest with
    | nil => intros; rfl
    | cons f rest ih =>
      intro size i cf sf
      unfold findFirstFitLoop
      by_cases hf : f.isFree = true <;> simp [hf, ih]
  simp [MemoryManager.findFirstFit, hk, h]

theorem allocateFrames_length (name : String) (fs : Nat) :
    ∀ (count i : Nat) (frames : List Frame),
      (allocateFrames name fs count i frames).length = frames.length := by
  intro count
  induction count with
  | zero => intros; rfl
  | succ c ih => intro i frames; simp [allocateFrames, ih]

theorem allocateFrames_getElem? (name : String) (fs : Nat) :
    ∀ (count i : Nat) (frames : List Frame) (j : Nat),
      (allocateFrames name fs count i frames)[j]? =
        if i ≤ j ∧ j < i + count ∧ j < frames.length then some (allocatedFrame name fs j)
        else frames[j]? := by
  intro count
  induction count with
  | zero => intro i frames j; rw [if_neg (by omega)]; rfl
  | succ c ih =>
    intro i frames j
    simp only [allocateFrames, ih, List.length_set, List.getElem?_set]
    by_cases hij : i = j
    · subst hij
      by_cases hl : i < frames.length
      · simp [hl, allocatedFrame]
      · simp [hl]; omega
    · simp only [hij, if_false]
      by_cases h1 : i + 1 ≤ j ∧ j < i + 1 + c ∧ j < frames.length
      · rw [if_pos h1, if_pos (by omega)]
      · rw [if_neg h1, if_neg (by omega)]

theorem mapFind_mapAssign_self {V : Type} (key : String) (v : V) (m : List (String × V)) :
    mapFind key (mapAssign key v m) = some v := by
  induction m with
  | nil => simp [mapAssign, mapFind]
  | cons e rest ih =>
    by_cases h : e.1 = key <;> simp [mapAssign, mapFind, h, ih]

theorem mapFind_mapAssign_ne {V : Type} (key k2 : String) (v : V) (m : List (String × V))
    (h : k2 ≠ key) : mapFind k2 (mapAssign key v m) = mapFind k2 m := by
  induction m with
  | nil => simp [mapAssign, mapFind, Ne.symm h]
  | cons e rest ih =>
    by_cases h1 : e.1 = key
    · have : ¬ e.1 = k2 := by rw [h1]; exact Ne.symm h
      simp [mapAssign, mapFind, h1, Ne.symm h, this]
    · simp only [mapAssign, if_neg h1, mapFind, ih]

theorem mem_setInsert_self (x : String) (s : List String) : x ∈ setInsert x s := by
  unfold setInsert
  by_cases h : x ∈ s <;> simp [h]

/-- What a call of `allocateMemory` that finds a fit returns. -/
theorem allocateMemory_of_fit (config : Config) (p : Handle) (w : World)
    (h : w.memory.findFirstFit ≠ w.memory.frames.length) :
    allocateMemory config true (some p) w =
      (true, { w with memory := w.memory.allocated (w.heap p).name }) := by
  simp [allocateMemory, h, Process.getName, MemoryManager.allocated]

/-- What a call of `allocateMemory` that finds no fit returns. -/
theorem allocateMemory_of_no_fit (config : Config) (p : Handle) (w : World)
    (h : w.memory.findFirstFit = w.memory.frames.length) :
    allocateMemory config true (some p) w =
      if config.schedulerType = "rr" then
        (false, { w with
          heap := Function.update w.heap p ((w.heap p).setState ProcessState.READY)
          scheduler := w.scheduler.addProcess p })
      else (false, w) := by
  simp [allocateMemory, h]

theorem findFirstFit_fit (m : MemoryManager) (h : m.findFirstFit ≠ m.frames.length) :
    1 ≤ m.framesPerProcess ∧ FreeRunAt m.frames m.framesPerProcess m.findFirstFit ∧
      ∀ t, FreeRunAt m.frames m.framesPerProcess t → m.findFirstFit ≤ t := by
  have hk : 1 ≤ m.framesPerProcess := by
    by_contra hc
    exact h (findFirstFit_zero m (by omega))
  rcases findFirstFit_spec m hk with ⟨h1, _⟩ | h2
  · exact absurd h1 h
  · exact ⟨hk, h2⟩

theorem findFirstFit_no_fit (m : MemoryManager)
    (h : ∀ t, ¬ FreeRunAt m.frames m.framesPerProcess t) :
    m.findFirstFit = m.frames.length := by
  by_contra hc
  exact h _ (findFirstFit_fit m hc).2.1

theorem no_fit_of_findFirstFit (m : MemoryManager) (hk : 1 ≤ m.framesPerProcess)
    (h : m.findFirstFit = m.frames.length) :
    ∀ t, ¬ FreeRunAt m.frames m.framesPerProcess t := by
  intro t ht
  rcases findFirstFit_spec m hk with ⟨_, h1⟩ | h2
  · exact h1 t ht
  · have := h2.1.run_le_length hk
    omega

theorem FreeAt_cons_zero (f : Frame) (l : List Frame) :
    FreeAt (f :: l) 0 ↔ f.isFree = true := by
  simp [FreeAt]

theorem FreeAt_cons_succ (f : Frame) (l : List Frame) (a : Nat) :
    FreeAt (f :: l) (a + 1) ↔ FreeAt l a := by
  simp [FreeAt]

theorem StartsRun_cons_succ (prevFree : Bool) (f : Frame) (l : List Frame) (a : Nat) :
    StartsRun prevFree (f :: l) (a + 1) ↔ StartsRun f.isFree l a := by
  unfold StartsRun
  rw [FreeAt_cons_succ]
  cases a with
  | zero =>
    simp only [Nat.zero_add, Nat.add_one_ne_zero, if_false, if_true, Nat.sub_self,
      FreeAt_cons_zero]
    simp
  | succ b =>
    simp only [Nat.add_one_ne_zero, if_false, Nat.add_sub_cancel, FreeAt_cons_succ]

theorem runSum_nil (k fs : Nat) (prevFree : Bool) : runSum k fs prevFree [] = 0 := by
  simp [runSum]

theorem runSum_cons (k fs : Nat) (prevFree : Bool) (f : Frame) (l : List Frame) :
    runSum k fs prevFree (f :: l) =
      (if f.isFree = true ∧ prevFree = false then runContribution k fs (leadingFree (f :: l))
        else 0) + runSum k fs f.isFree l := by
  unfold runSum
  rw [List.length_cons, Finset.sum_range_succ', Nat.add_comm]
  congr 1
  · simp [StartsRun, FreeAt_cons_zero]
  · refine Finset.sum_congr rfl (fun a _ => ?_)
    simp only [StartsRun_cons_succ, List.drop_succ_cons]

theorem leadingFree_cons_free (f : Frame) (l : List Frame) (h : f.isFree = true) :
    leadingFree (f :: l) = leadingFree l + 1 := by
  simp [leadingFree, List.takeWhile_cons, h]

theorem leadingFree_cons_used (f : Frame) (l : List Frame) (h : ¬ f.isFree = true) :
    leadingFree (f :: l) = 0 := by
  simp [leadingFree, List.takeWhile_cons, h]

/-- The loop invariant of `getExternalFragmentation`: with `cf` free frames
counted so far, the loop adds to `frag` the contribution of the run in progress
(extended by the free frames at the front of `l`) and of every later run. -/
theorem fragmentationLoop_eq (k fs : Nat) :
    ∀ (l : List Frame) (frag cf : Nat),
      fragmentationLoop k fs l frag cf =
        if cf = 0 then frag + runSum k fs false l
        else frag + runContribution k fs (cf + leadingFree l) + runSum k fs true l := by
  intro l
  induction l with
  | nil =>
    intro frag cf
    by_cases h0 : cf = 0
    · simp [fragmentationLoop, h0, runSum_nil]
    · by_cases hk : cf < k
      · simp [fragmentationLoop, h0, runSum_nil, runContribution, leadingFree, hk,
          Nat.pos_of_ne_zero h0]
      · simp [fragmentationLoop, h0, runSum_nil, runContribution, leadingFree, hk]
  | cons f l ih =>
    intro frag cf
    unfold fragmentationLoop
    by_cases hf : f.isFree = true
    · rw [if_pos hf, ih, if_neg (Nat.succ_ne_zero cf)]
      simp only [runSum_cons, leadingFree_cons_free f l hf]
      by_cases h0 : cf = 0
      · subst h0
        simp only [hf, if_true, true_and, Nat.zero_add]
        rw [show 1 + leadingFree l = leadingFree l + 1 by omega]
        omega
      · simp only [h0, hf, if_false, true_and, Bool.true_eq_false]
        rw [show cf + 1 + leadingFree l = cf + (leadingFree l + 1) by omega]
        omega
    · rw [if_neg hf]
      simp only [runSum_cons, leadingFree_cons_used f l hf]
      have hfalse : f.isFree = false := by simpa using hf
      by_cases h0 : cf = 0
      · subst h0
        simp [ih, hfalse]
      · rw [if_pos (Nat.pos_of_ne_zero h0), ih]
        simp only [h0, hfalse, if_false, if_true, Bool.false_eq_true, false_and, Nat.add_zero,
          Nat.zero_add, runContribution]
        by_cases hk : cf < k <;> simp [hk]

theorem leadingFree_free : ∀ (l : List Frame) (i : Nat), i < leadingFree l → FreeAt l i := by
  intro l
  induction l with
  | nil => intro i h; simp [leadingFree] at h
  | cons f l ih =>
    intro i h
    by_cases hf : f.isFree = true
    · rw [leadingFree_cons_free f l hf] at h
      cases i with
      | zero => exact (FreeAt_cons_zero f l).2 hf
      | succ j => exact (FreeAt_cons_succ f l j).2 (ih j (by omega))
    · rw [leadingFree_cons_used f l hf] at h
      omega

theorem leadingFree_stop : ∀ (l : List Frame), ¬ FreeAt l (leadingFree l) := by
  intro l
  induction l with
  | nil => simp [leadingFree, FreeAt]
  | cons f l ih =>
    by_cases hf : f.isFree = true
    · rw [leadingFree_cons_free f l hf, FreeAt_cons_succ]
      exact ih
    · rw [leadingFree_cons_used f l hf, FreeAt_cons_zero]
      exact hf

theorem FreeAt_drop (l : List Frame) (a i : Nat) : FreeAt (l.drop a) i ↔ FreeAt l (a + i) := by
  simp [FreeAt, List.getElem?_drop]

theorem maximalFreeRun_iff (l : List Frame) (a b : Nat) :
    MaximalFreeRun l a b ↔ StartsRun false l a ∧ b = a + leadingFree (l.drop a) := by
  have hfree := leadingFree_free (l.drop a)
  have hstop := leadingFree_stop (l.drop a)
  simp only [FreeAt_drop] at hfree hstop
  have hleft : (a = 0 ∨ ¬ FreeAt l (a - 1)) ↔
      (if a = 0 then false = false else ¬ FreeAt l (a - 1)) := by
    by_cases h0 : a = 0 <;> simp [h0]
  constructor
  · rintro ⟨hab, hbn, hall, hl, hr⟩
    refine ⟨⟨hall a hab (le_refl a), hleft.1 hl⟩, ?_⟩
    have hnb : ¬ FreeAt l b := by
      rcases hr with h | h
      · intro hc; have := hc.free_lt_length; omega
      · exact h
    by_contra hne
    rcases Nat.lt_or_gt_of_ne hne with h | h
    · apply hnb
      have := hfree (b - a) (by omega)
      rwa [show a + (b - a) = b by omega] at this
    · exact hstop (hall _ h (by omega))
  · rintro ⟨⟨hfa, hl⟩, rfl⟩
    have hpos : 0 < leadingFree (l.drop a) := by
      by_contra hc
      have h0 : leadingFree (l.drop a) = 0 := by omega
      rw [h0] at hstop
      exact hstop hfa
    refine ⟨by omega, ?_, fun i hi hai => ?_, hleft.2 hl, Or.inr hstop⟩
    · have := (hfree (leadingFree (l.drop a) - 1) (by omega)).free_lt_length
      omega
    · have := hfree (i - a) (by omega)
      rwa [show a + (i - a) = i by omega] at this

theorem specExternalFragmentation_eq_runSum (l : List Frame) (k fs : Nat) :
    specExternalFragmentation l k fs = runSum k fs false l := by
  unfold specExternalFragmentation runSum
  refine Finset.sum_congr rfl (fun a _ => ?_)
  by_cases hs : StartsRun false l a
  · rw [if_pos hs]
    have hrun : MaximalFreeRun l a (a + leadingFree (l.drop a)) :=
      (maximalFreeRun_iff l a _).2 ⟨hs, rfl⟩
    rw [Finset.sum_eq_single (a + leadingFree (l.drop a))]
    · simp only [hrun, true_and, Nat.add_sub_cancel_left, runContribution]
    · intro b _ hb
      rw [if_neg]
      rintro ⟨h, _⟩
      exact hb ((maximalFreeRun_iff l a b).1 h).2
    · intro hb
      exfalso
      apply hb
      have := hrun.2.1
      simp only [Finset.mem_range]
      omega
  · rw [if_neg hs]
    refine Finset.sum_eq_zero (fun b _ => ?_)
    rw [if_neg]
    rintro ⟨h, _⟩
    exact hs ((maximalFreeRun_iff l a b).1 h).1

theorem releaseFrames_length (s : Nat) :
    ∀ (count i : Nat) (frames : List Frame),
      (releaseFrames s count i frames).length = frames.length := by
  intro count
  induction count with
  | zero => intros; rfl
  | succ c ih =>
    intro i frames
    simp only [releaseFrames, ih]
    cases h : frames[s + i]? <;> simp

theorem releaseFrames_getElem? (s : Nat) :
    ∀ (count i : Nat) (frames : List Frame) (j : Nat),
      (releaseFrames s count i frames)[j]? =
        if s + i ≤ j ∧ j < s + i + count then (frames[j]?).map Frame.release
        else frames[j]? := by
  intro count
  induction count with
  | zero => intro i frames j; rw [if_neg (by omega)]; rfl
  | succ c ih =>
    intro i frames j
    simp only [releaseFrames, ih]
    have hstep : (match frames[s + i]? with
        | some f => frames.set (s + i) { f with isFree := true, processName := "" }
        | none => frames)[j]? =
        if s + i = j then (frames[j]?).map Frame.release else frames[j]? := by
      by_cases hij : s + i = j
      · subst hij
        cases h : frames[s + i]? with
        | none => simp [h]
        | some f =>
          have hl : s + i < frames.length := by
            by_contra hc
            rw [List.getElem?_eq_none (by omega)] at h
            exact absurd h (by simp)
          simp [List.getElem?_set, hl, Frame.release]
      · cases h : frames[s + i]? with
        | none => simp [hij]
        | some f => simp [List.getElem?_set, hij]
    rw [hstep]
    by_cases hij : s + i = j
    · subst hij
      rw [if_neg (by omega), if_pos rfl, if_pos (by omega)]
    · rw [if_neg hij]
      by_cases h1 : s + (i + 1) ≤ j ∧ j < s + (i + 1) + c
      · rw [if_pos h1, if_pos (by omega)]
      · rw [if_neg h1, if_neg (by omega)]

theorem mem_mapAssign {V : Type} (key : String) (v : V) (m : List (String × V))
    (hnd : (m.map Prod.fst).Nodup) (e : String × V) (h : e ∈ mapAssign key v m) :
    e = (key, v) ∨ (e ∈ m ∧ e.1 ≠ key) := by
  induction m with
  | nil => simp [mapAssign] at h; exact Or.inl h
  | cons x rest ih =>
    by_cases hx : x.1 = key
    · simp only [mapAssign, if_pos hx, List.mem_cons] at h
      rcases h with h | h
      · exact Or.inl h
      · refine Or.inr ⟨List.mem_cons_of_mem _ h, fun hc => ?_⟩
        rw [List.map_cons, List.nodup_cons] at hnd
        exact hnd.1 (List.mem_map.2 ⟨e, h, by rw [hc, hx]⟩)
    · simp only [mapAssign, if_neg hx, List.mem_cons] at h
      rcases h with h | h
      · subst h; exact Or.inr ⟨List.mem_cons_self _ _, hx⟩
      · rw [List.map_cons, List.nodup_cons] at hnd
        rcases ih hnd.2 h with h1 | ⟨h1, h2⟩
        · exact Or.inl h1
        · exact Or.inr ⟨List.mem_cons_of_mem _ h1, h2⟩

theorem mapFind_eq_none {V : Type} (key : String) (m : List (String × V)) :
    mapFind key m = none ↔ ∀ e ∈ m, e.1 ≠ key := by
  induction m with
  | nil => simp [mapFind]
  | cons x rest ih =>
    by_cases hx : x.1 = key <;> simp [mapFind, hx, ih]

theorem mapAssign_of_absent {V : Type} (key : String) (v : V) (m : List (String × V))
    (h : mapFind key m = none) : mapAssign key v m = m ++ [(key, v)] := by
  induction m with
  | nil => rfl
  | cons x rest ih =>
    by_cases hx : x.1 = key
    · simp [mapFind, hx] at h
    · simp only [mapFind, if_neg hx] at h
      simp [mapAssign, hx, ih h]

theorem keys_mapAssign {V : Type} (key : String) (v : V) (m : List (String × V)) :
    (mapAssign key v m).map Prod.fst =
      if key ∈ m.map Prod.fst then m.map Prod.fst else m.map Prod.fst ++ [key] := by
  induction m with
  | nil => simp [mapAssign]
  | cons x rest ih =>
    by_cases hx : x.1 = key
    · simp [mapAssign, hx]
    · have hx2 : ¬ key = x.1 := fun hc => hx hc.symm
      simp only [mapAssign, if_neg hx, List.map_cons, ih, List.mem_cons, hx2, false_or]
      by_cases hm : key ∈ rest.map Prod.fst <;> simp [hm]

theorem nodup_keys_mapAssign {V : Type} (key : String) (v : V) (m : List (String × V))
    (hnd : (m.map Prod.fst).Nodup) : ((mapAssign key v m).map Prod.fst).Nodup := by
  rw [keys_mapAssign]
  by_cases hm : key ∈ m.map Prod.fst
  · rw [if_pos hm]; exact hnd
  · rw [if_neg hm]
    exact List.Nodup.append hnd (List.nodup_singleton key) (by simpa using hm)

theorem length_mapAssign_le {V : Type} (key : String) (v : V) (m : List (String × V)) :
    (mapAssign key v m).length ≤ m.length + 1 := by
  have h := congrArg List.length (keys_mapAssign key v m)
  rw [List.length_map] at h
  rw [h]
  by_cases hm : key ∈ m.map Prod.fst <;> simp [hm]

theorem mem_of_mapFind {V : Type} (key : String) (v : V) (m : List (String × V))
    (h : mapFind key m = some v) : (key, v) ∈ m := by
  induction m with
  | nil => simp [mapFind] at h
  | cons x rest ih =>
    by_cases hx : x.1 = key
    · simp only [mapFind, if_pos hx, Option.some.injEq] at h
      have : x = (key, v) := Prod.ext hx h
      rw [this]; exact List.mem_cons_self _ _
    · simp only [mapFind, if_neg hx] at h
      exact List.mem_cons_of_mem _ (ih h)

theorem mapFind_of_mem {V : Type} (key : String) (v : V) (m : List (String × V))
    (hnd : (m.map Prod.fst).Nodup) (h : (key, v) ∈ m) : mapFind key m = some v := by
  induction m with
  | nil => simp at h
  | cons x rest ih =>
    rw [List.map_cons, List.nodup_cons] at hnd
    rcases List.mem_cons.1 h with h1 | h1
    · subst h1; simp [mapFind]
    · have hx : ¬ x.1 = key := fun hc =>
        hnd.1 (List.mem_map.2 ⟨(key, v), h1, hc.symm⟩)
      simp only [mapFind, if_neg hx]
      exact ih hnd.2 h1

theorem mem_mapErase {V : Type} (key : String) (m : List (String × V)) (e : String × V) :
    e ∈ mapErase key m ↔ e ∈ m ∧ e.1 ≠ key := by
  simp [mapErase, List.mem_filter]

theorem nodup_keys_mapErase {V : Type} (key : String) (m : List (String × V))
    (hnd : (m.map Prod.fst).Nodup) : ((mapErase key m).map Prod.fst).Nodup :=
  List.Nodup.sublist (List.Sublist.map _ (List.filter_sublist m)) hnd

theorem mapFind_mapErase_self {V : Type} (key : String) (m : List (String × V)) :
    mapFind key (mapErase key m) = none := by
  rw [mapFind_eq_none]
  intro e he
  exact ((mem_mapErase key m e).1 he).2

theorem mapErase_cons_of_eq {V : Type} (key : String) (x : String × V)
    (rest : List (String × V)) (h : x.1 = key) :
    mapErase key (x :: rest) = mapErase key rest := by
  simp [mapErase, h]

theorem mapErase_cons_of_ne {V : Type} (key : String) (x : String × V)
    (rest : List (String × V)) (h : ¬ x.1 = key) :
    mapErase key (x :: rest) = x :: mapErase key rest := by
  simp [mapErase, h]

theorem mapFind_mapErase_ne {V : Type} (key k2 : String) (m : List (String × V))
    (h : k2 ≠ key) : mapFind k2 (mapErase key m) = mapFind k2 m := by
  induction m with
  | nil => rfl
  | cons x rest ih =>
    by_cases hx : x.1 = key
    · have hx2 : ¬ x.1 = k2 := by rw [hx]; exact Ne.symm h
      rw [mapErase_cons_of_eq key x rest hx, ih]
      simp only [mapFind, if_neg hx2]
    · rw [mapErase_cons_of_ne key x rest hx]
      simp only [mapFind, ih]

theorem mapErase_of_absent {V : Type} (key : String) (m : List (String × V))
    (h : mapFind key m = none) : mapErase key m = m := by
  rw [mapFind_eq_none] at h
  exact List.filter_eq_self.2 (fun e he => by simpa using h e he)

theorem length_mapErase {V : Type} (key : String) (v : V) (m : List (String × V))
    (hnd : (m.map Prod.fst).Nodup) (h : mapFind key m = some v) :
    (mapErase key m).length + 1 = m.length := by
  induction m with
  | nil => simp [mapFind] at h
  | cons x rest ih =>
    rw [List.map_cons, List.nodup_cons] at hnd
    by_cases hx : x.1 = key
    · have habs : mapFind key rest = none := by
        rw [mapFind_eq_none]
        intro e he hc
        exact hnd.1 (List.mem_map.2 ⟨e, he, by rw [hc, hx]⟩)
      rw [mapErase_cons_of_eq key x rest hx, mapErase_of_absent key rest habs]
      rfl
    · simp only [mapFind, if_neg hx] at h
      rw [mapErase_cons_of_ne key x rest hx, List.length_cons, ih hnd.2 h]
      rfl

theorem FreeAt.free_getElem {frames : List Frame} {i : Nat} (h : FreeAt frames i) :
    ∃ hl : i < frames.length, (frames.get ⟨i, hl⟩).isFree = true := by
  have hl := h.free_lt_length
  refine ⟨hl, ?_⟩
  unfold FreeAt at h
  rw [List.getElem?_eq_getElem hl] at h
  simpa using h

theorem UsedAt.used_lt_length {frames : List Frame} {i : Nat} (h : UsedAt frames i) :
    i < frames.length := by
  unfold UsedAt at h
  by_contra hc
  rw [List.getElem?_eq_none (by omega)] at h
  simp at h

theorem UsedAt.used_getElem {frames : List Frame} {i : Nat} (h : UsedAt frames i) :
    ∃ hl : i < frames.length, (frames.get ⟨i, hl⟩).isFree = false := by
  have hl := h.used_lt_length
  refine ⟨hl, ?_⟩
  unfold UsedAt at h
  rw [List.getElem?_eq_getElem hl] at h
  simpa using h

theorem not_FreeAt_and_UsedAt {frames : List Frame} {i : Nat} (h1 : FreeAt frames i)
    (h2 : UsedAt frames i) : False := by
  unfold FreeAt at h1
  unfold UsedAt at h2
  rw [h1] at h2
  simp at h2

theorem usedFrames_set_used (frames : List Frame) (i : Nat) (g : Frame)
    (h : FreeAt frames i) (hg : g.isFree = false) :
    usedFrames (frames.set i g) = usedFrames frames + 1 := by
  obtain ⟨hl, hf⟩ := h.free_getElem
  unfold usedFrames
  rw [List.countP_set _ _ _ _ hl]
  have hf2 : frames[i].isFree = true := hf
  simp [hf2, hg]

theorem usedFrames_set_free (frames : List Frame) (i : Nat) (g : Frame)
    (h : UsedAt frames i) (hg : g.isFree = true) :
    usedFrames (frames.set i g) + 1 = usedFrames frames := by
  obtain ⟨hl, hf⟩ := h.used_getElem
  unfold usedFrames
  rw [List.countP_set _ _ _ _ hl]
  have hf2 : frames[i].isFree = false := hf
  have hpos := List.boole_getElem_le_countP (fun f : Frame => !f.isFree) frames i hl
  simp only [hf2, hg, Bool.not_false, Bool.not_true, if_true, Bool.false_eq_true, if_false] at hpos ⊢
  omega

theorem usedFrames_allocateFrames (name : String) (fs : Nat) :
    ∀ (count i : Nat) (frames : List Frame),
      (∀ j, i ≤ j → j < i + count → FreeAt frames j) →
      usedFrames (allocateFrames name fs count i frames) = usedFrames frames + count := by
  intro count
  induction count with
  | zero => intros; rfl
  | succ c ih =>
    intro i frames h
    simp only [allocateFrames]
    rw [ih, usedFrames_set_used frames i _ (h i (le_refl i) (by omega)) rfl]
    · omega
    · intro j h1 h2
      have := h j (by omega) (by omega)
      unfold FreeAt at this ⊢
      rwa [List.getElem?_set_ne (by omega)]

theorem usedFrames_releaseFrames (s : Nat) :
    ∀ (count i : Nat) (frames : List Frame),
      (∀ j, s + i ≤ j → j < s + i + count → UsedAt frames j) →
      usedFrames (releaseFrames s count i frames) + count = usedFrames frames := by
  intro count
  induction count with
  | zero => intros; rfl
  | succ c ih =>
    intro i frames h
    have hu := h (s + i) (le_refl _) (by omega)
    obtain ⟨hl, _⟩ := hu.used_getElem
    simp only [releaseFrames, List.getElem?_eq_getElem hl]
    have hstep := usedFrames_set_free frames (s + i)
      { frames[s + i] with isFree := true, processName := "" } hu rfl
    have hrec := ih (i + 1) (frames.set (s + i)
      { frames[s + i] with isFree := true, processName := "" }) ?_
    · simp only at hrec hstep ⊢
      omega
    · intro j h1 h2
      have := h j (by omega) (by omega)
      unfold UsedAt at this ⊢
      rwa [List.getElem?_set_ne (by omega)]

theorem usedFrames_replicate_free (n : Nat) :
    usedFrames (List.replicate n ({} : Frame)) = 0 := by
  induction n with
  | zero => rfl
  | succ n ih =>
    rw [List.replicate_succ]
    unfold usedFrames at ih ⊢
    rw [List.countP_cons, ih]
    rfl

theorem MemInv_ctor (config : Config) : MemInv (MemoryManager.ctor config) where
  length_eq := by simp [MemoryManager.ctor, MemoryManager.updateFragmentation]
  nodup := by simp [MemoryManager.ctor, MemoryManager.updateFragmentation]
  entry := by simp [MemoryManager.ctor, MemoryManager.updateFragmentation]
  disjoint := by simp [MemoryManager.ctor, MemoryManager.updateFragmentation]
  count := by simp [MemoryManager.ctor, MemoryManager.updateFragmentation]

theorem UsedAt_allocateFrames (name : String) (fs count s : Nat) (frames : List Frame)
    (i : Nat) (h : UsedAt frames i) : UsedAt (allocateFrames name fs count s frames) i := by
  have hl := h.used_lt_length
  unfold UsedAt at h ⊢
  rw [allocateFrames_getElem?]
  by_cases hc : s ≤ i ∧ i < s + count ∧ i < frames.length
  · rw [if_pos hc]; rfl
  · rw [if_neg hc]; exact h

theorem MemInv_allocated (m : MemoryManager) (name : String) (hinv : MemInv m)
    (hfit : m.findFirstFit ≠ m.frames.length) : MemInv (m.allocated name) := by
  obtain ⟨hk, hrun, _⟩ := findFirstFit_fit m hfit
  have hfree : ∀ i, m.findFirstFit ≤ i → i < m.findFirstFit + m.framesPerProcess →
      FreeAt m.frames i := by
    intro i h1 h2
    have := hrun (i - m.findFirstFit) (by omega)
    rwa [show m.findFirstFit + (i - m.findFirstFit) = i by omega] at this
  have hnew : ∀ i, m.findFirstFit ≤ i → i < m.findFirstFit + m.framesPerProcess →
      UsedAt (allocateFrames name m.frameSize m.framesPerProcess m.findFirstFit m.frames) i := by
    intro i h1 h2
    unfold UsedAt
    rw [allocateFrames_getElem?, if_pos ⟨h1, h2, (hfree i h1 h2).free_lt_length⟩]
    rfl
  constructor
  · simpa [MemoryManager.allocated, MemoryManager.updateFragmentation,
      allocateFrames_length] using hinv.length_eq
  · simpa [MemoryManager.allocated, MemoryManager.updateFragmentation] using
      nodup_keys_mapAssign name _ m.processMemoryMap hinv.nodup
  · intro e he
    simp only [MemoryManager.allocated, MemoryManager.updateFragmentation,
      allocateFrames_length] at he ⊢
    rcases mem_mapAssign name _ m.processMemoryMap hinv.nodup e he with h1 | ⟨h1, _⟩
    · subst h1
      refine ⟨rfl, hrun.run_le_length hk, fun i hi => hnew i hi.1 hi.2⟩
    · obtain ⟨e1, e2, e3⟩ := hinv.entry e h1
      exact ⟨e1, e2, fun i hi => UsedAt_allocateFrames _ _ _ _ _ i (e3 i hi)⟩
  · intro e1 he1 e2 he2 hne i hi
    simp only [MemoryManager.allocated, MemoryManager.updateFragmentation] at he1 he2 hi
    rcases mem_mapAssign name _ m.processMemoryMap hinv.nodup e1 he1 with h1 | ⟨h1, _⟩ <;>
      rcases mem_mapAssign name _ m.processMemoryMap hinv.nodup e2 he2 with h2 | ⟨h2, _⟩
    · subst h1; subst h2; exact hne rfl
    · subst h1
      exact not_FreeAt_and_UsedAt (hfree i hi.1.1 hi.1.2) ((hinv.entry e2 h2).2.2 i hi.2)
    · subst h2
      exact not_FreeAt_and_UsedAt (hfree i hi.2.1 hi.2.2) ((hinv.entry e1 h1).2.2 i hi.1)
    · exact hinv.disjoint e1 h1 e2 h2 hne i hi
  · simp only [MemoryManager.allocated, MemoryManager.updateFragmentation]
    rw [usedFrames_allocateFrames name m.frameSize m.framesPerProcess m.findFirstFit m.frames
      hfree]
    have h1 := length_mapAssign_le name
      ({ startFrame := m.findFirstFit, numFrames := m.framesPerProcess
         startAddress := m.findFirstFit * m.frameSize
         endAddress := (m.findFirstFit + m.framesPerProcess) * m.frameSize - 1 } :
        ProcessMemoryInfo) m.processMemoryMap
    have h2 := hinv.count
    calc _ ≤ (m.processMemoryMap.length + 1) * m.framesPerProcess :=
          Nat.mul_le_mul_right _ h1
      _ = m.processMemoryMap.length * m.framesPerProcess + m.framesPerProcess := by ring
      _ ≤ _ := by omega

theorem releaseMemory_of_absent (m : MemoryManager) (name : String)
    (h : mapFind name m.processMemoryMap = none) : m.releaseMemory name = m := by
  simp [MemoryManager.releaseMemory, h]

theorem releaseMemory_of_present (m : MemoryManager) (name : String) (info : ProcessMemoryInfo)
    (h : mapFind name m.processMemoryMap = some info) :
    m.releaseMemory name = m.released name info := by
  simp [MemoryManager.releaseMemory, h, MemoryManager.released]

theorem UsedAt_releaseFrames (s count : Nat) (frames : List Frame) (i : Nat)
    (h : UsedAt frames i) (hout : ¬ (s ≤ i ∧ i < s + count)) :
    UsedAt (releaseFrames s count 0 frames) i := by
  unfold UsedAt at h ⊢
  rw [releaseFrames_getElem?, if_neg (by omega)]
  exact h

theorem MemInv_released (m : MemoryManager) (name : String) (info : ProcessMemoryInfo)
    (hinv : MemInv m) (h : mapFind name m.processMemoryMap = some info) :
    MemInv (m.released name info) := by
  have hmem := mem_of_mapFind name info m.processMemoryMap h
  obtain ⟨hnum, _, hused⟩ := hinv.entry _ hmem
  simp only at hnum hused
  constructor
  · simpa [MemoryManager.released, MemoryManager.updateFragmentation,
      releaseFrames_length] using hinv.length_eq
  · simpa [MemoryManager.released, MemoryManager.updateFragmentation] using
      nodup_keys_mapErase name m.processMemoryMap hinv.nodup
  · intro e he
    simp only [MemoryManager.released, MemoryManager.updateFragmentation,
      releaseFrames_length] at he ⊢
    obtain ⟨h1, h2⟩ := (mem_mapErase name m.processMemoryMap e).1 he
    obtain ⟨e1, e2, e3⟩ := hinv.entry e h1
    refine ⟨e1, e2, fun i hi => UsedAt_releaseFrames _ _ _ i (e3 i hi) ?_⟩
    intro hc
    rw [hnum] at hc
    exact hinv.disjoint e h1 (name, info) hmem h2 i ⟨hi, hc⟩
  · intro e1 he1 e2 he2 hne i hi
    simp only [MemoryManager.released, MemoryManager.updateFragmentation] at he1 he2 hi
    exact hinv.disjoint e1 ((mem_mapErase name _ e1).1 he1).1 e2
      ((mem_mapErase name _ e2).1 he2).1 hne i hi
  · simp only [MemoryManager.released, MemoryManager.updateFragmentation]
    have h1 := length_mapErase name info m.processMemoryMap hinv.nodup h
    have h2 := usedFrames_releaseFrames info.startFrame info.numFrames 0 m.frames
      (fun j hj1 hj2 => hused j ⟨by omega, by omega⟩)
    have h3 := hinv.count
    rw [← h1] at h3
    rw [hnum] at h2 ⊢
    have : (mapErase name m.processMemoryMap).length * m.framesPerProcess + m.framesPerProcess
        ≤ usedFrames m.frames := by
      calc _ = ((mapErase name m.processMemoryMap).length + 1) * m.framesPerProcess := by ring
        _ ≤ _ := h3
    omega

theorem MemInv_releaseMemory (m : MemoryManager) (name : String) (hinv : MemInv m) :
    MemInv (m.releaseMemory name) := by
  cases h : mapFind name m.processMemoryMap with
  | none => rw [releaseMemory_of_absent m name h]; exact hinv
  | some info => rw [releaseMemory_of_present m name info h]; exact MemInv_released m name info hinv h

/-- The memory manager after any call of `allocateMemory`: unchanged, or the
success branch for the name of the process. -/
theorem allocateMemory_memory (config : Config) (lockAcquired : Bool)
    (process : Option Handle) (w : World) :
    (allocateMemory config lockAcquired process w).2.memory = w.memory ∨
    ∃ p, process = some p ∧ lockAcquired = true ∧
      w.memory.findFirstFit ≠ w.memory.frames.length ∧
      allocateMemory config lockAcquired process w =
        (true, { w with memory := w.memory.allocated (w.heap p).name }) := by
  cases process with
  | none => exact Or.inl rfl
  | some p =>
    cases lockAcquired with
    | false => exact Or.inl rfl
    | true =>
      by_cases hfit : w.memory.findFirstFit = w.memory.frames.length
      · left
        rw [allocateMemory_of_no_fit config p w hfit]
        by_cases hrr : config.schedulerType = "rr" <;> simp [hrr]
      · exact Or.inr ⟨p, rfl, rfl, hfit, allocateMemory_of_fit config p w hfit⟩

theorem MemInv_of_Reachable (config : Config) (m : MemoryManager) (h : Reachable config m) :
    MemInv m := by
  induction h with
  | ctor => exact MemInv_ctor config
  | allocate lockAcquired process w _ ih =>
    rcases allocateMemory_memory config lockAcquired process w with h1 | ⟨p, _, _, hfit, h2⟩
    · rw [h1]; exact ih
    · rw [h2]; exact MemInv_allocated w.memory _ ih hfit
  | release m processName _ ih => exact MemInv_releaseMemory m processName ih

theorem Reachable_of_ReachableFresh (config : Config) (m : MemoryManager)
    (h : ReachableFresh config m) : Reachable config m := by
  induction h with
  | ctor => exact Reachable.ctor
  | allocate lockAcquired process w _ _ ih => exact Reachable.allocate lockAcquired process w ih
  | release m processName _ ih => exact Reachable.release m processName ih

theorem FreshInv_ctor (config : Config) : FreshInv (MemoryManager.ctor config) where
  owner := by simp [MemoryManager.ctor, MemoryManager.updateFragmentation]
  cover := by
    intro i f hf hused
    simp only [MemoryManager.ctor, MemoryManager.updateFragmentation] at hf
    have hmem := List.getElem?_mem hf
    rw [List.mem_replicate] at hmem
    rw [hmem.2] at hused
    exact absurd hused (by decide)
  count_eq := by
    simp [MemoryManager.ctor, MemoryManager.updateFragmentation, usedFrames_replicate_free]

theorem FreshInv_allocated (m : MemoryManager) (name : String) (hinv : MemInv m)
    (hfresh : FreshInv m) (hfit : m.findFirstFit ≠ m.frames.length)
    (habs : mapFind name m.processMemoryMap = none) : FreshInv (m.allocated name) := by
  obtain ⟨hk, hrun, _⟩ := findFirstFit_fit m hfit
  have hfree : ∀ i, m.findFirstFit ≤ i → i < m.findFirstFit + m.framesPerProcess →
      FreeAt m.frames i := by
    intro i h1 h2
    have := hrun (i - m.findFirstFit) (by omega)
    rwa [show m.findFirstFit + (i - m.findFirstFit) = i by omega] at this
  have hmap := mapAssign_of_absent name
    ({ startFrame := m.findFirstFit, numFrames := m.framesPerProcess
       startAddress := m.findFirstFit * m.frameSize
       endAddress := (m.findFirstFit + m.framesPerProcess) * m.frameSize - 1 } :
      ProcessMemoryInfo) m.processMemoryMap habs
  constructor
  · intro e he i hi
    simp only [MemoryManager.allocated, MemoryManager.updateFragmentation, hmap,
      List.mem_append, List.mem_singleton] at he hi ⊢
    rw [allocateFrames_getElem?]
    rcases he with he | he
    · have hu := (hinv.entry e he).2.2 i hi
      rw [if_neg]
      · exact hfresh.owner e he i hi
      · intro hc
        exact not_FreeAt_and_UsedAt (hfree i hc.1 hc.2.1) hu
    · subst he
      rw [if_pos ⟨hi.1, hi.2, (hfree i hi.1 hi.2).free_lt_length⟩]
      rfl
  · intro i f hf hused
    simp only [MemoryManager.allocated, MemoryManager.updateFragmentation, hmap,
      List.mem_append, List.mem_singleton] at hf ⊢
    rw [allocateFrames_getElem?] at hf
    by_cases hc : m.findFirstFit ≤ i ∧ i < m.findFirstFit + m.framesPerProcess ∧
        i < m.frames.length
    · rw [if_pos hc] at hf
      have hf2 : f = allocatedFrame name m.frameSize i := (Option.some.inj hf).symm
      refine ⟨{ startFrame := m.findFirstFit, numFrames := m.framesPerProcess
                startAddress := m.findFirstFit * m.frameSize
                endAddress := (m.findFirstFit + m.framesPerProcess) * m.frameSize - 1 },
        Or.inr ?_, ⟨hc.1, hc.2.1⟩⟩
      rw [hf2]
      rfl
    · rw [if_neg hc] at hf
      obtain ⟨info, h1, h2⟩ := hfresh.cover i f hf hused
      exact ⟨info, Or.inl h1, h2⟩
  · simp only [MemoryManager.allocated, MemoryManager.updateFragmentation, hmap]
    rw [usedFrames_allocateFrames name m.frameSize m.framesPerProcess m.findFirstFit m.frames
      hfree, ← hfresh.count_eq, List.length_append]
    simp only [List.length_singleton]
    ring

theorem FreshInv_released (m : MemoryManager) (name : String) (info : ProcessMemoryInfo)
    (hinv : MemInv m) (hfresh : FreshInv m)
    (h : mapFind name m.processMemoryMap = some info) : FreshInv (m.released name info) := by
  have hmem := mem_of_mapFind name info m.processMemoryMap h
  obtain ⟨hnum, _, hused⟩ := hinv.entry _ hmem
  simp only at hnum hused
  constructor
  · intro e he i hi
    simp only [MemoryManager.released, MemoryManager.updateFragmentation] at he hi ⊢
    obtain ⟨h1, h2⟩ := (mem_mapErase name m.processMemoryMap e).1 he
    rw [releaseFrames_getElem?, if_neg]
    · exact hfresh.owner e h1 i hi
    · intro hc
      rw [hnum] at hc
      exact hinv.disjoint e h1 (name, info) hmem h2 i
        ⟨hi, ⟨by have := hc.1; simp only; omega, by have := hc.2; simp only; omega⟩⟩
  · intro i f hf hfu
    simp only [MemoryManager.released, MemoryManager.updateFragmentation] at hf ⊢
    rw [releaseFrames_getElem?] at hf
    by_cases hc : info.startFrame + 0 ≤ i ∧ i < info.startFrame + 0 + info.numFrames
    · rw [if_pos hc] at hf
      cases hg : m.frames[i]? with
      | none => rw [hg] at hf; exact absurd hf (by simp)
      | some g =>
        rw [hg] at hf
        have hf2 : f = g.release := (Option.some.inj hf).symm
        rw [hf2] at hfu
        exact absurd hfu (by simp [Frame.release])
    · rw [if_neg hc] at hf
      obtain ⟨info2, h1, h2⟩ := hfresh.cover i f hf hfu
      refine ⟨info2, (mem_mapErase name _ _).2 ⟨h1, fun hname => hc ?_⟩, h2⟩
      simp only at hname
      rw [hname] at h1
      have := mapFind_of_mem name info2 m.processMemoryMap hinv.nodup h1
      rw [h] at this
      have heq : info = info2 := Option.some.inj this
      subst heq
      exact ⟨by have := h2.1; omega, by have := h2.2; omega⟩
  · simp only [MemoryManager.released, MemoryManager.updateFragmentation]
    have h1 := length_mapErase name info m.processMemoryMap hinv.nodup h
    have h2 := usedFrames_releaseFrames info.startFrame info.numFrames 0 m.frames
      (fun j hj1 hj2 => hused j ⟨by omega, by omega⟩)
    have h3 := hfresh.count_eq
    rw [← h1] at h3
    rw [hnum] at h2 ⊢
    have : (mapErase name m.processMemoryMap).length * m.framesPerProcess + m.framesPerProcess
        = usedFrames m.frames := by
      rw [← h3]; ring
    omega

theorem FreshInv_of_ReachableFresh (config : Config) (m : MemoryManager)
    (h : ReachableFresh config m) : FreshInv m := by
  induction h with
  | ctor => exact FreshInv_ctor config
  | allocate lockAcquired process w hr habs ih =>
    have hinv := MemInv_of_Reachable config _ (Reachable_of_ReachableFresh config _ hr)
    rcases allocateMemory_memory config lockAcquired process w with h1 | ⟨p, hp, _, hfit, h2⟩
    · rw [h1]; exact ih
    · rw [h2]; exact FreshInv_allocated w.memory _ hinv ih hfit (habs p hp)
  | release m processName hr ih =>
    have hinv := MemInv_of_Reachable config _ (Reachable_of_ReachableFresh config _ hr)
    cases h : mapFind processName m.processMemoryMap with
    | none => rw [releaseMemory_of_absent m processName h]; exact ih
    | some info =>
      rw [releaseMemory_of_present m processName info h]
      exact FreshInv_released m processName info hinv ih h

theorem ReachableFresh_bothAllocated : ReachableFresh smallConfig bothAllocated :=
  ReachableFresh.allocate true (some 2) _
    (ReachableFresh.allocate true (some 1) _ ReachableFresh.ctor
      (fun p hp => by cases hp; decide))
    (fun p hp => by cases hp; decide)

theorem mem_setErase (x y : String) (s : List String) :
    y ∈ setErase x s ↔ y ∈ s ∧ y ≠ x := by
  simp [setErase, List.mem_filter]

theorem ite_error_eq_ok {p : Prop} [Decidable p] (e : ConfigException)
    (x : Except ConfigException Unit) :
    ((if p then Except.error e else x) = Except.ok ()) ↔ (¬ p ∧ x = Except.ok ()) := by
  by_cases hp : p <;> simp [hp]

theorem validateParameters_memory (c : Config) (h : validateParameters c = .ok ()) :
    0 < c.memPerFrame ∧ c.maxOverallMem % c.memPerFrame = 0 ∧
      c.memPerProc % c.memPerFrame = 0 := by
  unfold validateParameters at h
  simp only [ite_error_eq_ok] at h
  obtain ⟨_, _, _, _, _, _, _, _, h9, _, h11, h12, _⟩ := h
  exact ⟨by omega, by omega, by omega⟩

/-- The constants that the constructor derives stay as constructed. -/
theorem Reachable_constants (config : Config) (m : MemoryManager) (h : Reachable config m) :
    m.totalFrames = config.maxOverallMem / config.memPerFrame ∧
    m.frameSize = config.memPerFrame ∧ m.processSize = config.memPerProc ∧
    m.framesPerProcess = config.memPerProc / config.memPerFrame := by
  induction h with
  | ctor => exact ⟨rfl, rfl, rfl, rfl⟩
  | allocate lockAcquired process w _ ih =>
    rcases allocateMemory_memory config lockAcquired process w with h1 | ⟨p, _, _, _, h2⟩
    · rw [h1]; exact ih
    · rw [h2]; exact ih
  | release m processName _ ih =>
    cases h : mapFind processName m.processMemoryMap with
    | none => rw [releaseMemory_of_absent m processName h]; exact ih
    | some info => rw [releaseMemory_of_present m processName info h]; exact ih

theorem toInt32_of_lt (n : Nat) (h : n < 2 ^ 31) : toInt32 n = n := by
  unfold toInt32
  rw [Nat.mod_eq_of_lt (by omega)]
  push_cast
  ring

theorem Validated_smallConfig : smallConfig.Validated := ⟨by decide, rfl⟩

/-! ### Dispatch -/

theorem availableCoreLoop_spec :
    ∀ (l : List Bool) (i : Nat),
      (availableCoreLoop l i = -1 ∧ ∀ b ∈ l, b = true) ∨
      (∃ c, availableCoreLoop l i = ((i + c : Nat) : Int) ∧ LowestFreeCore l c) := by
  intro l
  induction l with
  | nil => intro i; exact Or.inl ⟨rfl, by simp⟩
  | cons b rest ih =>
    intro i
    cases b with
    | false =>
      right
      exact ⟨0, by simp [availableCoreLoop], by simp [LowestFreeCore]⟩
    | true =>
      rcases ih (i + 1) with ⟨h1, h2⟩ | ⟨c, h1, h2, h3⟩
      · left
        refine ⟨by simpa [availableCoreLoop] using h1, ?_⟩
        intro b hb
        rcases List.mem_cons.1 hb with h | h
        · exact h
        · exact h2 b h
      · right
        refine ⟨c + 1, ?_, ?_, ?_⟩
        · simp only [availableCoreLoop, Bool.not_true, Bool.false_eq_true, if_false, h1]
          congr 1
          omega
        · simpa using h2
        · intro j hj
          cases j with
          | zero => simp
          | succ k => simpa using h3 k (by omega)

theorem LowestFreeCore_unique {l : List Bool} {c d : Nat} (hc : LowestFreeCore l c)
    (hd : LowestFreeCore l d) : c = d := by
  rcases Nat.lt_trichotomy c d with h | h | h
  · have := hd.2 c h
    rw [hc.1] at this
    exact absurd this (by simp)
  · exact h
  · have := hc.2 d h
    rw [hd.1] at this
    exact absurd this (by simp)

theorem availableCoreLoop_of_lowest (l : List Bool) (c : Nat) (h : LowestFreeCore l c) :
    availableCoreLoop l 0 = (c : Int) := by
  rcases availableCoreLoop_spec l 0 with ⟨_, h2⟩ | ⟨d, h1, h2⟩
  · have hm := List.getElem?_mem h.1
    exact absurd (h2 _ hm) (by simp)
  · rw [h1, LowestFreeCore_unique h h2]
    simp

theorem availableCoreLoop_of_all_busy (l : List Bool) (h : ∀ b ∈ l, b = true) :
    availableCoreLoop l 0 = -1 := by
  rcases availableCoreLoop_spec l 0 with ⟨h1, _⟩ | ⟨d, _, h2, _⟩
  · exact h1
  · have hm := List.getElem?_mem h2
    exact absurd (h _ hm) (by simp)

theorem LowestFreeCore_lt_length {l : List Bool} {c : Nat} (h : LowestFreeCore l c) :
    c < l.length := by
  by_contra hc
  have := h.1
  rw [List.getElem?_eq_none (by omega)] at this
  exact absurd this (by simp)

theorem policySchedule_some (config : Config) (w w1 : World) (p : Handle)
    (h : policySchedule config w = (some p, w1)) :
    w.scheduler.readyQueue = p :: w1.scheduler.readyQueue ∧ w1.heap = w.heap ∧
      w1.memory = w.memory ∧
      w1.scheduler = { w.scheduler with readyQueue := w1.scheduler.readyQueue } := by
  unfold policySchedule at h
  cases hq : w.scheduler.readyQueue with
  | nil =>
    by_cases hrr : config.schedulerType = "rr"
    · simp [hrr, roundRobinSchedule, hq] at h
    · simp [hrr, fcfsSchedule, hq] at h
  | cons x rest =>
    by_cases hrr : config.schedulerType = "rr"
    · by_cases he : isQuantumExpired config (w.heap x) = true
      · simp [hrr, roundRobinSchedule, hq, he] at h
      · simp only [hrr, if_true, roundRobinSchedule, hq, he, Bool.not_false,
          Bool.not_eq_true] at h
        simp only [Bool.not_eq_true] at he
        simp only [he, Bool.not_false, if_true, Prod.mk.injEq, Option.some.injEq] at h
        obtain ⟨h1, h2⟩ := h
        subst h1; subst h2
        exact ⟨rfl, rfl, rfl, rfl⟩
    · simp only [hrr, if_false, fcfsSchedule, hq, Prod.mk.injEq, Option.some.injEq] at h
      obtain ⟨h1, h2⟩ := h
      subst h1; subst h2
      exact ⟨rfl, rfl, rfl, rfl⟩

/-- What `getNextProcess` returns when the policy yields `p` and slot `c` is the
lowest free one. -/
theorem getNextProcess_of_some (config : Config) (w w1 : World) (p : Handle) (c : Nat)
    (hsize : (w.scheduler.coreStatus.length : Int) ≤ config.numCPU)
    (hc : LowestFreeCore w.scheduler.coreStatus c)
    (hp : policySchedule config w = (some p, w1)) :
    getNextProcess config w = .ok (some p,
      { w1 with
        heap := Function.update w1.heap p { w1.heap p with cpuCoreID := (c : Int) }
        scheduler :=
          { w1.scheduler with
            coreStatus := w1.scheduler.coreStatus.set c true
            runningProcesses := w1.scheduler.runningProcesses ++ [p] } }) := by
  obtain ⟨hq, _, _, _⟩ := policySchedule_some config w w1 p hp
  have hne : w.scheduler.readyQueue.isEmpty = false := by rw [hq]; rfl
  have hcore := availableCoreLoop_of_lowest _ c hc
  have hlt := LowestFreeCore_lt_length hc
  have hset : (w1.heap p).setCPUCoreID config (c : Int) =
      .ok { w1.heap p with cpuCoreID := (c : Int) } := by
    unfold Process.setCPUCoreID
    rw [if_pos ⟨by omega, by omega⟩]
  unfold policySchedule at hp
  simp only [getNextProcess, hne, Bool.false_eq_true, if_false, hcore, hp, hset]
  rw [if_neg (by omega)]
  simp

theorem policySchedule_none (config : Config) (w w1 : World)
    (h : policySchedule config w = (none, w1)) :
    w1 = w ∨ ∃ p rest, w.scheduler.readyQueue = p :: rest ∧
      w1 = handleQuantumExpiration
        { w with scheduler := { w.scheduler with readyQueue := rest } } p := by
  unfold policySchedule at h
  cases hq : w.scheduler.readyQueue with
  | nil =>
    left
    by_cases hrr : config.schedulerType = "rr"
    · simp only [hrr, if_true, roundRobinSchedule, hq, Prod.mk.injEq, true_and] at h
      exact h.symm
    · simp only [hrr, if_false, fcfsSchedule, hq, Prod.mk.injEq, true_and] at h
      exact h.symm
  | cons x rest =>
    right
    by_cases hrr : config.schedulerType = "rr"
    · cases he : isQuantumExpired config (w.heap x) with
      | true =>
        simp only [hrr, if_true, roundRobinSchedule, hq, he, Bool.not_true, Bool.false_eq_true,
          if_false, Prod.mk.injEq, true_and] at h
        exact ⟨x, rest, rfl, h.symm⟩
      | false =>
        simp [hrr, roundRobinSchedule, hq, he] at h
    · simp [hrr, fcfsSchedule, hq] at h

/-- The ways in which `getNextProcess` returns normally. -/
theorem getNextProcess_ok_cases (config : Config) (w w2 : World) (r : Option Handle)
    (h : getNextProcess config w = .ok (r, w2)) :
    (r = none ∧ w2 = w) ∨
    (r = none ∧ ∃ p rest, w.scheduler.readyQueue = p :: rest ∧
      w2 = handleQuantumExpiration
        { w with scheduler := { w.scheduler with readyQueue := rest } } p) ∨
    (∃ p c w1, r = some p ∧ LowestFreeCore w.scheduler.coreStatus c ∧
      policySchedule config w = (some p, w1) ∧
      w2 = { w1 with
        heap := Function.update w1.heap p { w1.heap p with cpuCoreID := (c : Int) }
        scheduler :=
          { w1.scheduler with
            coreStatus := w1.scheduler.coreStatus.set c true
            runningProcesses := w1.scheduler.runningProcesses ++ [p] } }) := by
  unfold getNextProcess at h
  by_cases hne : w.scheduler.readyQueue.isEmpty = true
  · rw [if_pos hne] at h
    cases h
    exact Or.inl ⟨rfl, rfl⟩
  · rw [if_neg hne] at h
    rcases availableCoreLoop_spec w.scheduler.coreStatus 0 with ⟨hb, _⟩ | ⟨c, hc1, hc2⟩
    · simp only [hb, if_true] at h
      cases h
      exact Or.inl ⟨rfl, rfl⟩
    · simp only [hc1, Nat.zero_add] at h
      rw [if_neg (by omega)] at h
      have hpol : (if config.schedulerType = "rr" then roundRobinSchedule config w
          else fcfsSchedule w) = policySchedule config w := rfl
      rw [hpol] at h
      cases hp : policySchedule config w with
      | mk r1 w1 =>
        rw [hp] at h
        cases r1 with
        | none =>
          simp only [Except.ok.injEq, Prod.mk.injEq] at h
          obtain ⟨hr, h2⟩ := h
          rw [← h2]
          rcases policySchedule_none config w w1 hp with h1 | h1
          · exact Or.inl ⟨hr.symm, h1⟩
          · exact Or.inr (Or.inl ⟨hr.symm, h1⟩)
        | some p =>
          simp only at h
          cases hs : (w1.heap p).setCPUCoreID config (c : Int) with
          | error e => rw [hs] at h; cases h
          | ok bound =>
            rw [hs] at h
            simp only [Except.ok.injEq, Prod.mk.injEq] at h
            obtain ⟨h1, h2⟩ := h
            have hb : bound = { w1.heap p with cpuCoreID := (c : Int) } := by
              unfold Process.setCPUCoreID at hs
              by_cases hr : (c : Int) ≥ -1 ∧ (c : Int) < config.numCPU
              · rw [if_pos hr] at hs
                cases hs
                rfl
              · rw [if_neg hr] at hs
                cases hs
            refine Or.inr (Or.inr ⟨p, c, w1, h1.symm, hc2, rfl, ?_⟩)
            rw [← h2, hb]
            simp

/-! ### The running list and the core slots -/

theorem SchedInv_ctor (config : Config) (heap : Handle → Process) :
    SchedInv heap (Scheduler.ctor config) where
  nodup := by simp [Scheduler.ctor]
  bound := by simp [Scheduler.ctor]
  inj := by simp [Scheduler.ctor]
  busy := by
    intro c hc
    simp only [Scheduler.ctor] at hc
    have := List.getElem?_mem hc
    rw [List.mem_replicate] at this
    exact absurd this.2 (by simp)

/-- A change of the heap at a process that is not running keeps the facts about
the running processes. -/
theorem SchedInv_heap_update (heap : Handle → Process) (s : Scheduler) (p : Handle)
    (proc : Process) (hinv : SchedInv heap s) (h2 : p ∉ s.runningProcesses) :
    SchedInv (Function.update heap p proc) s := by
  have hheap : ∀ q ∈ s.runningProcesses, Function.update heap p proc q = heap q := by
    intro q hq
    have : q ≠ p := fun hc => h2 (hc ▸ hq)
    simp [Function.update, this]
  constructor
  · exact hinv.nodup
  · intro q hq
    rw [hheap q hq]
    exact hinv.bound q hq
  · intro q hq r hr
    rw [hheap q hq, hheap r hr]
    exact hinv.inj q hq r hr
  · intro c hc
    obtain ⟨q, hq, hqc⟩ := hinv.busy c hc
    exact ⟨q, hq, by rw [hheap q hq]; exact hqc⟩

/-- Pushing a process that is neither queued nor running keeps the invariant. -/
theorem SchedInv_addProcess (heap : Handle → Process) (s : Scheduler) (p : Handle)
    (hinv : SchedInv heap s) (h1 : p ∉ s.readyQueue) (h2 : p ∉ s.runningProcesses) :
    SchedInv heap (s.addProcess p) := by
  constructor
  · simp only [Scheduler.addProcess]
    have := hinv.nodup
    rw [List.nodup_append] at this ⊢
    obtain ⟨n1, n2, n3⟩ := this
    refine ⟨?_, n2, ?_⟩
    · exact List.Nodup.append n1 (List.nodup_singleton p) (by simpa using h1)
    · intro a ha hb
      rcases List.mem_append.1 ha with h | h
      · exact n3 h hb
      · rw [List.mem_singleton] at h
        exact h2 (h ▸ hb)
  · exact hinv.bound
  · exact hinv.inj
  · exact hinv.busy

/-- Moving the head of the ready queue to its tail keeps the invariant. -/
theorem SchedInv_rotate (heap : Handle → Process) (s : Scheduler) (p : Handle)
    (rest : List Handle) (hinv : SchedInv heap s) (hq : s.readyQueue = p :: rest) :
    SchedInv heap { s with readyQueue := rest ++ [p] } := by
  constructor
  · have := hinv.nodup
    rw [hq] at this
    have hperm : ((p :: rest) ++ s.runningProcesses).Perm
        ((rest ++ [p]) ++ s.runningProcesses) :=
      List.Perm.append_right _
        (by simpa using (List.perm_append_comm : ([p] ++ rest).Perm (rest ++ [p])))
    exact (List.Perm.nodup_iff hperm).1 this
  · exact hinv.bound
  · exact hinv.inj
  · exact hinv.busy

/-- Binding the head of the ready queue to the lowest free core keeps the
invariant. -/
theorem SchedInv_bind (heap : Handle → Process) (s : Scheduler) (p : Handle)
    (rest : List Handle) (c : Nat) (hinv : SchedInv heap s) (hq : s.readyQueue = p :: rest)
    (hc : LowestFreeCore s.coreStatus c) :
    SchedInv (Function.update heap p { heap p with cpuCoreID := (c : Int) })
      { s with
        readyQueue := rest
        coreStatus := s.coreStatus.set c true
        runningProcesses := s.runningProcesses ++ [p] } := by
  have hnd := hinv.nodup
  rw [hq] at hnd
  have hlt := LowestFreeCore_lt_length hc
  have hp : p ∉ s.runningProcesses := by
    intro hc2
    have := (List.nodup_append.1 hnd).2.2 (List.mem_cons_self p rest) hc2
    exact this
  have hheap : ∀ q ∈ s.runningProcesses,
      Function.update heap p { heap p with cpuCoreID := (c : Int) } q = heap q := by
    intro q hqr
    have : q ≠ p := fun h => hp (h ▸ hqr)
    simp [Function.update, this]
  have hself : Function.update heap p { heap p with cpuCoreID := (c : Int) } p =
      { heap p with cpuCoreID := (c : Int) } := by simp
  have hfree : ∀ q ∈ s.runningProcesses, (heap q).cpuCoreID ≠ (c : Int) := by
    intro q hqr heq
    obtain ⟨d, hd1, hd2⟩ := hinv.bound q hqr
    rw [hd1] at heq
    have hdc : d = c := by exact_mod_cast heq
    rw [hdc, hc.1] at hd2
    exact absurd hd2 (by simp)
  constructor
  · simp only
    have hperm : ((p :: rest) ++ s.runningProcesses).Perm
        (rest ++ (s.runningProcesses ++ [p])) := by
      rw [← List.append_assoc]
      have h1 : ((p :: rest) ++ s.runningProcesses).Perm
          ([p] ++ (rest ++ s.runningProcesses)) := by simp
      exact h1.trans List.perm_append_comm
    exact (List.Perm.nodup_iff hperm).1 hnd
  · intro q hqr
    simp only [List.mem_append, List.mem_singleton] at hqr
    rcases hqr with hqr | hqr
    · obtain ⟨d, hd1, hd2⟩ := hinv.bound q hqr
      refine ⟨d, by rw [hheap q hqr]; exact hd1, ?_⟩
      simp only [List.getElem?_set]
      by_cases hcd : c = d
      · subst hcd; simp [hlt]
      · simp [hcd, hd2]
    · subst hqr
      exact ⟨c, by rw [hself], by simp [List.getElem?_set, hlt]⟩
  · intro q hqr r hrr heq
    simp only [List.mem_append, List.mem_singleton] at hqr hrr
    rcases hqr with hqr | hqr <;> rcases hrr with hrr | hrr
    · rw [hheap q hqr, hheap r hrr] at heq
      exact hinv.inj q hqr r hrr heq
    · subst hrr
      rw [hheap q hqr, hself] at heq
      exact absurd heq (hfree q hqr)
    · subst hqr
      rw [hheap r hrr, hself] at heq
      exact absurd heq.symm (hfree r hrr)
    · rw [hqr, hrr]
  · intro d hd
    simp only [List.getElem?_set] at hd
    by_cases hcd : c = d
    · subst hcd
      exact ⟨p, by simp, by rw [hself]⟩
    · rw [if_neg hcd] at hd
      obtain ⟨q, hq1, hq2⟩ := hinv.busy d hd
      exact ⟨q, by simp [hq1], by rw [hheap q hq1]; exact hq2⟩

theorem SchedInv_dispatch (config : Config) (w w2 : World) (r : Option Handle)
    (hinv : SchedInv w.heap w.scheduler) (h : getNextProcess config w = .ok (r, w2)) :
    SchedInv w2.heap w2.scheduler := by
  rcases getNextProcess_ok_cases config w w2 r h with ⟨_, h1⟩ | ⟨_, p, rest, hq, h1⟩ |
    ⟨p, c, w1, _, hc, hp, h1⟩
  · rw [h1]; exact hinv
  · rw [h1]
    simp only [handleQuantumExpiration]
    have hp : p ∉ w.scheduler.runningProcesses := by
      intro hc
      have hnd := hinv.nodup
      rw [hq] at hnd
      exact (List.nodup_append.1 hnd).2.2 (List.mem_cons_self p rest) hc
    exact SchedInv_heap_update _ _ p _ (SchedInv_rotate _ _ p rest hinv hq) hp
  · obtain ⟨hq, hheap, _, hs⟩ := policySchedule_some config w w1 p hp
    rw [h1]
    simp only
    rw [hheap, hs]
    exact SchedInv_bind w.heap w.scheduler p w1.scheduler.readyQueue c hinv hq hc

theorem allocateMemory_scheduler (config : Config) (lockAcquired : Bool) (p : Handle)
    (w : World) :
    ((allocateMemory config lockAcquired (some p) w).2.heap = w.heap ∧
      (allocateMemory config lockAcquired (some p) w).2.scheduler = w.scheduler) ∨
    ((allocateMemory config lockAcquired (some p) w).2.heap =
        Function.update w.heap p ((w.heap p).setState ProcessState.READY) ∧
      (allocateMemory config lockAcquired (some p) w).2.scheduler = w.scheduler.addProcess p) := by
  cases lockAcquired with
  | false => exact Or.inl ⟨rfl, rfl⟩
  | true =>
    by_cases hfit : w.memory.findFirstFit = w.memory.frames.length
    · rw [allocateMemory_of_no_fit config p w hfit]
      by_cases hrr : config.schedulerType = "rr"
      · rw [if_pos hrr]; exact Or.inr ⟨rfl, rfl⟩
      · rw [if_neg hrr]; exact Or.inl ⟨rfl, rfl⟩
    · rw [allocateMemory_of_fit config p w hfit]
      exact Or.inl ⟨rfl, rfl⟩

theorem SchedInv_of_reachable (config : Config) (w : World)
    (h : SchedulerReachableFresh config w) : SchedInv w.heap w.scheduler := by
  induction h with
  | init heap memory => exact SchedInv_ctor config heap
  | addProcess w p _ h1 h2 ih => exact SchedInv_addProcess _ _ p ih h1 h2
  | allocateMemory w lockAcquired p _ h1 h2 ih =>
    rcases allocateMemory_scheduler config lockAcquired p w with ⟨e1, e2⟩ | ⟨e1, e2⟩
    · rw [e1, e2]; exact ih
    · rw [e1, e2]
      exact SchedInv_heap_update _ _ p _ (SchedInv_addProcess _ _ p ih h1 h2) h2
  | dispatch w w2 r _ hd ih => exact SchedInv_dispatch config w w2 r ih hd

theorem coreStatus_length_dispatch (config : Config) (w w2 : World) (r : Option Handle)
    (h : getNextProcess config w = .ok (r, w2)) :
    w2.scheduler.coreStatus.length = w.scheduler.coreStatus.length := by
  rcases getNextProcess_ok_cases config w w2 r h with ⟨_, h1⟩ | ⟨_, p, rest, hq, h1⟩ |
    ⟨p, c, w1, _, hc, hp, h1⟩
  · rw [h1]
  · rw [h1]; rfl
  · obtain ⟨_, _, _, hs⟩ := policySchedule_some config w w1 p hp
    rw [h1]
    simp only [List.length_set]
    rw [hs]

theorem coreStatus_length_of_reachable (config : Config) (w : World)
    (h : SchedulerReachableFresh config w) :
    w.scheduler.coreStatus.length = config.numCPU.toNat := by
  induction h with
  | init heap memory => simp [Scheduler.ctor]
  | addProcess w p _ h1 h2 ih => exact ih
  | allocateMemory w lockAcquired p _ h1 h2 ih =>
    rcases allocateMemory_scheduler config lockAcquired p w with ⟨_, e2⟩ | ⟨_, e2⟩
    · rw [e2]; exact ih
    · rw [e2]; exact ih
  | dispatch w w2 r _ hd ih => rw [coreStatus_length_dispatch config w w2 r hd]; exact ih

theorem SchedulerReachableFresh_dispatched :
    SchedulerReachableFresh (schedulerConfig 2 "fcfs" 2)
      (dispatchWorld (schedulerConfig 2 "fcfs" 2)
        (dispatchWorld (schedulerConfig 2 "fcfs" 2)
          (admittedWorld (schedulerConfig 2 "fcfs" 2) 3))) :=
  SchedulerReachableFresh.dispatch _ _ (some 2)
    (SchedulerReachableFresh.dispatch _ _ (some 1)
      (SchedulerReachableFresh.addProcess _ 2
        (SchedulerReachableFresh.addProcess _ 1
          (SchedulerReachableFresh.init (twoProcessHeap 3)
            (MemoryManager.ctor (schedulerConfig 2 "fcfs" 2)))
          (by decide) (by decide))
        (by decide) (by decide))
      rfl)
    rfl

/-! ### The cycle barrier in the step model -/

theorem SystemReachable_afterSteps (config : Config) (steps : List ThreadStep) :
    ∀ st, SystemReachable config st → SystemReachable config (afterSteps config steps st) := by
  induction steps with
  | nil => intro st h; exact h
  | cons a rest ih =>
    intro st h
    simp only [afterSteps]
    cases hs : threadStep config st a with
    | none => exact ih st h
    | some st2 => exact ih st2 (SystemReachable.step st st2 a h hs)

theorem getNextProcess_counters (config : Config) (w w2 : World) (r : Option Handle)
    (h : getNextProcess config w = .ok (r, w2)) :
    w2.scheduler.coresWaiting = w.scheduler.coresWaiting ∧
    w2.scheduler.cpuCycles = w.scheduler.cpuCycles := by
  rcases getNextProcess_ok_cases config w w2 r h with ⟨_, h1⟩ | ⟨_, p, rest, hq, h1⟩ |
    ⟨p, c, w1, _, hc, hp, h1⟩
  · rw [h1]; exact ⟨rfl, rfl⟩
  · rw [h1]; exact ⟨rfl, rfl⟩
  · obtain ⟨_, _, _, hs⟩ := policySchedule_some config w w1 p hp
    rw [h1]
    simp only
    rw [hs]
    exact ⟨rfl, rfl⟩

theorem allocateMemory_counters (config : Config) (lockAcquired : Bool) (p : Handle)
    (w : World) :
    (allocateMemory config lockAcquired (some p) w).2.scheduler.coresWaiting =
      w.scheduler.coresWaiting ∧
    (allocateMemory config lockAcquired (some p) w).2.scheduler.cpuCycles =
      w.scheduler.cpuCycles := by
  rcases allocateMemory_scheduler config lockAcquired p w with ⟨_, e2⟩ | ⟨_, e2⟩
  · rw [e2]; exact ⟨rfl, rfl⟩
  · rw [e2]; exact ⟨rfl, rfl⟩

theorem endOfTurnLists_counters (w : World) (p : Handle) :
    (endOfTurnLists w p).scheduler.coresWaiting = w.scheduler.coresWaiting ∧
    (endOfTurnLists w p).scheduler.cpuCycles = w.scheduler.cpuCycles := by
  unfold endOfTurnLists
  by_cases h : (w.heap p).isFinished = true <;> simp [h]

theorem instructionRound_scheduler (config : Config) (p : Handle) (delays : Int) (w : World)
    (d : Int) : (instructionRound config p delays w d).1.scheduler = w.scheduler := by
  unfold instructionRound
  by_cases h : d < delays
  · rw [if_pos h]
  · rw [if_neg h]

/-- A step that moves a worker which is not blocked in the barrier, and keeps
`coresWaiting` and `called`, keeps the invariant. -/
theorem BarrierInv_move (st : SystemState) (w : World) (i : Nat) (pos old : WorkerAt)
    (hinv : BarrierInv st) (hold : st.workers[i]? = some old)
    (hnot : ∀ held, old ≠ .inBarrier held)
    (hw : w.scheduler.coresWaiting = st.world.scheduler.coresWaiting) :
    BarrierInv { st with world := w, workers := st.workers.set i pos } where
  count := by rw [← hinv.count]; exact hw
  nodup := hinv.nodup
  blocked := by
    intro j hj
    obtain ⟨held, hh⟩ := hinv.blocked j hj
    have hne : i ≠ j := by
      intro he
      rw [he, hh] at hold
      cases hold
      exact hnot held rfl
    exact ⟨held, by simp only [List.getElem?_set_ne hne]; exact hh⟩

theorem BarrierInv_world (st : SystemState) (w : World)
    (hinv : BarrierInv st)
    (hw : w.scheduler.coresWaiting = st.world.scheduler.coresWaiting) :
    BarrierInv { st with world := w } where
  count := by rw [← hinv.count]; exact hw
  nodup := hinv.nodup
  blocked := hinv.blocked

theorem BarrierInv_initialState (config : Config) (heap : Handle → Process)
    (memory : MemoryManager) : BarrierInv (initialState config heap memory) where
  count := rfl
  nodup := List.nodup_nil
  blocked := by intro i hi; cases hi

theorem endOfTurn_eq_none (w : World) (p : Handle) : endOfTurn w p = none := by
  simp [endOfTurn, updateCoreStatus]

theorem cycleCounterTick_coresWaiting (s : Scheduler) :
    (cycleCounterTick s).coresWaiting = s.coresWaiting := by
  unfold cycleCounterTick
  by_cases h : s.runningProcesses.isEmpty = true
  · rw [if_pos h]
  · rw [if_neg h]

theorem BarrierInv_step (config : Config) (st st2 : SystemState) (a : ThreadStep)
    (hinv : BarrierInv st) (hs : threadStep config st a = some st2) : BarrierInv st2 := by
  cases a with
  | addProcess p =>
    simp only [threadStep] at hs
    split at hs
    · rw [← Option.some.inj hs]
      exact BarrierInv_world st _ hinv rfl
    · cases hs
  | allocateMemory lockAcquired p =>
    simp only [threadStep] at hs
    split at hs
    · rw [← Option.some.inj hs]
      exact BarrierInv_world st _ hinv (allocateMemory_counters config lockAcquired p st.world).1
    · cases hs
  | fetch i =>
    simp only [threadStep] at hs
    split at hs
    · rename_i hpos
      split at hs
      · split at hs
        · cases hs
        · rename_i w1 hg
          rw [← Option.some.inj hs]
          exact BarrierInv_move st _ i _ _ hinv hpos (fun held hc => by cases hc)
            (getNextProcess_counters config st.world w1 none hg).1
        · rename_i p w1 hg
          rw [← Option.some.inj hs]
          exact BarrierInv_move st _ i _ _ hinv hpos (fun held hc => by cases hc)
            (getNextProcess_counters config st.world w1 (some p) hg).1
      · cases hs
    · cases hs
  | round i =>
    simp only [threadStep] at hs
    split at hs
    · rename_i p d hpos
      split at hs
      · rw [← Option.some.inj hs]
        exact BarrierInv_move st st.world i _ _ hinv hpos (fun held hc => by cases hc) rfl
      · rw [← Option.some.inj hs]
        exact BarrierInv_move st _ i _ _ hinv hpos (fun held hc => by cases hc)
          (by rw [instructionRound_scheduler])
    · cases hs
  | sync i =>
    simp only [threadStep] at hs
    split at hs
    · rename_i held hpos
      rw [← Option.some.inj hs]
      have hi : i ∉ st.called := by
        intro hc
        obtain ⟨h2, hh⟩ := hinv.blocked i hc
        rw [hh] at hpos
        cases hpos
      have hlt : i < st.workers.length := by
        by_contra hc
        rw [List.getElem?_eq_none (by omega)] at hpos
        cases hpos
      unfold waitForCycleSync
      by_cases hq : st.world.scheduler.coresWaiting + 1 ≥
          max 1 (st.world.scheduler.runningProcesses.length : Int)
      · simp only [hq, if_true]
        exact ⟨rfl, List.nodup_nil, fun j hj => by cases hj⟩
      · simp only [hq, if_false, Bool.false_eq_true]
        refine ⟨?_, ?_, ?_⟩
        · simp only [List.length_append, List.length_singleton]
          rw [hinv.count]
          push_cast
          rfl
        · exact List.Nodup.append hinv.nodup (List.nodup_singleton i) (by simpa using hi)
        · intro j hj
          rcases List.mem_append.1 hj with h | h
          · obtain ⟨h2, hh⟩ := hinv.blocked j h
            have hne : i ≠ j := fun he => hi (he ▸ h)
            exact ⟨h2, by simp only [List.getElem?_set_ne hne]; exact hh⟩
          · rw [List.mem_singleton] at h
            subst h
            exact ⟨held, by simp [List.getElem?_set, hlt]⟩
    · cases hs
  | wake i =>
    simp only [threadStep] at hs
    split at hs
    · rename_i held hpos
      split at hs
      · rename_i hz
        rw [← Option.some.inj hs]
        have hnil : st.called = [] := by
          have := hinv.count
          rw [hz] at this
          exact List.length_eq_zero.1 (by exact_mod_cast this.symm)
        exact ⟨hinv.count, hinv.nodup, fun j hj => by simp only [hnil] at hj; cases hj⟩
      · cases hs
    · cases hs
  | finishTurn i =>
    simp only [threadStep, endOfTurn_eq_none] at hs
    split at hs
    · rename_i p hpos
      split at hs
      · rw [← Option.some.inj hs]
        exact BarrierInv_move st _ i _ _ hinv hpos (fun held hc => by cases hc)
          (endOfTurnLists_counters st.world p).1
      · cases hs
    · cases hs
  | tick =>
    simp only [threadStep] at hs
    rw [← Option.some.inj hs]
    exact BarrierInv_world st _ hinv (cycleCounterTick_coresWaiting _)

theorem BarrierInv_of_reachable (config : Config) (st : SystemState)
    (h : SystemReachable config st) : BarrierInv st := by
  induction h with
  | init heap memory => exact BarrierInv_initialState config heap memory
  | step st st2 a _ hs ih => exact BarrierInv_step config st st2 a ih hs

/-- What a step does to the cycle counter: a `waitForCycleSync` call adds one
exactly when `coresWaiting + 1` reaches the quorum, a tick of the backup clock
adds one exactly when the running list is empty, no other step changes it. -/
theorem threadStep_cpuCycles (config : Config) (st st2 : SystemState) (a : ThreadStep)
    (hs : threadStep config st a = some st2) :
    (∀ i, a = .sync i →
      (st.world.scheduler.coresWaiting + 1 ≥
          max 1 (st.world.scheduler.runningProcesses.length : Int) →
        st2.world.scheduler.cpuCycles = st.world.scheduler.cpuCycles + 1 ∧ st2.called = []) ∧
      (st.world.scheduler.coresWaiting + 1 <
          max 1 (st.world.scheduler.runningProcesses.length : Int) →
        st2.world.scheduler.cpuCycles = st.world.scheduler.cpuCycles ∧
          st2.called = st.called ++ [i])) ∧
    (a = .tick →
      (st.world.scheduler.runningProcesses = [] →
        st2.world.scheduler.cpuCycles = st.world.scheduler.cpuCycles + 1) ∧
      (st.world.scheduler.runningProcesses ≠ [] →
        st2.world.scheduler.cpuCycles = st.world.scheduler.cpuCycles)) ∧
    ((∀ i, a ≠ .sync i) → a ≠ .tick →
      st2.world.scheduler.cpuCycles = st.world.scheduler.cpuCycles) := by
  cases a with
  | addProcess p =>
    refine ⟨(fun i hi => by cases hi), (fun h => by cases h), fun _ _ => ?_⟩
    simp only [threadStep] at hs
    split at hs
    · rw [← Option.some.inj hs]; rfl
    · cases hs
  | allocateMemory lockAcquired p =>
    refine ⟨(fun i hi => by cases hi), (fun h => by cases h), fun _ _ => ?_⟩
    simp only [threadStep] at hs
    split at hs
    · rw [← Option.some.inj hs]
      exact (allocateMemory_counters config lockAcquired p st.world).2
    · cases hs
  | fetch i =>
    refine ⟨(fun i hi => by cases hi), (fun h => by cases h), fun _ _ => ?_⟩
    simp only [threadStep] at hs
    split at hs
    · split at hs
      · split at hs
        · cases hs
        · rename_i w1 hg
          rw [← Option.some.inj hs]
          exact (getNextProcess_counters config st.world w1 none hg).2
        · rename_i p w1 hg
          rw [← Option.some.inj hs]
          exact (getNextProcess_counters config st.world w1 (some p) hg).2
      · cases hs
    · cases hs
  | round i =>
    refine ⟨(fun i hi => by cases hi), (fun h => by cases h), fun _ _ => ?_⟩
    obtain ⟨w2, ws2, c2⟩ := st2
    simp only [threadStep] at hs
    split at hs
    · split at hs
      · rw [← Option.some.inj hs]
      · simp only [Option.some.injEq, SystemState.mk.injEq] at hs
        show w2.scheduler.cpuCycles = _
        rw [← hs.1, instructionRound_scheduler]
    · cases hs
  | sync i =>
    refine ⟨fun j hj => ?_, (fun h => by cases h), fun h _ => absurd rfl (h i)⟩
    cases hj
    simp only [threadStep] at hs
    split at hs
    · rw [← Option.some.inj hs]
      unfold waitForCycleSync
      constructor
      · intro hq
        rw [if_pos hq]
        exact ⟨rfl, rfl⟩
      · intro hq
        have hn : ¬ st.world.scheduler.coresWaiting + 1 ≥
            max 1 (st.world.scheduler.runningProcesses.length : Int) := by omega
        rw [if_neg hn]
        exact ⟨rfl, rfl⟩
    · cases hs
  | wake i =>
    refine ⟨(fun i hi => by cases hi), (fun h => by cases h), fun _ _ => ?_⟩
    simp only [threadStep] at hs
    split at hs
    · split at hs
      · rw [← Option.some.inj hs]
      · cases hs
    · cases hs
  | finishTurn i =>
    refine ⟨(fun i hi => by cases hi), (fun h => by cases h), fun _ _ => ?_⟩
    simp only [threadStep, endOfTurn_eq_none] at hs
    split at hs
    · rename_i p hpos
      split at hs
      · rw [← Option.some.inj hs]
        exact (endOfTurnLists_counters st.world p).2
      · cases hs
    · cases hs
  | tick =>
    refine ⟨(fun i hi => by cases hi), fun _ => ?_, fun _ h => absurd rfl h⟩
    simp only [threadStep] at hs
    rw [← Option.some.inj hs]
    unfold cycleCounterTick
    constructor
    · intro he
      simp [he]
    · intro he
      have : st.world.scheduler.runningProcesses.isEmpty = false := by
        cases h : st.world.scheduler.runningProcesses with
        | nil => exact absurd h he
        | cons x xs => rfl
      simp [this]

/-! ### Full memory and external fragmentation -/

theorem freeFrames_cons_free (f : Frame) (l : List Frame) (h : f.isFree = true) :
    freeFrames (f :: l) = freeFrames l + 1 := by
  simp [freeFrames, List.countP_cons, h]

theorem freeFrames_cons_used (f : Frame) (l : List Frame) (h : ¬ f.isFree = true) :
    freeFrames (f :: l) = freeFrames l := by
  simp [freeFrames, List.countP_cons, h]

theorem leadingFree_ge_iff (l : List Frame) (k : Nat) :
    k ≤ leadingFree l ↔ FreeRunAt l k 0 := by
  constructor
  · intro h i hi
    rw [Nat.zero_add]
    exact leadingFree_free l i (by omega)
  · intro h
    by_contra hc
    have := h (leadingFree l) (by omega)
    rw [Nat.zero_add] at this
    exact leadingFree_stop l this

theorem FreeRunAt_cons_succ (f : Frame) (l : List Frame) (k t : Nat) :
    FreeRunAt (f :: l) k (t + 1) ↔ FreeRunAt l k t := by
  unfold FreeRunAt
  constructor
  · intro h i hi
    have := h i hi
    rwa [show t + 1 + i = (t + i) + 1 by omega, FreeAt_cons_succ] at this
  · intro h i hi
    rw [show t + 1 + i = (t + i) + 1 by omega, FreeAt_cons_succ]
    exact h i hi

/-- The fragmentation loop never counts more than the free frames. -/
theorem fragmentationLoop_le (k fs : Nat) :
    ∀ (l : List Frame) (frag cf : Nat),
      fragmentationLoop k fs l frag cf ≤ frag + (cf + freeFrames l) * fs := by
  intro l
  induction l with
  | nil =>
    intro frag cf
    unfold fragmentationLoop
    simp only [freeFrames, List.countP_nil, Nat.add_zero]
    split <;> omega
  | cons f l ih =>
    intro frag cf
    unfold fragmentationLoop
    by_cases hf : f.isFree = true
    · rw [if_pos hf, freeFrames_cons_free f l hf]
      have := ih frag (cf + 1)
      rw [show cf + 1 + freeFrames l = cf + (freeFrames l + 1) by omega] at this
      exact this
    · rw [if_neg hf, freeFrames_cons_used f l hf]
      by_cases h0 : cf > 0
      · rw [if_pos h0]
        by_cases hk : cf < k
        · rw [if_pos hk]
          have := ih (frag + cf * fs) 0
          rw [Nat.add_mul]
          rw [Nat.zero_add] at this
          omega
        · rw [if_neg hk]
          have := ih frag 0
          rw [Nat.add_mul]
          rw [Nat.zero_add] at this
          omega
      · rw [if_neg h0]
        have : cf = 0 := by omega
        subst this
        exact ih frag 0

/-- Without a run of `k` free frames, every free frame is counted. -/
theorem fragmentationLoop_of_no_run (k fs : Nat) :
    ∀ (l : List Frame) (frag cf : Nat), cf + leadingFree l < k →
      (∀ t, ¬ FreeRunAt l k t) →
      fragmentationLoop k fs l frag cf = frag + (cf + freeFrames l) * fs := by
  intro l
  induction l with
  | nil =>
    intro frag cf hc _
    unfold fragmentationLoop
    simp only [leadingFree, List.takeWhile_nil, List.length_nil, Nat.add_zero] at hc
    simp only [freeFrames, List.countP_nil, Nat.add_zero]
    by_cases h0 : cf > 0
    · rw [if_pos ⟨h0, hc⟩]
    · rw [if_neg (fun h => h0 h.1)]
      have : cf = 0 := by omega
      subst this
      omega
  | cons f l ih =>
    intro frag cf hc hno
    have hno2 : ∀ t, ¬ FreeRunAt l k t :=
      fun t ht => hno (t + 1) ((FreeRunAt_cons_succ f l k t).2 ht)
    unfold fragmentationLoop
    by_cases hf : f.isFree = true
    · rw [if_pos hf, freeFrames_cons_free f l hf]
      rw [leadingFree_cons_free f l hf] at hc
      rw [ih frag (cf + 1) (by omega) hno2]
      congr 2
      omega
    · rw [if_neg hf, freeFrames_cons_used f l hf]
      rw [leadingFree_cons_used f l hf] at hc
      have hl : 0 + leadingFree l < k := by
        by_contra hcon
        exact hno2 0 ((leadingFree_ge_iff l k).1 (by omega))
      by_cases h0 : cf > 0
      · rw [if_pos h0, if_pos (by omega), ih _ 0 hl hno2, Nat.zero_add, Nat.add_mul]
        omega
      · rw [if_neg h0]
        have : cf = 0 := by omega
        subst this
        exact ih frag 0 hl hno2

/-- With a run of `k` free frames, fewer than the free frames are counted. -/
theorem fragmentationLoop_of_run (k fs : Nat) (hk : 1 ≤ k) (hfs : 1 ≤ fs) :
    ∀ (l : List Frame) (frag cf : Nat), (k ≤ cf + leadingFree l ∧ 1 ≤ cf ∨ ∃ t, FreeRunAt l k t) →
      fragmentationLoop k fs l frag cf < frag + (cf + freeFrames l) * fs := by
  intro l
  induction l with
  | nil =>
    intro frag cf h
    unfold fragmentationLoop
    rcases h with ⟨h1, h2⟩ | ⟨t, ht⟩
    · simp only [leadingFree, List.takeWhile_nil, List.length_nil, Nat.add_zero] at h1
      rw [if_neg (by omega)]
      simp only [freeFrames, List.countP_nil, Nat.add_zero]
      have : 1 * 1 ≤ cf * fs := Nat.mul_le_mul h2 hfs
      omega
    · have := (ht 0 (by omega)).free_lt_length
      simp at this
  | cons f l ih =>
    intro frag cf h
    unfold fragmentationLoop
    by_cases hf : f.isFree = true
    · rw [if_pos hf, freeFrames_cons_free f l hf]
      have hrun : k ≤ cf + 1 + leadingFree l ∧ 1 ≤ cf + 1 ∨ ∃ t, FreeRunAt l k t := by
        rcases h with ⟨h1, _⟩ | ⟨t, ht⟩
        · rw [leadingFree_cons_free f l hf] at h1
          exact Or.inl ⟨by omega, by omega⟩
        · cases t with
          | zero =>
            have := (leadingFree_ge_iff (f :: l) k).2 ht
            rw [leadingFree_cons_free f l hf] at this
            exact Or.inl ⟨by omega, by omega⟩
          | succ t2 => exact Or.inr ⟨t2, (FreeRunAt_cons_succ f l k t2).1 ht⟩
      have := ih frag (cf + 1) hrun
      rw [show cf + 1 + freeFrames l = cf + (freeFrames l + 1) by omega] at this
      exact this
    · rw [if_neg hf, freeFrames_cons_used f l hf]
      rcases h with ⟨h1, h2⟩ | ⟨t, ht⟩
      · rw [leadingFree_cons_used f l hf] at h1
        rw [if_pos (by omega), if_neg (by omega)]
        have hle := fragmentationLoop_le k fs l frag 0
        rw [Nat.zero_add] at hle
        have : 1 * 1 ≤ cf * fs := Nat.mul_le_mul h2 hfs
        rw [Nat.add_mul]
        omega
      · cases t with
        | zero =>
          have := ht 0 (by omega)
          rw [Nat.zero_add, FreeAt_cons_zero] at this
          exact absurd this hf
        | succ t2 =>
          have hrun : k ≤ 0 + leadingFree l ∧ 1 ≤ 0 ∨ ∃ t, FreeRunAt l k t :=
            Or.inr ⟨t2, (FreeRunAt_cons_succ f l k t2).1 ht⟩
          by_cases h0 : cf > 0
          · rw [if_pos h0]
            by_cases hck : cf < k
            · rw [if_pos hck]
              have := ih (frag + cf * fs) 0 hrun
              rw [Nat.add_mul]
              rw [Nat.zero_add] at this
              omega
            · rw [if_neg hck]
              have := ih frag 0 hrun
              rw [Nat.add_mul]
              rw [Nat.zero_add] at this
              omega
          · rw [if_neg h0]
            have : cf = 0 := by omega
            subst this
            exact ih frag 0 hrun

/-! ### Release after allocation -/

theorem RestoreInv_ctor (config : Config) : RestoreInv (MemoryManager.ctor config) where
  owner_free := by
    intro i f hf _
    simp only [MemoryManager.ctor, MemoryManager.updateFragmentation] at hf
    have := List.getElem?_mem hf
    rw [List.mem_replicate] at this
    rw [this.2]
  resident := by simp [MemoryManager.ctor, MemoryManager.updateFragmentation]
  fragmentation := rfl

theorem RestoreInv_allocated (m : MemoryManager) (name : String) (hinv : RestoreInv m) :
    RestoreInv (m.allocated name) where
  owner_free := by
    intro i f hf hfree
    simp only [MemoryManager.allocated, MemoryManager.updateFragmentation,
      allocateFrames_getElem?] at hf
    split at hf
    · cases hf
      simp [allocatedFrame] at hfree
    · exact hinv.owner_free i f hf hfree
  resident := by
    intro n hn
    simp only [MemoryManager.allocated, MemoryManager.updateFragmentation] at hn ⊢
    by_cases hne : n = name
    · subst hne
      rw [mapFind_mapAssign_self]
      simp
    · rw [mapFind_mapAssign_ne name n _ _ hne]
      apply hinv.resident
      unfold setInsert at hn
      split at hn
      · exact hn
      · rcases List.mem_append.1 hn with h | h
        · exact h
        · rw [List.mem_singleton] at h
          exact absurd h hne
  fragmentation := rfl

theorem RestoreInv_released (m : MemoryManager) (name : String) (info : ProcessMemoryInfo)
    (hinv : RestoreInv m) : RestoreInv (m.released name info) where
  owner_free := by
    intro i f hf hfree
    simp only [MemoryManager.released, MemoryManager.updateFragmentation,
      releaseFrames_getElem?] at hf
    split at hf
    · cases hg : m.frames[i]? with
      | none => rw [hg] at hf; cases hf
      | some g =>
        rw [hg] at hf
        cases hf
        rfl
    · exact hinv.owner_free i f hf hfree
  resident := by
    intro n hn
    simp only [MemoryManager.released, MemoryManager.updateFragmentation] at hn ⊢
    rw [mem_setErase] at hn
    rw [mapFind_mapErase_ne name n _ hn.2]
    exact hinv.resident n hn.1
  fragmentation := rfl

theorem RestoreInv_of_Reachable (config : Config) (m : MemoryManager)
    (h : Reachable config m) : RestoreInv m := by
  induction h with
  | ctor => exact RestoreInv_ctor config
  | allocate lockAcquired process w _ ih =>
    rcases allocateMemory_memory config lockAcquired process w with h1 | ⟨p, _, _, _, h2⟩
    · rw [h1]; exact ih
    · rw [h2]; exact RestoreInv_allocated w.memory _ ih
  | release m processName _ ih =>
    cases h : mapFind processName m.processMemoryMap with
    | none => rw [releaseMemory_of_absent m processName h]; exact ih
    | some info =>
      rw [releaseMemory_of_present m processName info h]
      exact RestoreInv_released m processName info ih

/-- The fragmentation loop reads only the free flags. -/
theorem fragmentationLoop_congr (k fs : Nat) :
    ∀ (l1 l2 : List Frame) (frag cf : Nat), l1.map Frame.isFree = l2.map Frame.isFree →
      fragmentationLoop k fs l1 frag cf = fragmentationLoop k fs l2 frag cf := by
  intro l1
  induction l1 with
  | nil =>
    intro l2 frag cf h
    cases l2 with
    | nil => rfl
    | cons g l2 => simp at h
  | cons f l1 ih =>
    intro l2 frag cf h
    cases l2 with
    | nil => simp at h
    | cons g l2 =>
      simp only [List.map_cons, List.cons.injEq] at h
      unfold fragmentationLoop
      rw [h.1]
      by_cases hg : g.isFree = true
      · rw [if_pos hg, if_pos hg]
        exact ih l2 _ _ h.2
      · rw [if_neg hg, if_neg hg]
        by_cases h0 : cf > 0
        · rw [if_pos h0, if_pos h0]
          exact ih l2 _ _ h.2
        · rw [if_neg h0, if_neg h0]
          exact ih l2 _ _ h.2

theorem mapErase_mapAssign_of_absent {V : Type} (key : String) (v : V) (m : List (String × V))
    (h : mapFind key m = none) : mapErase key (mapAssign key v m) = m := by
  rw [mapAssign_of_absent key v m h]
  unfold mapErase
  rw [List.filter_append]
  have := mapErase_of_absent key m h
  unfold mapErase at this
  rw [this]
  simp

theorem setErase_setInsert_of_not_mem (x : String) (s : List String) (h : x ∉ s) :
    setErase x (setInsert x s) = s := by
  unfold setInsert setErase
  rw [if_neg h, List.filter_append]
  have : s.filter (fun y => decide (y ≠ x)) = s := by
    rw [List.filter_eq_self]
    intro y hy
    simp only [ne_eq, decide_not, Bool.not_eq_eq_eq_not, Bool.not_true, decide_eq_false_iff_not]
    intro hc
    exact h (hc ▸ hy)
  rw [this]
  simp

/-- Releasing the run that `allocateMemory` has just marked gives every frame
its free flag and its owner back. -/
theorem status_released_allocated (m : MemoryManager) (name : String)
    (hinv : RestoreInv m) (hfit : m.findFirstFit ≠ m.frames.length) :
    (releaseFrames m.findFirstFit m.framesPerProcess 0
        (allocateFrames name m.frameSize m.framesPerProcess m.findFirstFit m.frames)).map
      Frame.status = m.frames.map Frame.status := by
  obtain ⟨_, hrun, _⟩ := findFirstFit_fit m hfit
  apply List.ext_getElem?
  intro j
  rw [List.getElem?_map, List.getElem?_map, releaseFrames_getElem?, allocateFrames_getElem?]
  by_cases hj : m.findFirstFit ≤ j ∧ j < m.findFirstFit + m.framesPerProcess
  · have hfree := hrun (j - m.findFirstFit) (by omega)
    rw [show m.findFirstFit + (j - m.findFirstFit) = j by omega] at hfree
    have hl := hfree.free_lt_length
    rw [if_pos (by omega), if_pos ⟨hj.1, hj.2, hl⟩]
    cases hg : m.frames[j]? with
    | none =>
      rw [List.getElem?_eq_none_iff] at hg
      omega
    | some g =>
      have hgf : g.isFree = true := by
        unfold FreeAt at hfree
        rw [hg] at hfree
        simpa using hfree
      have hgn := hinv.owner_free j g hg hgf
      simp [Frame.release, Frame.status, allocatedFrame, hgf, hgn]
  · rw [if_neg (by omega), if_neg (by omega)]

/-! ### Allocations in a row -/

theorem PrefixFilled_ctor (config : Config) : PrefixFilled (MemoryManager.ctor config) 0 where
  used := by intro i hi; simp at hi
  free := by
    intro i _ hi
    simp only [MemoryManager.ctor, MemoryManager.updateFragmentation, List.length_replicate]
      at hi
    simp [MemoryManager.ctor, MemoryManager.updateFragmentation, FreeAt, hi]
  fits := by simp

theorem PrefixFilled.findFirstFit_of_room {m : MemoryManager} {s : Nat}
    (h : PrefixFilled m s) (hk : 1 ≤ m.framesPerProcess)
    (hroom : (s + 1) * m.framesPerProcess ≤ m.frames.length) :
    m.findFirstFit = s * m.framesPerProcess := by
  have hrun : FreeRunAt m.frames m.framesPerProcess (s * m.framesPerProcess) := by
    intro i hi
    rw [Nat.add_mul, Nat.one_mul] at hroom
    exact h.free _ (by omega) (by omega)
  have hne : m.findFirstFit ≠ m.frames.length := by
    intro hc
    exact no_fit_of_findFirstFit m hk hc _ hrun
  obtain ⟨_, hfit, hmin⟩ := findFirstFit_fit m hne
  have hle := hmin _ hrun
  by_contra hcon
  have hlt : m.findFirstFit < s * m.framesPerProcess := by omega
  have h1 := hfit 0 (by omega)
  rw [Nat.add_zero] at h1
  exact not_FreeAt_and_UsedAt h1 (h.used _ hlt)

theorem PrefixFilled.findFirstFit_of_no_room {m : MemoryManager} {s : Nat}
    (h : PrefixFilled m s) (hk : 1 ≤ m.framesPerProcess)
    (hroom : m.frames.length < (s + 1) * m.framesPerProcess) :
    m.findFirstFit = m.frames.length := by
  apply findFirstFit_no_fit
  intro t ht
  have hlen := ht.run_le_length hk
  have h0 := ht 0 (by omega)
  rw [Nat.add_zero] at h0
  rw [Nat.add_mul, Nat.one_mul] at hroom
  have : t < s * m.framesPerProcess := by omega
  exact not_FreeAt_and_UsedAt h0 (h.used _ this)

theorem PrefixFilled_allocated (m : MemoryManager) (s : Nat) (name : String)
    (h : PrefixFilled m s) (hk : 1 ≤ m.framesPerProcess)
    (hroom : (s + 1) * m.framesPerProcess ≤ m.frames.length) :
    PrefixFilled (m.allocated name) (s + 1) := by
  have hfit := h.findFirstFit_of_room hk hroom
  have hroom2 := hroom
  rw [Nat.add_mul, Nat.one_mul] at hroom2
  constructor
  · intro i hi
    simp only [MemoryManager.allocated, MemoryManager.updateFragmentation] at hi ⊢
    rw [Nat.add_mul, Nat.one_mul] at hi
    unfold UsedAt
    rw [allocateFrames_getElem?, hfit]
    by_cases hc : s * m.framesPerProcess ≤ i
    · rw [if_pos ⟨hc, by omega, by omega⟩]
      rfl
    · rw [if_neg (by omega)]
      exact h.used i (by omega)
  · intro i hi hl
    simp only [MemoryManager.allocated, MemoryManager.updateFragmentation,
      allocateFrames_length] at hi hl ⊢
    rw [Nat.add_mul, Nat.one_mul] at hi
    unfold FreeAt
    rw [allocateFrames_getElem?, hfit, if_neg (by omega)]
    exact h.free i (by omega) hl
  · simp only [MemoryManager.allocated, MemoryManager.updateFragmentation,
      allocateFrames_length]
    exact hroom

theorem allocateMemory_no_fit_result (config : Config) (p : Handle) (w : World)
    (h : w.memory.findFirstFit = w.memory.frames.length) :
    (allocateMemory config true (some p) w).1 = false ∧
    (allocateMemory config true (some p) w).2.memory = w.memory := by
  rw [allocateMemory_of_no_fit config p w h]
  by_cases hrr : config.schedulerType = "rr"
  · rw [if_pos hrr]; exact ⟨rfl, rfl⟩
  · rw [if_neg hrr]; exact ⟨rfl, rfl⟩

/-- Calls that all acquire the lock, made in a state whose first `s` footprints
are used and whose other frames are free: call `j` succeeds, at start frame
`(s + j) * k`, exactly while `(s + j + 1) * k` frames exist. -/
theorem allocateSequence_of_prefix (config : Config) :
    ∀ (ps : List Handle) (w : World) (s : Nat), PrefixFilled w.memory s →
      1 ≤ w.memory.framesPerProcess →
      (∀ j, j < ps.length →
        ((s + j + 1) * w.memory.framesPerProcess ≤ w.memory.frames.length →
          ∃ info, (allocateSequence config (ps.map (fun p => (true, p))) w).1[j]? =
              some (true, some info) ∧
            info.startFrame = (s + j) * w.memory.framesPerProcess) ∧
        (w.memory.frames.length < (s + j + 1) * w.memory.framesPerProcess →
          ∃ e, (allocateSequence config (ps.map (fun p => (true, p))) w).1[j]? =
            some (false, e))) ∧
      ((allocateSequence config (ps.map (fun p => (true, p))) w).1.countP (fun r => r.1)) =
        min ps.length (w.memory.frames.length / w.memory.framesPerProcess - s) := by
  intro ps
  induction ps with
  | nil =>
    intro w s _ _
    exact ⟨fun j hj => absurd hj (by simp), by simp [allocateSequence]⟩
  | cons p rest ih =>
    intro w s hpre hk
    simp only [List.map_cons, allocateSequence, List.length_cons, List.countP_cons]
    by_cases hroom : (s + 1) * w.memory.framesPerProcess ≤ w.memory.frames.length
    · have hfit := hpre.findFirstFit_of_room hk hroom
      have hne : w.memory.findFirstFit ≠ w.memory.frames.length := by
        rw [hfit]
        rw [Nat.add_mul, Nat.one_mul] at hroom
        omega
      have hpre2 := PrefixFilled_allocated w.memory s (w.heap p).name hpre hk hroom
      have hk2 : (w.memory.allocated (w.heap p).name).framesPerProcess =
          w.memory.framesPerProcess := rfl
      have hl2 : (w.memory.allocated (w.heap p).name).frames.length =
          w.memory.frames.length := by
        simp [MemoryManager.allocated, MemoryManager.updateFragmentation, allocateFrames_length]
      rw [allocateMemory_of_fit config p w hne]
      obtain ⟨ih1, ih2⟩ := ih { w with memory := w.memory.allocated (w.heap p).name } (s + 1)
        hpre2 (by rw [hk2]; exact hk)
      simp only [hk2, hl2] at ih1 ih2
      refine ⟨fun j hj => ?_, ?_⟩
      · cases j with
        | zero =>
          constructor
          · intro _
            refine ⟨{ startFrame := w.memory.findFirstFit
                      numFrames := w.memory.framesPerProcess
                      startAddress := w.memory.findFirstFit * w.memory.frameSize
                      endAddress := (w.memory.findFirstFit + w.memory.framesPerProcess) *
                        w.memory.frameSize - 1 }, ?_, ?_⟩
            · simp only [List.getElem?_cons_zero, Process.getName, MemoryManager.allocated,
                MemoryManager.updateFragmentation, mapFind_mapAssign_self]
            · simp only [Nat.add_zero]
              exact hfit
          · intro hc
            simp only [Nat.add_zero] at hc
            omega
        | succ j2 =>
          have := ih1 j2 (by omega)
          simp only [List.getElem?_cons_succ]
          rw [show s + (j2 + 1) + 1 = s + 1 + j2 + 1 by omega,
            show s + (j2 + 1) = s + 1 + j2 by omega]
          exact this
      · rw [ih2]
        have hdiv : s + 1 ≤ w.memory.frames.length / w.memory.framesPerProcess :=
          (Nat.le_div_iff_mul_le (by omega)).2 hroom
        simp only [if_true]
        omega
    · have hfit := hpre.findFirstFit_of_no_room hk (by omega)
      obtain ⟨hres, hmem⟩ := allocateMemory_no_fit_result config p w hfit
      obtain ⟨ih1, ih2⟩ := ih (allocateMemory config true (some p) w).2 s
        (by rw [hmem]; exact hpre) (by rw [hmem]; exact hk)
      simp only [hmem] at ih1 ih2
      have hdiv : w.memory.frames.length / w.memory.framesPerProcess < s + 1 :=
        (Nat.div_lt_iff_lt_mul (by omega)).2 (by omega)
      refine ⟨fun j hj => ?_, ?_⟩
      · cases j with
        | zero =>
          refine ⟨fun hc => ?_, fun _ =>
            ⟨mapFind (w.heap p).getName
              (allocateMemory config true (some p) w).2.memory.processMemoryMap, ?_⟩⟩
          · simp only [Nat.add_zero] at hc
            omega
          · simp only [List.getElem?_cons_zero, hres]
        | succ j2 =>
          have := ih1 j2 (by omega)
          simp only [List.getElem?_cons_succ]
          refine ⟨fun hc => ?_, fun hc => ?_⟩
          · exfalso
            have h1 : (s + 1) * w.memory.framesPerProcess ≤
                (s + (j2 + 1) + 1) * w.memory.framesPerProcess :=
              Nat.mul_le_mul_right _ (by omega)
            omega
          · apply this.2
            have h1 : (s + 1) * w.memory.framesPerProcess ≤
                (s + j2 + 1) * w.memory.framesPerProcess :=
              Nat.mul_le_mul_right _ (by omega)
            omega
      · rw [ih2, hres]
        simp only [Bool.false_eq_true, if_false]
        omega

/-! ### Footprint alignment -/

theorem block_disjoint (k b b0 t : Nat) (ht : t < k) (hne : b ≠ b0) :
    ¬ (b0 * k ≤ b * k + t ∧ b * k + t < b0 * k + k) := by
  rcases Nat.lt_or_gt_of_ne hne with h | h
  · have := Nat.mul_le_mul_right k (show b + 1 ≤ b0 from h)
    rw [Nat.add_mul, Nat.one_mul] at this
    omega
  · have := Nat.mul_le_mul_right k (show b0 + 1 ≤ b from h)
    rw [Nat.add_mul, Nat.one_mul] at this
    omega

theorem FreeAt_allocateFrames (name : String) (fs count s : Nat) (frames : List Frame)
    (i : Nat) :
    FreeAt (allocateFrames name fs count s frames) i ↔
      FreeAt frames i ∧ ¬ (s ≤ i ∧ i < s + count) := by
  unfold FreeAt
  rw [allocateFrames_getElem?]
  by_cases hc : s ≤ i ∧ i < s + count ∧ i < frames.length
  · rw [if_pos hc]
    simp [allocatedFrame, hc.1, hc.2.1]
  · rw [if_neg hc]
    constructor
    · intro h
      refine ⟨h, fun hr => hc ⟨hr.1, hr.2, ?_⟩⟩
      exact FreeAt.free_lt_length h
    · intro h
      exact h.1

theorem FreeAt_releaseFrames (s count : Nat) (frames : List Frame) (i : Nat) :
    FreeAt (releaseFrames s count 0 frames) i ↔
      FreeAt frames i ∨ (s ≤ i ∧ i < s + count ∧ i < frames.length) := by
  unfold FreeAt
  rw [releaseFrames_getElem?]
  by_cases hc : s + 0 ≤ i ∧ i < s + 0 + count
  · rw [if_pos hc]
    cases hg : frames[i]? with
    | none =>
      have : frames.length ≤ i := List.getElem?_eq_none_iff.1 hg
      simp
      omega
    | some g =>
      have : i < frames.length := by
        by_contra hl
        rw [List.getElem?_eq_none (by omega)] at hg
        cases hg
      simp [Frame.release]
      omega
  · rw [if_neg hc]
    constructor
    · intro h; exact Or.inl h
    · rintro (h | h)
      · exact h
      · omega

theorem AlignedInv_ctor (config : Config) : AlignedInv (MemoryManager.ctor config) where
  block := by
    intro b t1 t2 _ ht2 hl _
    simp only [MemoryManager.ctor, MemoryManager.updateFragmentation, List.length_replicate]
      at hl ht2 ⊢
    have : b * (config.memPerProc / config.memPerFrame) + t2 <
        config.maxOverallMem / config.memPerFrame := by omega
    simp [FreeAt, this]
  tail := by
    intro i _ hi
    simp only [MemoryManager.ctor, MemoryManager.updateFragmentation, List.length_replicate]
      at hi
    simp [MemoryManager.ctor, MemoryManager.updateFragmentation, FreeAt, hi]
  start := by simp [MemoryManager.ctor, MemoryManager.updateFragmentation]

/-- In an aligned table the first fit starts at a multiple of the footprint. -/
theorem AlignedInv.findFirstFit_aligned {m : MemoryManager} (h : AlignedInv m)
    (hfit : m.findFirstFit ≠ m.frames.length) :
    ∃ b, m.findFirstFit = b * m.framesPerProcess := by
  obtain ⟨hk, hrun, hmin⟩ := findFirstFit_fit m hfit
  have hlen := hrun.run_le_length hk
  refine ⟨m.findFirstFit / m.framesPerProcess, ?_⟩
  have hdm := Nat.div_add_mod m.findFirstFit m.framesPerProcess
  have hmod := Nat.mod_lt m.findFirstFit (show 0 < m.framesPerProcess by omega)
  rw [Nat.mul_comm] at hdm
  have h0 := hrun 0 (by omega)
  rw [Nat.add_zero] at h0
  have hblock : FreeRunAt m.frames m.framesPerProcess
      (m.findFirstFit / m.framesPerProcess * m.framesPerProcess) := by
    intro t ht
    apply h.block _ (m.findFirstFit % m.framesPerProcess) t hmod ht (by omega)
    rw [hdm]
    exact h0
  have := hmin _ hblock
  omega

theorem AlignedInv_allocated (m : MemoryManager) (name : String) (h : AlignedInv m)
    (hinv : MemInv m) (hfit : m.findFirstFit ≠ m.frames.length) :
    AlignedInv (m.allocated name) := by
  obtain ⟨hk, hrun, _⟩ := findFirstFit_fit m hfit
  have hlen := hrun.run_le_length hk
  obtain ⟨b0, hb0⟩ := h.findFirstFit_aligned hfit
  constructor
  · intro b t1 t2 ht1 ht2 hl hfree
    simp only [MemoryManager.allocated, MemoryManager.updateFragmentation,
      allocateFrames_length, FreeAt_allocateFrames] at ht1 ht2 hl hfree ⊢
    have hne : b ≠ b0 := by
      intro hc
      apply hfree.2
      rw [hb0, hc]
      omega
    refine ⟨h.block b t1 t2 ht1 ht2 hl hfree.1, ?_⟩
    rw [hb0]
    exact block_disjoint _ b b0 t2 ht2 hne
  · intro i hi hl
    simp only [MemoryManager.allocated, MemoryManager.updateFragmentation,
      allocateFrames_length, FreeAt_allocateFrames] at hi hl ⊢
    refine ⟨h.tail i hi hl, ?_⟩
    have hdiv : b0 + 1 ≤ m.frames.length / m.framesPerProcess := by
      rw [Nat.le_div_iff_mul_le (by omega), Nat.add_mul, Nat.one_mul]
      omega
    have := Nat.mul_le_mul_right m.framesPerProcess hdiv
    rw [Nat.add_mul, Nat.one_mul] at this
    omega
  · intro e he
    simp only [MemoryManager.allocated, MemoryManager.updateFragmentation] at he ⊢
    rcases mem_mapAssign _ _ _ hinv.nodup e he with h1 | ⟨h1, _⟩
    · rw [h1]
      exact ⟨b0, hb0⟩
    · exact h.start e h1

theorem AlignedInv_released (m : MemoryManager) (name : String) (info : ProcessMemoryInfo)
    (h : AlignedInv m) (hinv : MemInv m) (hfind : mapFind name m.processMemoryMap = some info) :
    AlignedInv (m.released name info) := by
  have hmem := mem_of_mapFind name info m.processMemoryMap hfind
  obtain ⟨hnum, hle, _⟩ := hinv.entry _ hmem
  obtain ⟨b0, hb0⟩ := h.start _ hmem
  simp only at hnum hle hb0
  constructor
  · intro b t1 t2 ht1 ht2 hl hfree
    simp only [MemoryManager.released, MemoryManager.updateFragmentation,
      releaseFrames_length, FreeAt_releaseFrames] at ht1 ht2 hl hfree ⊢
    by_cases hb : b = b0
    · right
      rw [hb0, hnum, hb]
      subst hb
      omega
    · rcases hfree with hf | hf
      · exact Or.inl (h.block b t1 t2 ht1 ht2 hl hf)
      · exfalso
        rw [hb0, hnum] at hf
        exact block_disjoint _ b b0 t1 ht1 hb ⟨hf.1, hf.2.1⟩
  · intro i hi hl
    simp only [MemoryManager.released, MemoryManager.updateFragmentation,
      releaseFrames_length, FreeAt_releaseFrames] at hi hl ⊢
    exact Or.inl (h.tail i hi hl)
  · intro e he
    simp only [MemoryManager.released, MemoryManager.updateFragmentation] at he ⊢
    exact h.start e ((mem_mapErase _ _ _).1 he).1

theorem AlignedInv_of_Reachable (config : Config) (m : MemoryManager)
    (h : Reachable config m) : AlignedInv m := by
  induction h with
  | ctor => exact AlignedInv_ctor config
  | allocate lockAcquired process w hr ih =>
    rcases allocateMemory_memory config lockAcquired process w with h1 | ⟨p, _, _, hfit, h2⟩
    · rw [h1]; exact ih
    · rw [h2]
      exact AlignedInv_allocated w.memory _ ih (MemInv_of_Reachable config _ hr) hfit
  | release m processName hr ih =>
    cases hf : mapFind processName m.processMemoryMap with
    | none => rw [releaseMemory_of_absent m processName hf]; exact ih
    | some info =>
      rw [releaseMemory_of_present m processName info hf]
      exact AlignedInv_released m processName info ih (MemInv_of_Reachable config _ hr) hf

theorem getExternalFragmentation_eq_spec (m : MemoryManager) :
    m.getExternalFragmentation =
      specExternalFragmentation m.frames m.framesPerProcess m.frameSize := by
  rw [specExternalFragmentation_eq_runSum]
  simp [MemoryManager.getExternalFragmentation, fragmentationLoop_eq]

/-- In an aligned table the only maximal free run shorter than the footprint is
the one made of the frames after the last whole footprint. -/
theorem AlignedInv.short_run_is_tail {m : MemoryManager} (h : AlignedInv m)
    (hk : 1 ≤ m.framesPerProcess) (a b : Nat) (hrun : MaximalFreeRun m.frames a b)
    (hshort : b - a < m.framesPerProcess) :
    a = m.frames.length / m.framesPerProcess * m.framesPerProcess ∧ b = m.frames.length := by
  obtain ⟨hab, hbl, hall, hleft, hright⟩ := hrun
  have hq := Nat.div_mul_le_self m.frames.length m.framesPerProcess
  by_cases htail : m.frames.length / m.framesPerProcess * m.framesPerProcess ≤ a
  · have hb : b = m.frames.length := by
      by_contra hne
      rcases hright with h1 | h1
      · exact hne h1
      · exact h1 (h.tail b (by omega) (by omega))
    refine ⟨?_, hb⟩
    rcases hleft with h1 | h1
    · omega
    · by_contra hne
      exact h1 (h.tail (a - 1) (by omega) (by omega))
  · exfalso
    have hdm := Nat.div_add_mod a m.framesPerProcess
    have hmod := Nat.mod_lt a (show 0 < m.framesPerProcess by omega)
    rw [Nat.mul_comm] at hdm
    have hblk : a / m.framesPerProcess + 1 ≤ m.frames.length / m.framesPerProcess := by
      by_contra hc
      have := Nat.mul_le_mul_right m.framesPerProcess
        (show m.frames.length / m.framesPerProcess ≤ a / m.framesPerProcess by omega)
      omega
    have hwhole := Nat.mul_le_mul_right m.framesPerProcess hblk
    rw [Nat.add_mul, Nat.one_mul] at hwhole
    have hfa : FreeAt m.frames (a / m.framesPerProcess * m.framesPerProcess +
        a % m.framesPerProcess) := by
      rw [hdm]
      exact hall a hab (le_refl a)
    have hfree : ∀ t, t < m.framesPerProcess →
        FreeAt m.frames (a / m.framesPerProcess * m.framesPerProcess + t) :=
      fun t ht => h.block _ _ t hmod ht (by omega) hfa
    have hbin : b = a / m.framesPerProcess * m.framesPerProcess + (b - a + a % m.framesPerProcess)
        := by omega
    by_cases hin : b - a + a % m.framesPerProcess < m.framesPerProcess
    · rcases hright with h1 | h1
      · omega
      · apply h1
        rw [hbin]
        exact hfree _ hin
    · rcases hleft with h1 | h1
      · omega
      · apply h1
        have hpos : 0 < a % m.framesPerProcess := by omega
        have : a - 1 = a / m.framesPerProcess * m.framesPerProcess +
            (a % m.framesPerProcess - 1) := by omega
        rw [this]
        exact hfree _ (by omega)

/-- The external fragmentation of an aligned table. -/
theorem AlignedInv.fragmentation_cases {m : MemoryManager} (h : AlignedInv m)
    (hk : 1 ≤ m.framesPerProcess) :
    m.getExternalFragmentation = 0 ∨
    m.getExternalFragmentation =
      (m.frames.length % m.framesPerProcess) * m.frameSize := by
  rw [getExternalFragmentation_eq_spec]
  unfold specExternalFragmentation
  have hq := Nat.div_mul_le_self m.frames.length m.framesPerProcess
  have hdm := Nat.div_add_mod m.frames.length m.framesPerProcess
  rw [Nat.mul_comm] at hdm
  by_cases hc : MaximalFreeRun m.frames
      (m.frames.length / m.framesPerProcess * m.framesPerProcess) m.frames.length ∧
      m.frames.length - m.frames.length / m.framesPerProcess * m.framesPerProcess <
        m.framesPerProcess
  · right
    have hlt := hc.1.1
    rw [Finset.sum_eq_single (m.frames.length / m.framesPerProcess * m.framesPerProcess),
      Finset.sum_eq_single m.frames.length, if_pos hc]
    · congr 1
      omega
    · intro b _ hb
      rw [if_neg]
      rintro ⟨h1, h2⟩
      exact hb (h.short_run_is_tail hk _ b h1 h2).2
    · intro hn
      exact absurd (Finset.mem_range.2 (Nat.lt_succ_self _)) hn
    · intro a _ ha
      refine Finset.sum_eq_zero (fun b _ => ?_)
      rw [if_neg]
      rintro ⟨h1, h2⟩
      exact ha (h.short_run_is_tail hk a b h1 h2).1
    · intro hn
      exact absurd (Finset.mem_range.2 hlt) hn
  · left
    refine Finset.sum_eq_zero (fun a _ => Finset.sum_eq_zero (fun b _ => ?_))
    rw [if_neg]
    rintro ⟨h1, h2⟩
    obtain ⟨ea, eb⟩ := h.short_run_is_tail hk a b h1 h2
    apply hc
    rw [← ea, ← eb]
    exact ⟨h1, h2⟩

/-! ### The dispatch turn -/

theorem turnOver_iff (config : Config) (P : Process) :
    turnOver config P = true ↔ turnLength config P = 0 := by
  unfold turnOver turnLength Process.isFinished
  by_cases hrr : config.schedulerType = "rr"
  · simp only [hrr, decide_True, Bool.true_and, Bool.or_eq_true, decide_eq_true_eq, if_true]
    rw [Nat.min_def]
    split <;> omega
  · simp only [hrr, decide_False, Bool.false_and, Bool.or_false, decide_eq_true_eq, if_false]
    omega

theorem waitForCycleSync_alone (s : Scheduler) (h1 : s.runningProcesses.length ≤ 1)
    (h2 : 0 ≤ s.coresWaiting) :
    waitForCycleSync s = ({ s with coresWaiting := 0, cpuCycles := s.cpuCycles + 1 }, true) := by
  unfold waitForCycleSync
  rw [if_pos]
  have : ((s.runningProcesses.length : Nat) : Int) ≤ 1 := by exact_mod_cast h1
  omega

/-- The delay branch of an iteration leaves the world as it is. -/
theorem instructionRound_delay (config : Config) (p : Handle) (delays : Int) (w : World)
    (cd : Int) (h : cd < delays) :
    instructionRound config p delays w cd = (w, cd + 1) := by
  unfold instructionRound
  rw [if_pos h]

/-- The execute branch of an iteration, for a process that is not finished and
whose quantum counter is below the limit. -/
theorem instructionRound_execute (config : Config) (p : Handle) (delays : Int) (w : World)
    (cd : Int) (h : ¬ cd < delays) (hq : config.quantumCycles < 2 ^ 32)
    (hn : 1 ≤ turnLength config (w.heap p)) :
    (instructionRound config p delays w cd).2 = 0 ∧
    (instructionRound config p delays w cd).1.scheduler = w.scheduler ∧
    ((instructionRound config p delays w cd).1.heap p).linesOfCode = (w.heap p).linesOfCode ∧
    ((instructionRound config p delays w cd).1.heap p).commandCounter =
      (w.heap p).commandCounter + 1 ∧
    ((instructionRound config p delays w cd).1.heap p).quantumTime =
      (w.heap p).quantumTime + (if config.schedulerType = "rr" then 1 else 0) ∧
    turnLength config ((instructionRound config p delays w cd).1.heap p) + 1 =
      turnLength config (w.heap p) := by
  unfold instructionRound
  rw [if_neg h]
  simp only [Function.update_same]
  unfold turnLength at hn ⊢
  unfold Process.moveToNextLine Process.incrementQuantumTime
  by_cases hrr : config.schedulerType = "rr"
  · simp only [hrr, if_true] at hn ⊢
    rw [Nat.min_def] at hn
    have h1 : (w.heap p).commandCounter < (w.heap p).linesOfCode := by
      split at hn <;> omega
    have h2 : (w.heap p).quantumTime < config.quantumCycles := by
      split at hn <;> omega
    rw [if_pos h1]
    simp only
    rw [Nat.mod_eq_of_lt (by omega)]
    refine ⟨trivial, trivial, trivial, trivial, rfl, ?_⟩
    rw [Nat.min_def, Nat.min_def]
    split <;> split <;> omega
  · simp only [hrr, if_false] at hn ⊢
    have h1 : (w.heap p).commandCounter < (w.heap p).linesOfCode := by omega
    rw [if_pos h1]
    simp only
    refine ⟨trivial, trivial, trivial, trivial, rfl, ?_⟩
    omega

/-- The inner loop of a turn, for a process that runs alone (so that every
call of `waitForCycleSync` returns at once): with `c` delay rounds already
spent on the current instruction, it leaves at the loop test after the
remaining rounds, one round per instruction and `d` delay rounds before each. -/
theorem dispatchTurnLoop_spec (config : Config) (p : Handle) (d : Nat)
    (hq : config.quantumCycles < 2 ^ 32) :
    ∀ (fuel : Nat) (s : TurnState) (c : Nat),
      s.currentDelay = (c : Int) → c ≤ d →
      s.world.scheduler.runningProcesses.length ≤ 1 →
      0 ≤ s.world.scheduler.coresWaiting →
      turnLength config (s.world.heap p) * (d + 1) - c < fuel →
      (dispatchTurnLoop config p (d : Int) fuel s).stop = WorkerStop.loopLeft ∧
      (dispatchTurnLoop config p (d : Int) fuel s).state.executed =
        s.executed ++ List.replicate (turnLength config (s.world.heap p)) p ∧
      (dispatchTurnLoop config p (d : Int) fuel s).state.barrierCalls =
        s.barrierCalls + (turnLength config (s.world.heap p) * (d + 1) - c) ∧
      ((dispatchTurnLoop config p (d : Int) fuel s).state.world.heap p).commandCounter =
        (s.world.heap p).commandCounter + turnLength config (s.world.heap p) ∧
      ((dispatchTurnLoop config p (d : Int) fuel s).state.world.heap p).quantumTime =
        (s.world.heap p).quantumTime +
          (if config.schedulerType = "rr" then turnLength config (s.world.heap p) else 0) ∧
      ((dispatchTurnLoop config p (d : Int) fuel s).state.world.heap p).linesOfCode =
        (s.world.heap p).linesOfCode := by
  intro fuel
  induction fuel with
  | zero => intro s c _ _ _ _ hf; omega
  | succ n ih =>
    intro s c hc hcd hrun hcw hf
    unfold dispatchTurnLoop
    by_cases hover : turnOver config (s.world.heap p) = true
    · rw [if_pos hover]
      have h0 := (turnOver_iff config _).1 hover
      simp [h0]
    · rw [if_neg hover]
      have hpos : 1 ≤ turnLength config (s.world.heap p) := by
        have := mt (turnOver_iff config (s.world.heap p)).2 hover
        omega
      have hmul : d + 1 ≤ turnLength config (s.world.heap p) * (d + 1) :=
        Nat.le_mul_of_pos_left _ hpos
      by_cases hdel : s.currentDelay < (d : Int)
      · have hcl : c < d := by rw [hc] at hdel; exact_mod_cast hdel
        simp only [instructionRound_delay config p _ s.world _ hdel,
          waitForCycleSync_alone _ hrun hcw, if_true, hdel]
        obtain ⟨i1, i2, i3, i4, i5, i6⟩ := ih
          { world := { s.world with
              scheduler := { s.world.scheduler with
                coresWaiting := 0, cpuCycles := s.world.scheduler.cpuCycles + 1 } }
            currentDelay := s.currentDelay + 1
            executed := s.executed
            barrierCalls := s.barrierCalls + 1 } (c + 1)
          (by simp only [hc]; push_cast; rfl) (by omega) hrun (le_refl _) (by simp only; omega)
        simp only at i1 i2 i3 i4 i5 i6
        refine ⟨i1, i2, ?_, i4, i5, i6⟩
        rw [i3]
        omega
      · have hcl : c = d := by
          rw [hc] at hdel
          have : ¬ (c < d) := fun h => hdel (by exact_mod_cast h)
          omega
        obtain ⟨e1, e2, e3, e4, e5, e6⟩ :=
          instructionRound_execute config p (d : Int) s.world s.currentDelay hdel hq hpos
        have hsync := waitForCycleSync_alone
          (instructionRound config p (d : Int) s.world s.currentDelay).1.scheduler
          (by rw [e2]; exact hrun) (by rw [e2]; exact hcw)
        simp only [hsync, if_true, hdel, if_false, e1]
        obtain ⟨i1, i2, i3, i4, i5, i6⟩ := ih
          { world := { (instructionRound config p (d : Int) s.world s.currentDelay).1 with
              scheduler :=
                { (instructionRound config p (d : Int) s.world s.currentDelay).1.scheduler with
                  coresWaiting := 0
                  cpuCycles :=
                    (instructionRound config p (d : Int) s.world
                      s.currentDelay).1.scheduler.cpuCycles + 1 } }
            currentDelay := 0
            executed := s.executed ++ [p]
            barrierCalls := s.barrierCalls + 1 } 0
          rfl (by omega) (by simp only; rw [e2]; exact hrun) (le_refl _)
          (by
            simp only
            have : turnLength config (s.world.heap p) * (d + 1) =
                turnLength config
                  ((instructionRound config p (d : Int) s.world s.currentDelay).1.heap p) *
                  (d + 1) + (d + 1) := by
              rw [← e6, Nat.add_mul, Nat.one_mul]
            omega)
        simp only at i1 i2 i3 i4 i5 i6
        have hmul2 : turnLength config (s.world.heap p) * (d + 1) =
            turnLength config
              ((instructionRound config p (d : Int) s.world s.currentDelay).1.heap p) *
              (d + 1) + (d + 1) := by
          rw [← e6, Nat.add_mul, Nat.one_mul]
        refine ⟨i1, ?_, ?_, ?_, ?_, ?_⟩
        · rw [i2, ← e6, List.replicate_succ, List.append_assoc]
          rfl
        · rw [i3]
          omega
        · rw [i4, e4]
          omega
        · rw [i5, e5]
          by_cases hrr : config.schedulerType = "rr"
          · simp only [hrr, if_true]
            omega
          · simp only [hrr, if_false]
        · rw [i6, e3]

/-- One dispatch turn of a process that runs alone (at most one process in the
running list, so that every barrier call returns at once), with quantum counter
0, `r` remaining instructions, a quantum `q` and a delay `d < 2 ^ 31`: given
more than `n * (d + 1)` rounds the turn leaves the inner loop at the loop test,
having executed exactly `n` instructions, advanced the progress counter by `n`
and called the barrier exactly `n * (d + 1)` times, where `n` is `min(r, q)`
under `"rr"`, with the quantum counter at `n` afterwards, and `r` otherwise,
with the quantum counter still 0. -/
theorem dispatchTurn_counts (config : Config) (p : Handle) (w : World) (fuel : Nat)
    (hq : config.quantumCycles < 2 ^ 32) (hd : config.delaysPerExec < 2 ^ 31)
    (hqt : (w.heap p).quantumTime = 0)
    (hrun : w.scheduler.runningProcesses.length ≤ 1) (hcw : 0 ≤ w.scheduler.coresWaiting)
    (hfuel : turnLength config (w.heap p) * (config.delaysPerExec + 1) < fuel) :
    turnLength config (w.heap p) =
      (if config.schedulerType = "rr" then
        min ((w.heap p).linesOfCode - (w.heap p).commandCounter) config.quantumCycles
       else (w.heap p).linesOfCode - (w.heap p).commandCounter) ∧
    (dispatchTurn config p fuel w).stop = WorkerStop.loopLeft ∧
    (dispatchTurn config p fuel w).state.executed =
      List.replicate (turnLength config (w.heap p)) p ∧
    (dispatchTurn config p fuel w).state.barrierCalls =
      turnLength config (w.heap p) * (config.delaysPerExec + 1) ∧
    ((dispatchTurn config p fuel w).state.world.heap p).commandCounter =
      (w.heap p).commandCounter + turnLength config (w.heap p) ∧
    ((dispatchTurn config p fuel w).state.world.heap p).quantumTime =
      (if config.schedulerType = "rr" then turnLength config (w.heap p) else 0) := by
  have key := dispatchTurnLoop_spec config p config.delaysPerExec hq fuel
    { world :=
        { w with
          heap := Function.update w.heap p ((w.heap p).setState ProcessState.RUNNING) }
      currentDelay := 0, executed := [], barrierCalls := 0 } 0 rfl (Nat.zero_le _) hrun hcw
    (by
      simp only [Function.update_same]
      exact hfuel)
  unfold dispatchTurn
  rw [toInt32_of_lt _ hd]
  generalize dispatchTurnLoop config p (config.delaysPerExec : Int) fuel
    { world :=
        { w with
          heap := Function.update w.heap p ((w.heap p).setState ProcessState.RUNNING) }
      currentDelay := 0, executed := [], barrierCalls := 0 } = res at key ⊢
  simp only [Function.update_same, List.nil_append, Nat.zero_add, Nat.sub_zero] at key
  have hlen : turnLength config ((w.heap p).setState ProcessState.RUNNING) =
      turnLength config (w.heap p) := rfl
  have hcc : ((w.heap p).setState ProcessState.RUNNING).commandCounter =
      (w.heap p).commandCounter := rfl
  have hqt2 : ((w.heap p).setState ProcessState.RUNNING).quantumTime = 0 := hqt
  rw [hlen, hcc, hqt2, Nat.zero_add] at key
  obtain ⟨h1, h2, h3, h4, h5, _⟩ := key
  refine ⟨?_, h1, h2, h3, h4, h5⟩
  unfold turnLength
  rw [hqt, Nat.sub_zero]

/-! ### The ready queue under `createProcess` admissions -/

theorem getElem?_set_cases {α : Type} (l : List α) (i j : Nat) (a pos : α)
    (h : (l.set i a)[j]? = some pos) : (j = i ∧ pos = a) ∨ (j ≠ i ∧ l[j]? = some pos) := by
  by_cases hij : i = j
  · subst hij
    left
    rw [List.getElem?_set] at h
    simp only [if_true] at h
    split at h
    · exact ⟨rfl, (Option.some.inj h).symm⟩
    · cases h
  · right
    rw [List.getElem?_set_ne hij] at h
    exact ⟨fun hc => hij hc.symm, h⟩

/-- A step of worker `i` keeps the invariant when the new queue has no
duplicates, its processes have quantum counter 0 and are held by no other
worker nor by worker `i` at its new position, and the process that worker `i`
now holds is held by no other worker. -/
theorem QueueInv_step_worker (config : Config) (st : SystemState) (w : World) (i : Nat)
    (new : WorkerAt) (c : List Nat) (hinv : QueueInv config st)
    (hnodup : w.scheduler.readyQueue.Nodup)
    (hquantum : ∀ p ∈ w.scheduler.readyQueue, (w.heap p).quantumTime = 0)
    (hothers : ∀ p ∈ w.scheduler.readyQueue, ∀ (j : Nat) (pos : WorkerAt), j ≠ i →
      st.workers[j]? = some pos → pos.process ≠ some p)
    (hnew : ∀ p ∈ w.scheduler.readyQueue, new.process ≠ some p)
    (hdist : ∀ (j : Nat) (pos : WorkerAt) (p : Handle), j ≠ i → st.workers[j]? = some pos →
      new.process = some p → pos.process ≠ some p)
    (hcores : w.scheduler.coreStatus.length = st.world.scheduler.coreStatus.length) :
    QueueInv config { world := w, workers := st.workers.set i new, called := c } where
  quantum := hquantum
  nodup := hnodup
  unheld := by
    intro p hp j pos hj
    rcases getElem?_set_cases _ _ _ _ _ hj with ⟨_, h2⟩ | ⟨h1, h2⟩
    · rw [h2]; exact hnew p hp
    · exact hothers p hp j pos h1 h2
  distinct := by
    intro j1 j2 pos1 pos2 p h1 h2 hp1 hp2
    rcases getElem?_set_cases _ _ _ _ _ h1 with ⟨a1, b1⟩ | ⟨a1, b1⟩
    · rcases getElem?_set_cases _ _ _ _ _ h2 with ⟨a2, b2⟩ | ⟨a2, b2⟩
      · rw [a1, a2]
      · exfalso
        rw [b1] at hp1
        exact hdist j2 pos2 p a2 b2 hp1 hp2
    · rcases getElem?_set_cases _ _ _ _ _ h2 with ⟨a2, b2⟩ | ⟨a2, b2⟩
      · exfalso
        rw [b2] at hp2
        exact hdist j1 pos1 p a1 b1 hp2 hp1
      · exact hinv.distinct j1 j2 pos1 pos2 p b1 b2 hp1 hp2
  cores := by
    rw [hcores]
    exact hinv.cores

/-- A step of worker `i` that keeps the ready queue and the quantum counters of
its processes, and after which the worker holds the process that it held, or
none. -/
theorem QueueInv_move (config : Config) (st : SystemState) (w : World) (i : Nat)
    (old new : WorkerAt) (c : List Nat) (hinv : QueueInv config st) (hold : st.workers[i]? = some old)
    (hproc : new.process = old.process ∨ new.process = none)
    (hq : w.scheduler.readyQueue = st.world.scheduler.readyQueue)
    (hheap : ∀ p ∈ st.world.scheduler.readyQueue,
      (w.heap p).quantumTime = (st.world.heap p).quantumTime)
    (hcores : w.scheduler.coreStatus.length = st.world.scheduler.coreStatus.length) :
    QueueInv config { world := w, workers := st.workers.set i new, called := c } := by
  apply QueueInv_step_worker config st w i new c hinv
  · rw [hq]; exact hinv.nodup
  · intro p hp
    rw [hq] at hp
    rw [hheap p hp]
    exact hinv.quantum p hp
  · intro p hp j pos _ hj
    rw [hq] at hp
    exact hinv.unheld p hp j pos hj
  · intro p hp
    rw [hq] at hp
    rcases hproc with h | h
    · rw [h]; exact hinv.unheld p hp i old hold
    · rw [h]; simp
  · intro j pos p hji hj hnp hpp
    rcases hproc with h | h
    · rw [h] at hnp
      exact hji (hinv.distinct j i pos old p hj hold hpp hnp)
    · rw [h] at hnp; cases hnp
  · exact hcores

theorem QueueInv_initialState (config : Config) (heap : Handle → Process)
    (memory : MemoryManager) : QueueInv config (initialState config heap memory) where
  quantum := by intro p hp; simp [initialState, Scheduler.ctor] at hp
  nodup := by simp [initialState, Scheduler.ctor]
  unheld := by intro p hp; simp [initialState, Scheduler.ctor] at hp
  distinct := by
    intro i j pos1 pos2 p h1 _ hp1 _
    simp only [initialState] at h1
    have := List.getElem?_mem h1
    rw [List.mem_replicate] at this
    rw [this.2] at hp1
    cases hp1
  cores := by simp [initialState, Scheduler.ctor]

/-- The world that a call of `createProcess` leaves: the world as it was, or
with the new process in the heap, or with the new process in the heap and at
the tail of the ready queue. -/
theorem createProcess_world (newHandle : Handle) (outcome : TryOutcome) (name : String)
    (pm pm2 : ProcessManager) (w w2 : World) (raised : Option RuntimeError)
    (h : createProcess newHandle outcome name pm w = (raised, pm2, w2)) :
    w2 = w ∨
    (∃ lines, w2 =
      { w with heap := Function.update w.heap newHandle (newProcess pm.nextPID name lines) }) ∨
    (∃ lines, w2 =
      { w with
        heap := Function.update w.heap newHandle (newProcess pm.nextPID name lines)
        scheduler := w.scheduler.addProcess newHandle }) := by
  unfold createProcess at h
  split at h
  · exact Or.inl (Prod.mk.inj (Prod.mk.inj h).2).2.symm
  · split at h
    · exact Or.inl (Prod.mk.inj (Prod.mk.inj h).2).2.symm
    · cases outcome with
      | constructorThrows => exact Or.inl (Prod.mk.inj (Prod.mk.inj h).2).2.symm
      | insertThrows lines => exact Or.inl (Prod.mk.inj (Prod.mk.inj h).2).2.symm
      | addProcessThrows lines =>
        exact Or.inr (Or.inl ⟨lines, (Prod.mk.inj (Prod.mk.inj h).2).2.symm⟩)
      | completes lines =>
        exact Or.inr (Or.inr ⟨lines, (Prod.mk.inj (Prod.mk.inj h).2).2.symm⟩)

theorem QueueInv_create (config : Config) (st : SystemState) (pm pm2 : ProcessManager)
    (newHandle : Handle) (outcome : TryOutcome) (name : String) (raised : Option RuntimeError)
    (w2 : World) (hinv : QueueInv config st) (hfresh : FreshHandle st newHandle)
    (h : createProcess newHandle outcome name pm st.world = (raised, pm2, w2)) :
    QueueInv config { st with world := w2 } := by
  rcases createProcess_world newHandle outcome name pm pm2 st.world w2 raised h with
    h2 | ⟨lines, h2⟩ | ⟨lines, h2⟩
  · rw [h2]
    exact hinv
  · rw [h2]
    refine ⟨?_, hinv.nodup, hinv.unheld, hinv.distinct, hinv.cores⟩
    intro p hp
    have hpn : p ≠ newHandle := fun he => hfresh.1 (he ▸ hp)
    simp only [Function.update_noteq hpn]
    exact hinv.quantum p hp
  · rw [h2]
    constructor
    · intro p hp
      simp only [Scheduler.addProcess, List.mem_append, List.mem_singleton] at hp
      by_cases hpn : p = newHandle
      · rw [hpn]
        simp [newProcess]
      · rcases hp with hp | hp
        · simp only [Function.update_noteq hpn]
          exact hinv.quantum p hp
        · exact absurd hp hpn
    · simp only [Scheduler.addProcess]
      exact List.Nodup.append hinv.nodup (List.nodup_singleton _)
        (by simpa using hfresh.1)
    · intro p hp i pos hi
      simp only [Scheduler.addProcess, List.mem_append, List.mem_singleton] at hp
      rcases hp with hp | hp
      · exact hinv.unheld p hp i pos hi
      · rw [hp]; exact hfresh.2 i pos hi
    · exact hinv.distinct
    · exact hinv.cores

theorem instructionRound_heap_ne (config : Config) (p q : Handle) (delays : Int) (w : World)
    (d : Int) (h : q ≠ p) : (instructionRound config p delays w d).1.heap q = w.heap q := by
  unfold instructionRound
  by_cases hd : d < delays
  · rw [if_pos hd]
  · rw [if_neg hd]
    simp only [Function.update_noteq h]

theorem waitForCycleSync_lists (s : Scheduler) :
    (waitForCycleSync s).1.readyQueue = s.readyQueue ∧
    (waitForCycleSync s).1.coreStatus = s.coreStatus := by
  unfold waitForCycleSync
  simp only
  split <;> exact ⟨rfl, rfl⟩

theorem cycleCounterTick_lists (s : Scheduler) :
    (cycleCounterTick s).readyQueue = s.readyQueue ∧
    (cycleCounterTick s).coreStatus = s.coreStatus := by
  unfold cycleCounterTick
  split <;> exact ⟨rfl, rfl⟩

/-- What the list part of the end-of-turn block does to the ready queue, the
quantum counters and the core slots. -/
theorem endOfTurnLists_queue (w : World) (p : Handle) :
    ((endOfTurnLists w p).scheduler.readyQueue = w.scheduler.readyQueue ∨
      ((endOfTurnLists w p).scheduler.readyQueue = w.scheduler.readyQueue ++ [p] ∧
        ((endOfTurnLists w p).heap p).quantumTime = 0)) ∧
    (∀ q, q ≠ p → (endOfTurnLists w p).heap q = w.heap q) ∧
    (endOfTurnLists w p).scheduler.coreStatus = w.scheduler.coreStatus := by
  unfold endOfTurnLists
  by_cases h : (w.heap p).isFinished = true
  · rw [if_pos h]
    exact ⟨Or.inl rfl, fun q hq => Function.update_noteq hq _ _, rfl⟩
  · rw [if_neg h]
    refine ⟨Or.inr ⟨rfl, ?_⟩, fun q hq => Function.update_noteq hq _ _, rfl⟩
    simp [Process.resetQuantumTime, Process.setState]

theorem WorkerAt.resume_process (held : Option (Handle × Int)) :
    (WorkerAt.resume held).process = held.map Prod.fst := by
  cases held with
  | none => rfl
  | some x => rfl

/-- A step that leaves the workers where they are and keeps the ready queue, the
quantum counters of its processes and the number of core slots. -/
theorem QueueInv_world (config : Config) (st : SystemState) (w : World) (c : List Nat)
    (hinv : QueueInv config st)
    (hq : w.scheduler.readyQueue = st.world.scheduler.readyQueue)
    (hheap : ∀ p ∈ st.world.scheduler.readyQueue,
      (w.heap p).quantumTime = (st.world.heap p).quantumTime)
    (hcores : w.scheduler.coreStatus.length = st.world.scheduler.coreStatus.length) :
    QueueInv config { world := w, workers := st.workers, called := c } where
  quantum := by
    intro p hp
    simp only [hq] at hp
    rw [hheap p hp]
    exact hinv.quantum p hp
  nodup := by
    simp only [hq]
    exact hinv.nodup
  unheld := by
    intro p hp
    simp only [hq] at hp
    exact hinv.unheld p hp
  distinct := hinv.distinct
  cores := by
    simp only [hcores]
    exact hinv.cores

theorem QueueInv_fetch_none (config : Config) (st : SystemState) (i : Nat) (w1 : World)
    (hinv : QueueInv config st) (hpos : st.workers[i]? = some WorkerAt.queueWait)
    (hg : getNextProcess config st.world = .ok (none, w1)) :
    QueueInv config
      { world := w1, workers := st.workers.set i (.beforeSync none), called := st.called } := by
  have hlen := coreStatus_length_dispatch config st.world w1 none hg
  rcases getNextProcess_ok_cases config st.world w1 none hg with
    ⟨_, h1⟩ | ⟨_, p, rest, hq, h1⟩ | ⟨p, c, w0, hr, _⟩
  · rw [h1]
    exact QueueInv_move config st st.world i _ _ _ hinv hpos (Or.inr rfl) rfl
      (fun _ _ => rfl) rfl
  · have hnd := hinv.nodup
    rw [hq] at hnd
    have hpr : p ∉ rest := (List.nodup_cons.1 hnd).1
    have hmem : ∀ x, x ∈ rest ++ [p] → x ∈ st.world.scheduler.readyQueue := by
      intro x hx
      rw [hq]
      rcases List.mem_append.1 hx with h | h
      · exact List.mem_cons_of_mem _ h
      · rw [List.mem_singleton.1 h]
        exact List.mem_cons_self _ _
    apply QueueInv_step_worker config st w1 i _ _ hinv
    · rw [h1]
      show (rest ++ [p]).Nodup
      exact List.Nodup.append (List.nodup_cons.1 hnd).2 (List.nodup_singleton _)
        (by simpa using hpr)
    · intro x hx
      rw [h1] at hx ⊢
      by_cases hxp : x = p
      · rw [hxp]
        simp [handleQuantumExpiration, Process.resetQuantumTime, Process.setState]
      · show ((Function.update st.world.heap p _) x).quantumTime = 0
        rw [Function.update_noteq hxp]
        exact hinv.quantum x (hmem x hx)
    · intro x hx j pos _ hj
      rw [h1] at hx
      exact hinv.unheld x (hmem x hx) j pos hj
    · intro x _
      simp [WorkerAt.process]
    · intro j pos x _ _ hnp
      simp [WorkerAt.process] at hnp
    · exact hlen
  · cases hr

theorem QueueInv_fetch_some (config : Config) (st : SystemState) (i : Nat) (w1 : World)
    (p : Handle) (hinv : QueueInv config st)
    (hg : getNextProcess config st.world = .ok (some p, w1)) :
    QueueInv config
      { world :=
          { w1 with
            heap := Function.update w1.heap p ((w1.heap p).setState ProcessState.RUNNING) }
        workers := st.workers.set i (.loopHead p 0)
        called := st.called } := by
  have hlen := coreStatus_length_dispatch config st.world w1 (some p) hg
  rcases getNextProcess_ok_cases config st.world w1 (some p) hg with ⟨hr, _⟩ | ⟨hr, _⟩ |
    ⟨p2, c, w0, hr, _, hp, h1⟩
  · cases hr
  · cases hr
  · cases hr
    obtain ⟨hq, hheap, _, hs⟩ := policySchedule_some config st.world w0 p hp
    have hnd := hinv.nodup
    rw [hq] at hnd
    have hpr : p ∉ w0.scheduler.readyQueue := (List.nodup_cons.1 hnd).1
    have hw1q : w1.scheduler.readyQueue = w0.scheduler.readyQueue := by rw [h1]
    have hmem : ∀ x, x ∈ w0.scheduler.readyQueue → x ∈ st.world.scheduler.readyQueue := by
      intro x hx
      rw [hq]
      exact List.mem_cons_of_mem _ hx
    have hpq : p ∈ st.world.scheduler.readyQueue := by
      rw [hq]
      exact List.mem_cons_self _ _
    apply QueueInv_step_worker config st _ i _ _ hinv
    · show w1.scheduler.readyQueue.Nodup
      rw [hw1q]
      exact (List.nodup_cons.1 hnd).2
    · intro x hx
      have hx2 : x ∈ w0.scheduler.readyQueue := by rw [← hw1q]; exact hx
      have hxp : x ≠ p := fun he => hpr (he ▸ hx2)
      show ((Function.update w1.heap p _) x).quantumTime = 0
      rw [Function.update_noteq hxp, h1]
      show ((Function.update w0.heap p _) x).quantumTime = 0
      rw [Function.update_noteq hxp, hheap]
      exact hinv.quantum x (hmem x hx2)
    · intro x hx j pos _ hj
      have hx2 : x ∈ w0.scheduler.readyQueue := by rw [← hw1q]; exact hx
      exact hinv.unheld x (hmem x hx2) j pos hj
    · intro x hx
      have hx2 : x ∈ w0.scheduler.readyQueue := by rw [← hw1q]; exact hx
      intro he
      simp only [WorkerAt.process, Option.some.injEq] at he
      exact hpr (he ▸ hx2)
    · intro j pos x _ hj hnp
      simp only [WorkerAt.process, Option.some.injEq] at hnp
      rw [← hnp]
      exact hinv.unheld p hpq j pos hj
    · exact hlen

theorem QueueInv_finishTurn (config : Config) (st : SystemState) (i : Nat) (p : Handle)
    (hinv : QueueInv config st) (hpos : st.workers[i]? = some (WorkerAt.turnEnd p)) :
    QueueInv config
      { world := endOfTurnLists st.world p, workers := st.workers.set i .relocking
        called := st.called } := by
  obtain ⟨hqueue, hheap, hcore⟩ := endOfTurnLists_queue st.world p
  have hpq : p ∉ st.world.scheduler.readyQueue := fun hp => hinv.unheld p hp i _ hpos rfl
  have hmem : ∀ x, x ∈ (endOfTurnLists st.world p).scheduler.readyQueue →
      x ∈ st.world.scheduler.readyQueue ∨
        (x = p ∧ ((endOfTurnLists st.world p).heap p).quantumTime = 0) := by
    intro x hx
    rcases hqueue with h | ⟨h, h0⟩
    · rw [h] at hx
      exact Or.inl hx
    · rw [h] at hx
      rcases List.mem_append.1 hx with h2 | h2
      · exact Or.inl h2
      · exact Or.inr ⟨List.mem_singleton.1 h2, h0⟩
  apply QueueInv_step_worker config st _ i _ _ hinv
  · rcases hqueue with h | ⟨h, _⟩
    · rw [h]
      exact hinv.nodup
    · rw [h]
      exact List.Nodup.append hinv.nodup (List.nodup_singleton _) (by simpa using hpq)
  · intro x hx
    rcases hmem x hx with h | ⟨h, h0⟩
    · have hxp : x ≠ p := fun he => hpq (he ▸ h)
      rw [hheap x hxp]
      exact hinv.quantum x h
    · rw [h]
      exact h0
  · intro x hx j pos hji hj
    rcases hmem x hx with h | ⟨h, _⟩
    · exact hinv.unheld x h j pos hj
    · intro hpp
      rw [h] at hpp
      exact hji (hinv.distinct j i pos _ p hj hpos hpp rfl)
  · intro x _
    simp [WorkerAt.process]
  · intro j pos x _ _ hnp
    simp [WorkerAt.process] at hnp
  · rw [hcore]

/-- Every step of a worker thread or of the backup clock keeps the invariant. -/
theorem QueueInv_threadStep (config : Config) (st st2 : SystemState) (a : ThreadStep)
    (hinv : QueueInv config st) (hna : ∀ p, a ≠ .addProcess p)
    (hnb : ∀ lockAcquired p, a ≠ .allocateMemory lockAcquired p)
    (hs : threadStep config st a = some st2) : QueueInv config st2 := by
  cases a with
  | addProcess p => exact absurd rfl (hna p)
  | allocateMemory lockAcquired p => exact absurd rfl (hnb lockAcquired p)
  | fetch i =>
    simp only [threadStep] at hs
    split at hs
    · rename_i hpos
      split at hs
      · split at hs
        · cases hs
        · rename_i w1 hg
          rw [← Option.some.inj hs]
          exact QueueInv_fetch_none config st i w1 hinv hpos hg
        · rename_i p w1 hg
          rw [← Option.some.inj hs]
          exact QueueInv_fetch_some config st i w1 p hinv hg
      · cases hs
    · cases hs
  | round i =>
    simp only [threadStep] at hs
    split at hs
    · rename_i p d hpos
      split at hs
      · rw [← Option.some.inj hs]
        exact QueueInv_move config st st.world i _ _ _ hinv hpos (Or.inl rfl) rfl
          (fun _ _ => rfl) rfl
      · rw [← Option.some.inj hs]
        refine QueueInv_move config st _ i _ _ _ hinv hpos (Or.inl rfl)
          (by rw [instructionRound_scheduler]) ?_ (by rw [instructionRound_scheduler])
        intro x hx
        have hxp : x ≠ p := fun he => hinv.unheld x hx i _ hpos (by rw [he]; rfl)
        rw [instructionRound_heap_ne config p x _ _ _ hxp]
    · cases hs
  | sync i =>
    simp only [threadStep] at hs
    split at hs
    · rename_i held hpos
      rw [← Option.some.inj hs]
      refine QueueInv_move config st _ i _ _ _ hinv hpos (Or.inl ?_)
        (waitForCycleSync_lists _).1 (fun _ _ => rfl) (by rw [(waitForCycleSync_lists _).2])
      split
      · exact WorkerAt.resume_process held
      · rfl
    · cases hs
  | wake i =>
    simp only [threadStep] at hs
    split at hs
    · rename_i held hpos
      split at hs
      · rw [← Option.some.inj hs]
        exact QueueInv_move config st st.world i _ _ _ hinv hpos
          (Or.inl (WorkerAt.resume_process held)) rfl (fun _ _ => rfl) rfl
      · cases hs
    · cases hs
  | finishTurn i =>
    simp only [threadStep, endOfTurn_eq_none] at hs
    split at hs
    · rename_i p hpos
      split at hs
      · rw [← Option.some.inj hs]
        exact QueueInv_finishTurn config st i p hinv hpos
      · cases hs
    · cases hs
  | tick =>
    simp only [threadStep] at hs
    rw [← Option.some.inj hs]
    exact QueueInv_world config st _ _ hinv (cycleCounterTick_lists _).1 (fun _ _ => rfl)
      (by rw [(cycleCounterTick_lists _).2])

theorem QueueInv_of_reachable (config : Config) (st : SystemState)
    (h : CreatedReachable config st) : QueueInv config st := by
  induction h with
  | init heap memory => exact QueueInv_initialState config heap memory
  | create st pm pm2 newHandle outcome name raised w2 _ hfresh hc ih =>
    exact QueueInv_create config st pm pm2 newHandle outcome name raised w2 ih hfresh hc
  | step st st2 a _ hna hnb hs ih => exact QueueInv_threadStep config st st2 a ih hna hnb hs

theorem FreshHandle_initialState (config : Config) (heap : Handle → Process)
    (memory : MemoryManager) (newHandle : Handle) :
    FreshHandle (initialState config heap memory) newHandle := by
  refine ⟨by simp [initialState, Scheduler.ctor], ?_⟩
  intro i pos h
  simp only [initialState] at h
  have := List.getElem?_mem h
  rw [List.mem_replicate] at this
  rw [this.2]
  simp [WorkerAt.process]

theorem CreatedReachable_createdState :
    CreatedReachable (schedulerConfig 1 "rr" 2) createdState :=
  CreatedReachable.create _ { processes := [], nextPID := 0 }
    { processes := [("P1", 1)], nextPID := 1 } 1 (.completes 3) "P1" none _
    (CreatedReachable.init exampleHeap (MemoryManager.ctor (schedulerConfig 1 "rr" 2)))
    (FreshHandle_initialState _ _ _ 1) rfl

/-- What the policy call yields when the head of the queue has quantum counter
0 and the quantum limit is at least 1. -/
theorem policySchedule_head (config : Config) (w : World) (head : Handle) (rest : List Handle)
    (hq : 1 ≤ config.quantumCycles) (hqueue : w.scheduler.readyQueue = head :: rest)
    (h0 : (w.heap head).quantumTime = 0) :
    isQuantumExpired config (w.heap head) = false ∧
    roundRobinSchedule config w =
      (some head, { w with scheduler := { w.scheduler with readyQueue := rest } }) ∧
    policySchedule config w =
      (some head, { w with scheduler := { w.scheduler with readyQueue := rest } }) := by
  have he : isQuantumExpired config (w.heap head) = false := by
    unfold isQuantumExpired
    rw [h0]
    exact decide_eq_false (by omega)
  have hrr : roundRobinSchedule config w =
      (some head, { w with scheduler := { w.scheduler with readyQueue := rest } }) := by
    unfold roundRobinSchedule
    rw [hqueue]
    simp only [he, Bool.not_false, if_true]
  refine ⟨he, hrr, ?_⟩
  unfold policySchedule
  by_cases hp : config.schedulerType = "rr"
  · rw [if_pos hp]
    exact hrr
  · rw [if_neg hp]
    unfold fcfsSchedule
    rw [hqueue]

/-! ### A worker left in the barrier -/

theorem allocateMemory_isFinished (config : Config) (lockAcquired : Bool) (p q : Handle)
    (w : World) :
    ((allocateMemory config lockAcquired (some p) w).2.heap q).isFinished =
      (w.heap q).isFinished := by
  unfold allocateMemory
  simp only
  split
  · rfl
  · split
    · split
      · by_cases hq : q = p
        · rw [hq]
          simp [Process.setState, Process.isFinished]
        · simp only [Function.update_noteq hq]
      · rfl
    · rfl

theorem BlockedInv_position {st : SystemState} (h : BlockedInv st) :
    st.workers[0]? = some (.inBarrier (some (1, 0))) ∧
    (st.workers[1]? = some (.loopHead 2 0) ∨ st.workers[1]? = some (.turnEnd 2) ∨
      st.workers[1]? = some .relocking) ∧
    ∀ i, 2 ≤ i → st.workers[i]? = none := by
  rcases h.workers with ⟨hw, _⟩ | hw | hw <;> rw [hw]
  · exact ⟨rfl, Or.inl rfl, fun i hi => List.getElem?_eq_none (by simpa using hi)⟩
  · exact ⟨rfl, Or.inr (Or.inl rfl), fun i hi => List.getElem?_eq_none (by simpa using hi)⟩
  · exact ⟨rfl, Or.inr (Or.inr rfl), fun i hi => List.getElem?_eq_none (by simpa using hi)⟩

/-- The position of worker `i` under the invariant. -/
theorem BlockedInv_cases {st : SystemState} (h : BlockedInv st) (i : Nat) (pos : WorkerAt)
    (hpos : st.workers[i]? = some pos) :
    (i = 0 ∧ pos = .inBarrier (some (1, 0))) ∨
    (i = 1 ∧ (pos = .loopHead 2 0 ∨ pos = .turnEnd 2 ∨ pos = .relocking)) := by
  obtain ⟨h0, h1, h2⟩ := BlockedInv_position h
  rcases i with _ | _ | i
  · rw [h0] at hpos
    exact Or.inl ⟨rfl, (Option.some.inj hpos).symm⟩
  · right
    refine ⟨rfl, ?_⟩
    rcases h1 with h1 | h1 | h1 <;> rw [h1] at hpos
    · exact Or.inl (Option.some.inj hpos).symm
    · exact Or.inr (Or.inl (Option.some.inj hpos).symm)
    · exact Or.inr (Or.inr (Option.some.inj hpos).symm)
  · rw [h2 (i + 2) (by omega)] at hpos
    cases hpos

theorem BlockedInv_step (config : Config) (st st2 : SystemState) (a : ThreadStep)
    (hinv : BlockedInv st) (hs : threadStep config st a = some st2) : BlockedInv st2 := by
  cases a with
  | addProcess p =>
    simp only [threadStep] at hs
    split at hs
    · rw [← Option.some.inj hs]
      exact ⟨hinv.waiting, hinv.workers⟩
    · cases hs
  | allocateMemory lockAcquired p =>
    simp only [threadStep] at hs
    split at hs
    · rw [← Option.some.inj hs]
      refine ⟨?_, ?_⟩
      · show (allocateMemory config lockAcquired (some p) st.world).2.scheduler.coresWaiting = 1
        rw [(allocateMemory_counters config lockAcquired p st.world).1]
        exact hinv.waiting
      · rcases hinv.workers with ⟨hw, hf⟩ | hw | hw
        · left
          refine ⟨hw, ?_⟩
          show ((allocateMemory config lockAcquired (some p) st.world).2.heap 2).isFinished = true
          rw [allocateMemory_isFinished]
          exact hf
        · exact Or.inr (Or.inl hw)
        · exact Or.inr (Or.inr hw)
    · cases hs
  | fetch i =>
    simp only [threadStep] at hs
    split at hs
    · rename_i hpos
      rcases BlockedInv_cases hinv i _ hpos with ⟨_, h⟩ | ⟨_, h | h | h⟩ <;> cases h
    · cases hs
  | round i =>
    simp only [threadStep] at hs
    split at hs
    · rename_i p d hpos
      rcases BlockedInv_cases hinv i _ hpos with ⟨_, h⟩ | ⟨hi, h | h | h⟩
      · cases h
      · cases h
        rcases hinv.workers with ⟨hw, hf⟩ | hw | hw
        · have hover : turnOver config (st.world.heap 2) = true := by
            unfold turnOver
            rw [hf]
            rfl
          rw [if_pos hover] at hs
          rw [← Option.some.inj hs]
          refine ⟨hinv.waiting, Or.inr (Or.inl ?_)⟩
          show st.workers.set i (.turnEnd 2) = _
          rw [hw, hi]
          rfl
        · rw [hw, hi] at hpos
          cases hpos
        · rw [hw, hi] at hpos
          cases hpos
      · cases h
      · cases h
    · cases hs
  | sync i =>
    simp only [threadStep] at hs
    split at hs
    · rename_i held hpos
      rcases BlockedInv_cases hinv i _ hpos with ⟨_, h⟩ | ⟨_, h | h | h⟩ <;> cases h
    · cases hs
  | wake i =>
    simp only [threadStep] at hs
    split at hs
    · rename_i held hpos
      split at hs
      · rename_i hz
        rw [hinv.waiting] at hz
        exact absurd hz (by decide)
      · cases hs
    · cases hs
  | finishTurn i =>
    simp only [threadStep, endOfTurn_eq_none] at hs
    split at hs
    · rename_i p hpos
      split at hs
      · rcases BlockedInv_cases hinv i _ hpos with ⟨_, h⟩ | ⟨hi, h | h | h⟩
        · cases h
        · cases h
        · cases h
          rw [← Option.some.inj hs]
          refine ⟨?_, Or.inr (Or.inr ?_)⟩
          · show (endOfTurnLists st.world 2).scheduler.coresWaiting = 1
            rw [(endOfTurnLists_counters st.world 2).1]
            exact hinv.waiting
          · show st.workers.set i .relocking = _
            rcases hinv.workers with ⟨hw, _⟩ | hw | hw
            · rw [hw, hi] at hpos
              cases hpos
            · rw [hw, hi]
              rfl
            · rw [hw, hi] at hpos
              cases hpos
        · cases h
      · cases hs
    · cases hs
  | tick =>
    simp only [threadStep] at hs
    rw [← Option.some.inj hs]
    refine ⟨?_, hinv.workers⟩
    show (cycleCounterTick st.world.scheduler).coresWaiting = 1
    rw [cycleCounterTick_coresWaiting]
    exact hinv.waiting

theorem BlockedInv_afterSteps (config : Config) (steps : List ThreadStep) :
    ∀ st, BlockedInv st → BlockedInv (afterSteps config steps st) := by
  induction steps with
  | nil => intro st h; exact h
  | cons a rest ih =>
    intro st h
    simp only [afterSteps]
    cases hs : threadStep config st a with
    | none => exact ih st h
    | some st2 => exact ih st2 (BlockedInv_step config st st2 a h hs)

theorem BlockedInv_barrierBlockedState : BlockedInv barrierBlockedState :=
  ⟨by decide, Or.inl ⟨by decide, by decide⟩⟩

/-! ### Fresh admissions and the cycle barrier -/

theorem countP_set_le_succ {α : Type} (p : α → Bool) (l : List α) (i : Nat) (a : α) :
    (l.set i a).countP p ≤ l.countP p + 1 := by
  by_cases h : i < l.length
  · rw [List.countP_set p l i a h]
    split <;> split <;> omega
  · rw [List.set_eq_of_length_le (by omega)]
    omega

theorem countP_le_set_of_pos {α : Type} (p : α → Bool) (l : List α) (i : Nat) (a : α)
    (ha : p a = true) : l.countP p ≤ (l.set i a).countP p := by
  by_cases h : i < l.length
  · rw [List.countP_set p l i a h, if_pos ha]
    split <;> omega
  · rw [List.set_eq_of_length_le (by omega)]

theorem countP_set_succ {α : Type} (p : α → Bool) (l : List α) (i : Nat) (a old : α)
    (hold : l[i]? = some old) (hn : p old = false) (ha : p a = true) :
    (l.set i a).countP p = l.countP p + 1 := by
  have h : i < l.length := by
    by_contra hc
    rw [List.getElem?_eq_none (by omega)] at hold
    cases hold
  have he : l[i] = old := by
    rw [List.getElem?_eq_getElem h] at hold
    exact Option.some.inj hold
  rw [List.countP_set p l i a h, he, hn, if_pos ha]
  simp

theorem countP_lt_length_of_getElem? {α : Type} (p : α → Bool) (l : List α) (i : Nat) (old : α)
    (hold : l[i]? = some old) (hn : p old = false) : l.countP p < l.length := by
  have hle := List.countP_le_length p (l := l)
  rcases Nat.lt_or_ge (l.countP p) l.length with h | h
  · exact h
  · have heq : l.countP p = l.length := by omega
    have hall := List.countP_eq_length.1 heq
    have := hall old (List.getElem?_mem hold)
    rw [hn] at this
    cases this

/-- A free core slot exists when fewer slots are busy than there are slots. -/
theorem exists_LowestFreeCore (l : List Bool) (h : l.countP (fun b => b) < l.length) :
    ∃ c, LowestFreeCore l c := by
  rcases availableCoreLoop_spec l 0 with ⟨_, hall⟩ | ⟨c, _, hc⟩
  · exfalso
    have : l.countP (fun b => b) = l.length := List.countP_eq_length.2 (fun b hb => hall b hb)
    omega
  · exact ⟨c, hc⟩

theorem endOfTurnLists_running (w : World) (p : Handle) :
    (endOfTurnLists w p).scheduler.runningProcesses = w.scheduler.runningProcesses.erase p := by
  unfold endOfTurnLists
  by_cases h : (w.heap p).isFinished = true
  · rw [if_pos h]
  · rw [if_neg h]

theorem waitForCycleSync_running (s : Scheduler) :
    (waitForCycleSync s).1.runningProcesses = s.runningProcesses := by
  unfold waitForCycleSync
  simp only
  split <;> rfl

theorem cycleCounterTick_running (s : Scheduler) :
    (cycleCounterTick s).runningProcesses = s.runningProcesses := by
  unfold cycleCounterTick
  split <;> rfl

/-- With fresh admissions a worker that waits on a non-empty ready queue gets
the head of the queue from `getNextProcess`: a core slot is free and the head
has not used up its quantum. -/
theorem getNextProcess_of_HolderInv (config : Config) (st : SystemState) (i : Nat)
    (hq : 1 ≤ config.quantumCycles) (hinv : HolderInv config st)
    (hpos : st.workers[i]? = some WorkerAt.queueWait)
    (hne : st.world.scheduler.readyQueue.isEmpty = false) :
    ∃ p w1, getNextProcess config st.world = .ok (some p, w1) := by
  cases hqueue : st.world.scheduler.readyQueue with
  | nil => rw [hqueue] at hne; cases hne
  | cons head rest =>
    have h0 : (st.world.heap head).quantumTime = 0 :=
      hinv.queue.quantum head (by rw [hqueue]; exact List.mem_cons_self _ _)
    obtain ⟨_, _, hp⟩ := policySchedule_head config st.world head rest hq hqueue h0
    have haway : st.workers.countP (fun pos => decide (pos ≠ WorkerAt.queueWait)) <
        st.workers.length :=
      countP_lt_length_of_getElem? _ st.workers i _ hpos (by simp)
    have hcores := hinv.queue.cores
    have hlen := hinv.workers_length
    have hbusy := hinv.busy
    obtain ⟨c, hc⟩ := exists_LowestFreeCore st.world.scheduler.coreStatus (by omega)
    have hlt := LowestFreeCore_lt_length hc
    have hsize : (st.world.scheduler.coreStatus.length : Int) ≤ config.numCPU := by omega
    exact ⟨head, _, getNextProcess_of_some config st.world _ head c hsize hc hp⟩

/-- A step that leaves the workers where they are and keeps the running list
and the core slots. -/
theorem HolderInv_world (config : Config) (st : SystemState) (w : World) (c : List Nat)
    (hinv : HolderInv config st)
    (hqinv : QueueInv config { world := w, workers := st.workers, called := c })
    (hrun : w.scheduler.runningProcesses = st.world.scheduler.runningProcesses)
    (hcore : w.scheduler.coreStatus = st.world.scheduler.coreStatus) :
    HolderInv config { world := w, workers := st.workers, called := c } where
  queue := hqinv
  running_nodup := by
    show w.scheduler.runningProcesses.Nodup
    rw [hrun]
    exact hinv.running_nodup
  held_running := by
    intro i pos p hi hp
    show p ∈ w.scheduler.runningProcesses
    rw [hrun]
    exact hinv.held_running i pos p hi hp
  running_held := by
    intro p hp
    have hp2 : p ∈ st.world.scheduler.runningProcesses := by rw [← hrun]; exact hp
    exact hinv.running_held p hp2
  no_idle := hinv.no_idle
  busy := by
    show w.scheduler.coreStatus.countP _ ≤ _
    rw [hcore]
    exact hinv.busy
  workers_length := hinv.workers_length

/-- A step of worker `i` after which it holds the process that it held, stands
neither at the wait on the ready queue nor at the barrier without a process,
and which keeps the running list and the core slots. -/
theorem HolderInv_move (config : Config) (st : SystemState) (w : World) (i : Nat)
    (old new : WorkerAt) (c : List Nat) (hinv : HolderInv config st)
    (hqinv : QueueInv config { world := w, workers := st.workers.set i new, called := c })
    (hold : st.workers[i]? = some old) (hproc : new.process = old.process)
    (hrun : w.scheduler.runningProcesses = st.world.scheduler.runningProcesses)
    (hcore : w.scheduler.coreStatus = st.world.scheduler.coreStatus)
    (hnq : new ≠ WorkerAt.queueWait)
    (hidle : new ≠ .beforeSync none ∧ new ≠ .inBarrier none) :
    HolderInv config { world := w, workers := st.workers.set i new, called := c } where
  queue := hqinv
  running_nodup := by
    show w.scheduler.runningProcesses.Nodup
    rw [hrun]
    exact hinv.running_nodup
  held_running := by
    intro j pos p hj hp
    show p ∈ w.scheduler.runningProcesses
    rw [hrun]
    rcases getElem?_set_cases _ _ _ _ _ hj with ⟨_, h2⟩ | ⟨_, h2⟩
    · rw [h2, hproc] at hp
      exact hinv.held_running i old p hold hp
    · exact hinv.held_running j pos p h2 hp
  running_held := by
    intro p hp
    have hp2 : p ∈ st.world.scheduler.runningProcesses := by rw [← hrun]; exact hp
    obtain ⟨j, pos, hj, hpp⟩ := hinv.running_held p hp2
    have hlt : i < st.workers.length := by
      by_contra hc
      rw [List.getElem?_eq_none (by omega)] at hold
      cases hold
    by_cases hji : j = i
    · refine ⟨i, new, ?_, ?_⟩
      · show (st.workers.set i new)[i]? = some new
        rw [List.getElem?_set_self hlt]
      · rw [hji, hold] at hj
        rw [hproc, Option.some.inj hj]
        exact hpp
    · refine ⟨j, pos, ?_, hpp⟩
      show (st.workers.set i new)[j]? = some pos
      rw [List.getElem?_set_ne (fun h => hji h.symm)]
      exact hj
  no_idle := by
    intro j pos hj
    rcases getElem?_set_cases _ _ _ _ _ hj with ⟨_, h2⟩ | ⟨_, h2⟩
    · rw [h2]
      exact hidle
    · exact hinv.no_idle j pos h2
  busy := by
    show w.scheduler.coreStatus.countP _ ≤ (st.workers.set i new).countP _
    rw [hcore]
    exact Nat.le_trans hinv.busy (countP_le_set_of_pos _ _ _ _ (by simpa using hnq))
  workers_length := by
    show (st.workers.set i new).length = _
    rw [List.length_set]
    exact hinv.workers_length

theorem HolderInv_fetch (config : Config) (st : SystemState) (i : Nat) (w1 : World)
    (p : Handle) (hinv : HolderInv config st)
    (hqinv : QueueInv config
      { world :=
          { w1 with
            heap := Function.update w1.heap p ((w1.heap p).setState ProcessState.RUNNING) }
        workers := st.workers.set i (.loopHead p 0)
        called := st.called })
    (hpos : st.workers[i]? = some WorkerAt.queueWait)
    (hg : getNextProcess config st.world = .ok (some p, w1)) :
    HolderInv config
      { world :=
          { w1 with
            heap := Function.update w1.heap p ((w1.heap p).setState ProcessState.RUNNING) }
        workers := st.workers.set i (.loopHead p 0)
        called := st.called } := by
  rcases getNextProcess_ok_cases config st.world w1 (some p) hg with ⟨hr, _⟩ | ⟨hr, _⟩ |
    ⟨p2, c, w0, hr, hc, hp, h1⟩
  · cases hr
  · cases hr
  · cases hr
    obtain ⟨hq, _, _, hs⟩ := policySchedule_some config st.world w0 p hp
    have hrun : w1.scheduler.runningProcesses = st.world.scheduler.runningProcesses ++ [p] := by
      rw [h1]
      show w0.scheduler.runningProcesses ++ [p] = _
      rw [hs]
    have hcore : w1.scheduler.coreStatus = st.world.scheduler.coreStatus.set c true := by
      rw [h1]
      show w0.scheduler.coreStatus.set c true = _
      rw [hs]
    have hpq : p ∈ st.world.scheduler.readyQueue := by
      rw [hq]
      exact List.mem_cons_self _ _
    have hpr : p ∉ st.world.scheduler.runningProcesses := by
      intro hc2
      obtain ⟨j, pos, hj, hpp⟩ := hinv.running_held p hc2
      exact hinv.queue.unheld p hpq j pos hj hpp
    have hlt : i < st.workers.length := by
      by_contra hc2
      rw [List.getElem?_eq_none (by omega)] at hpos
      cases hpos
    refine ⟨hqinv, ?_, ?_, ?_, ?_, ?_, ?_⟩
    · show w1.scheduler.runningProcesses.Nodup
      rw [hrun]
      exact List.Nodup.append hinv.running_nodup (List.nodup_singleton _) (by simpa using hpr)
    · intro j pos q hj hqq
      show q ∈ w1.scheduler.runningProcesses
      rw [hrun]
      rcases getElem?_set_cases _ _ _ _ _ hj with ⟨_, h2⟩ | ⟨_, h2⟩
      · rw [h2] at hqq
        simp only [WorkerAt.process, Option.some.injEq] at hqq
        rw [← hqq]
        exact List.mem_append_right _ (List.mem_singleton_self _)
      · exact List.mem_append_left _ (hinv.held_running j pos q h2 hqq)
    · intro q hqq
      have hqq2 : q ∈ st.world.scheduler.runningProcesses ++ [p] := by rw [← hrun]; exact hqq
      rcases List.mem_append.1 hqq2 with h | h
      · obtain ⟨j, pos, hj, hpp⟩ := hinv.running_held q h
        have hji : j ≠ i := by
          intro he
          rw [he, hpos] at hj
          rw [← Option.some.inj hj] at hpp
          cases hpp
        refine ⟨j, pos, ?_, hpp⟩
        show (st.workers.set i _)[j]? = some pos
        rw [List.getElem?_set_ne (fun h => hji h.symm)]
        exact hj
      · refine ⟨i, .loopHead p 0, ?_, ?_⟩
        · show (st.workers.set i _)[i]? = _
          rw [List.getElem?_set_self hlt]
        · rw [List.mem_singleton.1 h]
          rfl
    · intro j pos hj
      rcases getElem?_set_cases _ _ _ _ _ hj with ⟨_, h2⟩ | ⟨_, h2⟩
      · rw [h2]
        exact ⟨(fun h => by cases h), (fun h => by cases h)⟩
      · exact hinv.no_idle j pos h2
    · show w1.scheduler.coreStatus.countP _ ≤ (st.workers.set i _).countP _
      rw [hcore, countP_set_succ _ st.workers i _ _ hpos (by simp) (by simp)]
      exact Nat.le_trans (countP_set_le_succ _ _ _ _) (Nat.succ_le_succ hinv.busy)
    · show (st.workers.set i _).length = _
      rw [List.length_set]
      exact hinv.workers_length

theorem HolderInv_finishTurn (config : Config) (st : SystemState) (i : Nat) (p : Handle)
    (hinv : HolderInv config st)
    (hqinv : QueueInv config
      { world := endOfTurnLists st.world p, workers := st.workers.set i .relocking
        called := st.called })
    (hpos : st.workers[i]? = some (WorkerAt.turnEnd p)) :
    HolderInv config
      { world := endOfTurnLists st.world p, workers := st.workers.set i .relocking
        called := st.called } := by
  have hrun := endOfTurnLists_running st.world p
  have hcore := (endOfTurnLists_queue st.world p).2.2
  refine ⟨hqinv, ?_, ?_, ?_, ?_, ?_, ?_⟩
  · show (endOfTurnLists st.world p).scheduler.runningProcesses.Nodup
    rw [hrun]
    exact hinv.running_nodup.erase p
  · intro j pos q hj hqq
    show q ∈ (endOfTurnLists st.world p).scheduler.runningProcesses
    rw [hrun]
    rcases getElem?_set_cases _ _ _ _ _ hj with ⟨_, h2⟩ | ⟨hji, h2⟩
    · rw [h2] at hqq
      cases hqq
    · have hne : q ≠ p := by
        intro he
        rw [he] at hqq
        exact hji (hinv.queue.distinct j i pos _ p h2 hpos hqq rfl)
      exact (List.mem_erase_of_ne hne).2 (hinv.held_running j pos q h2 hqq)
  · intro q hqq
    have hqq2 : q ∈ st.world.scheduler.runningProcesses.erase p := by rw [← hrun]; exact hqq
    have hmem := (hinv.running_nodup.mem_erase_iff).1 hqq2
    obtain ⟨j, pos, hj, hpp⟩ := hinv.running_held q hmem.2
    have hji : j ≠ i := by
      intro he
      rw [he, hpos] at hj
      rw [← Option.some.inj hj] at hpp
      simp only [WorkerAt.process, Option.some.injEq] at hpp
      exact hmem.1 hpp.symm
    refine ⟨j, pos, ?_, hpp⟩
    show (st.workers.set i _)[j]? = some pos
    rw [List.getElem?_set_ne (fun h => hji h.symm)]
    exact hj
  · intro j pos hj
    rcases getElem?_set_cases _ _ _ _ _ hj with ⟨_, h2⟩ | ⟨_, h2⟩
    · rw [h2]
      exact ⟨(fun h => by cases h), (fun h => by cases h)⟩
    · exact hinv.no_idle j pos h2
  · show (endOfTurnLists st.world p).scheduler.coreStatus.countP _ ≤ (st.workers.set i _).countP _
    rw [hcore]
    exact Nat.le_trans hinv.busy (countP_le_set_of_pos _ _ _ _ (by simp))
  · show (st.workers.set i _).length = _
    rw [List.length_set]
    exact hinv.workers_length

/-- The admission of a fresh process keeps the invariant of the ready queue. -/
theorem QueueInv_addProcess (config : Config) (st : SystemState) (p : Handle)
    (heap : Handle → Process) (memory : MemoryManager) (hinv : QueueInv config st)
    (hfresh : FreshProcess st p)
    (hheap : ∀ q, (heap q).quantumTime = (st.world.heap q).quantumTime) :
    QueueInv config
      { world := { heap := heap, scheduler := st.world.scheduler.addProcess p, memory := memory }
        workers := st.workers, called := st.called } where
  quantum := by
    intro q hq
    simp only [Scheduler.addProcess, List.mem_append, List.mem_singleton] at hq
    show (heap q).quantumTime = 0
    rw [hheap]
    rcases hq with hq | hq
    · exact hinv.quantum q hq
    · rw [hq]
      exact hfresh.2
  nodup := by
    simp only [Scheduler.addProcess]
    exact List.Nodup.append hinv.nodup (List.nodup_singleton _) (by simpa using hfresh.1.1)
  unheld := by
    intro q hq i pos hi
    simp only [Scheduler.addProcess, List.mem_append, List.mem_singleton] at hq
    rcases hq with hq | hq
    · exact hinv.unheld q hq i pos hi
    · rw [hq]
      exact hfresh.1.2 i pos hi
  distinct := hinv.distinct
  cores := hinv.cores

theorem QueueInv_allocateMemory (config : Config) (st : SystemState) (lockAcquired : Bool)
    (p : Handle) (hinv : QueueInv config st) (hfresh : FreshProcess st p) :
    QueueInv config
      { world := (allocateMemory config lockAcquired (some p) st.world).2
        workers := st.workers, called := st.called } := by
  rcases allocateMemory_scheduler config lockAcquired p st.world with ⟨e1, e2⟩ | ⟨e1, e2⟩
  · exact QueueInv_world config st _ _ hinv (by rw [e2]) (fun q _ => by rw [e1])
      (by rw [e2])
  · have h := QueueInv_addProcess config st p
      (allocateMemory config lockAcquired (some p) st.world).2.heap
      (allocateMemory config lockAcquired (some p) st.world).2.memory hinv hfresh
      (by
        intro q
        rw [e1]
        by_cases hq : q = p
        · rw [hq, Function.update_same]
          rfl
        · rw [Function.update_noteq hq])
    rw [← e2] at h
    exact h

theorem HolderInv_initialState (config : Config) (heap : Handle → Process)
    (memory : MemoryManager) : HolderInv config (initialState config heap memory) where
  queue := QueueInv_initialState config heap memory
  running_nodup := List.nodup_nil
  held_running := by
    intro i pos p hi hp
    simp only [initialState] at hi
    have := List.getElem?_mem hi
    rw [List.mem_replicate] at this
    rw [this.2] at hp
    cases hp
  running_held := by
    intro p hp
    cases hp
  no_idle := by
    intro i pos hi
    simp only [initialState] at hi
    have := List.getElem?_mem hi
    rw [List.mem_replicate] at this
    rw [this.2]
    exact ⟨(fun h => by cases h), (fun h => by cases h)⟩
  busy := by
    have h0 : (List.replicate config.numCPU.toNat false).countP (fun b => b) = 0 := by
      rw [List.countP_eq_zero]
      intro b hb
      rw [(List.mem_replicate.1 hb).2]
      simp
    show (List.replicate config.numCPU.toNat false).countP (fun b => b) ≤ _
    rw [h0]
    exact Nat.zero_le _
  workers_length := by
    simp [initialState]

theorem HolderInv_create (config : Config) (st : SystemState) (pm pm2 : ProcessManager)
    (newHandle : Handle) (outcome : TryOutcome) (name : String) (raised : Option RuntimeError)
    (w2 : World) (hinv : HolderInv config st) (hfresh : FreshHandle st newHandle)
    (h : createProcess newHandle outcome name pm st.world = (raised, pm2, w2)) :
    HolderInv config { st with world := w2 } := by
  have hq := QueueInv_create config st pm pm2 newHandle outcome name raised w2 hinv.queue
    hfresh h
  rcases createProcess_world newHandle outcome name pm pm2 st.world w2 raised h with
    h2 | ⟨lines, h2⟩ | ⟨lines, h2⟩
  · exact HolderInv_world config st w2 st.called hinv hq (by rw [h2]) (by rw [h2])
  · exact HolderInv_world config st w2 st.called hinv hq (by rw [h2]) (by rw [h2])
  · exact HolderInv_world config st w2 st.called hinv hq (by rw [h2]; rfl) (by rw [h2]; rfl)

/-- Every step of a thread keeps the invariant when the quantum limit is at
least 1 and a process that is admitted is fresh. -/
theorem HolderInv_step (config : Config) (st st2 : SystemState) (a : ThreadStep)
    (hq : 1 ≤ config.quantumCycles) (hinv : HolderInv config st)
    (hna : ∀ p, a = .addProcess p → FreshProcess st p)
    (hnb : ∀ lockAcquired p, a = .allocateMemory lockAcquired p → FreshProcess st p)
    (hs : threadStep config st a = some st2) : HolderInv config st2 := by
  cases a with
  | addProcess p =>
    simp only [threadStep] at hs
    split at hs
    · rw [← Option.some.inj hs]
      exact HolderInv_world config st _ _ hinv
        (QueueInv_addProcess config st p _ _ hinv.queue (hna p rfl) (fun _ => rfl)) rfl rfl
    · cases hs
  | allocateMemory lockAcquired p =>
    simp only [threadStep] at hs
    split at hs
    · rw [← Option.some.inj hs]
      refine HolderInv_world config st _ _ hinv
        (QueueInv_allocateMemory config st lockAcquired p hinv.queue (hnb lockAcquired p rfl))
        ?_ ?_
      · rcases allocateMemory_scheduler config lockAcquired p st.world with ⟨_, e2⟩ | ⟨_, e2⟩
        · rw [e2]
        · rw [e2]; rfl
      · rcases allocateMemory_scheduler config lockAcquired p st.world with ⟨_, e2⟩ | ⟨_, e2⟩
        · rw [e2]
        · rw [e2]; rfl
    · cases hs
  | fetch i =>
    have hq2 := QueueInv_threadStep config st st2 (.fetch i) hinv.queue
      (fun p h => by cases h) (fun l p h => by cases h) hs
    simp only [threadStep] at hs
    split at hs
    · rename_i hpos
      split at hs
      · rename_i hguard
        have hne : st.world.scheduler.readyQueue.isEmpty = false := by
          simp only [Bool.and_eq_true, Bool.not_eq_true'] at hguard
          exact hguard.2
        obtain ⟨p0, w0, hg0⟩ := getNextProcess_of_HolderInv config st i hq hinv hpos hne
        split at hs
        · cases hs
        · rename_i w1 hg
          rw [hg0] at hg
          cases hg
        · rename_i p w1 hg
          rw [← Option.some.inj hs] at hq2 ⊢
          exact HolderInv_fetch config st i w1 p hinv hq2 hpos hg
      · cases hs
    · cases hs
  | round i =>
    have hq2 := QueueInv_threadStep config st st2 (.round i) hinv.queue
      (fun p h => by cases h) (fun l p h => by cases h) hs
    simp only [threadStep] at hs
    split at hs
    · rename_i p d hpos
      split at hs
      · rw [← Option.some.inj hs] at hq2 ⊢
        exact HolderInv_move config st st.world i _ _ _ hinv hq2 hpos rfl rfl rfl
          (fun h => by cases h) ⟨(fun h => by cases h), (fun h => by cases h)⟩
      · rw [← Option.some.inj hs] at hq2 ⊢
        exact HolderInv_move config st _ i _ _ _ hinv hq2 hpos rfl
          (by rw [instructionRound_scheduler]) (by rw [instructionRound_scheduler])
          (fun h => by cases h) ⟨(fun h => by cases h), (fun h => by cases h)⟩
    · cases hs
  | sync i =>
    have hq2 := QueueInv_threadStep config st st2 (.sync i) hinv.queue
      (fun p h => by cases h) (fun l p h => by cases h) hs
    simp only [threadStep] at hs
    split at hs
    · rename_i held hpos
      rw [← Option.some.inj hs] at hq2 ⊢
      cases held with
      | none => exact absurd rfl (hinv.no_idle i _ hpos).1
      | some pd =>
        obtain ⟨p, d⟩ := pd
        refine HolderInv_move config st _ i _ _ _ hinv hq2 hpos ?_
          (waitForCycleSync_running _) (waitForCycleSync_lists _).2 ?_ ?_
        · split <;> rfl
        · split
          · exact fun h => by cases h
          · exact fun h => by cases h
        · split
          · exact ⟨(fun h => by cases h), (fun h => by cases h)⟩
          · exact ⟨(fun h => by cases h), (fun h => by cases h)⟩
    · cases hs
  | wake i =>
    have hq2 := QueueInv_threadStep config st st2 (.wake i) hinv.queue
      (fun p h => by cases h) (fun l p h => by cases h) hs
    simp only [threadStep] at hs
    split at hs
    · rename_i held hpos
      split at hs
      · rw [← Option.some.inj hs] at hq2 ⊢
        cases held with
        | none => exact absurd rfl (hinv.no_idle i _ hpos).2
        | some pd =>
          obtain ⟨p, d⟩ := pd
          exact HolderInv_move config st st.world i _ _ _ hinv hq2 hpos rfl rfl rfl
            (fun h => by cases h) ⟨(fun h => by cases h), (fun h => by cases h)⟩
      · cases hs
    · cases hs
  | finishTurn i =>
    have hq2 := QueueInv_threadStep config st st2 (.finishTurn i) hinv.queue
      (fun p h => by cases h) (fun l p h => by cases h) hs
    simp only [threadStep, endOfTurn_eq_none] at hs
    split at hs
    · rename_i p hpos
      split at hs
      · rw [← Option.some.inj hs] at hq2 ⊢
        exact HolderInv_finishTurn config st i p hinv hq2 hpos
      · cases hs
    · cases hs
  | tick =>
    have hq2 := QueueInv_threadStep config st st2 .tick hinv.queue
      (fun p h => by cases h) (fun l p h => by cases h) hs
    simp only [threadStep] at hs
    rw [← Option.some.inj hs] at hq2 ⊢
    exact HolderInv_world config st _ _ hinv hq2 (cycleCounterTick_running _)
      (cycleCounterTick_lists _).2

theorem HolderInv_of_reachable (config : Config) (st : SystemState)
    (hq : 1 ≤ config.quantumCycles) (h : FreshReachable config st) : HolderInv config st := by
  induction h with
  | init heap memory => exact HolderInv_initialState config heap memory
  | create st pm pm2 newHandle outcome name raised w2 _ hfresh hc ih =>
    exact HolderInv_create config st pm pm2 newHandle outcome name raised w2 ih hfresh hc
  | step st st2 a _ hna hnb hs ih => exact HolderInv_step config st st2 a hq ih hna hnb hs

theorem BarrierInv_of_fresh (config : Config) (st : SystemState)
    (h : FreshReachable config st) : BarrierInv st := by
  induction h with
  | init heap memory => exact BarrierInv_initialState config heap memory
  | create st pm pm2 newHandle outcome name raised w2 _ _ hc ih =>
    refine BarrierInv_world st w2 ih ?_
    rcases createProcess_world newHandle outcome name pm pm2 st.world w2 raised hc with
      h2 | ⟨lines, h2⟩ | ⟨lines, h2⟩
    · rw [h2]
    · rw [h2]
    · rw [h2]
      rfl
  | step st st2 a _ _ _ hs ih => exact BarrierInv_step config st st2 a ih hs

/-- A worker that holds a process holds a process of the running list, in the
wider sense of `WorkerAt.process`; `HoldsRunning` is the case of the positions
inside the inner loop. -/
theorem HoldsRunning_process (st : SystemState) (i : Nat) (h : HoldsRunning st i) :
    ∃ pos p, st.workers[i]? = some pos ∧ pos.process = some p ∧
      p ∈ st.world.scheduler.runningProcesses := by
  obtain ⟨p, d, hp, h1 | h1 | h1⟩ := h
  · exact ⟨_, p, h1, rfl, hp⟩
  · exact ⟨_, p, h1, rfl, hp⟩
  · exact ⟨_, p, h1, rfl, hp⟩

/-- When as many workers as the running list is long hold a process each, every
worker that holds a process is one of them. -/
theorem holders_cover (config : Config) (st : SystemState) (hinv : HolderInv config st)
    (l : List Nat) (hnd : l.Nodup)
    (hhold : ∀ k ∈ l, ∃ pos p, st.workers[k]? = some pos ∧ pos.process = some p)
    (hlen : st.world.scheduler.runningProcesses.length ≤ l.length) :
    ∀ (j : Nat) (pos : WorkerAt) (p : Handle), st.workers[j]? = some pos →
      pos.process = some p → j ∈ l := by
  have hf : ∀ k ∈ l, ∀ pos p, st.workers[k]? = some pos → pos.process = some p →
      ((st.workers[k]?).bind WorkerAt.process).getD 0 = p := by
    intro k _ pos p hk hp
    rw [hk]
    show (pos.process).getD 0 = p
    rw [hp]
    rfl
  have hnodup : (l.map (fun k => ((st.workers[k]?).bind WorkerAt.process).getD 0)).Nodup := by
    apply List.Nodup.map_on _ hnd
    intro x hx y hy hxy
    obtain ⟨pos1, p1, h1, hp1⟩ := hhold x hx
    obtain ⟨pos2, p2, h2, hp2⟩ := hhold y hy
    simp only [hf x hx pos1 p1 h1 hp1, hf y hy pos2 p2 h2 hp2] at hxy
    rw [← hxy] at hp2
    exact hinv.queue.distinct x y pos1 pos2 p1 h1 h2 hp1 hp2
  have hsub : l.map (fun k => ((st.workers[k]?).bind WorkerAt.process).getD 0) ⊆
      st.world.scheduler.runningProcesses := by
    intro q hq
    obtain ⟨k, hk, hkq⟩ := List.mem_map.1 hq
    obtain ⟨pos, p, h1, hp⟩ := hhold k hk
    simp only [hf k hk pos p h1 hp] at hkq
    rw [← hkq]
    exact hinv.held_running k pos p h1 hp
  have hperm := (List.subperm_of_subset hnodup hsub).perm_of_length_le
    (by rw [List.length_map]; exact hlen)
  intro j pos p hj hp
  have hmem : p ∈ l.map (fun k => ((st.workers[k]?).bind WorkerAt.process).getD 0) :=
    hperm.mem_iff.2 (hinv.held_running j pos p hj hp)
  obtain ⟨k, hk, hkq⟩ := List.mem_map.1 hmem
  obtain ⟨pos2, p2, h2, hp2⟩ := hhold k hk
  simp only [hf k hk pos2 p2 h2 hp2] at hkq
  rw [hkq] at hp2
  rw [hinv.queue.distinct j k pos pos2 p hj h2 hp hp2]
  exact hk

theorem FreshHandle_of_idle (st : SystemState) (p : Handle)
    (hq : p ∉ st.world.scheduler.readyQueue)
    (hw : ∀ pos ∈ st.workers, pos.process = none) : FreshHandle st p := by
  refine ⟨hq, ?_⟩
  intro i pos hi
  rw [hw pos (List.getElem?_mem hi)]
  exact fun h => by cases h

theorem FreshReachable_afterSteps (config : Config) (steps : List ThreadStep)
    (hsteps : ∀ a ∈ steps, (∀ p, a ≠ .addProcess p) ∧
      ∀ lockAcquired p, a ≠ .allocateMemory lockAcquired p) :
    ∀ st, FreshReachable config st → FreshReachable config (afterSteps config steps st) := by
  induction steps with
  | nil => intro st h; exact h
  | cons a rest ih =>
    intro st h
    have hrest : ∀ b ∈ rest, (∀ p, b ≠ .addProcess p) ∧
        ∀ lockAcquired p, b ≠ .allocateMemory lockAcquired p :=
      fun b hb => hsteps b (List.mem_cons_of_mem _ hb)
    have ha := hsteps a (List.mem_cons_self _ _)
    simp only [afterSteps]
    cases hs : threadStep config st a with
    | none => exact ih hrest st h
    | some st2 =>
      exact ih hrest st2 (FreshReachable.step st st2 a h
        (fun p hp => absurd hp (ha.1 p)) (fun l p hp => absurd hp (ha.2 l p)) hs)

theorem FreshReachable_freshlyAdmittedState :
    FreshReachable (schedulerConfig 2 "fcfs" 2) freshlyAdmittedState :=
  FreshReachable.step
    { initialState (schedulerConfig 2 "fcfs" 2) (twoProcessHeap 3)
        (MemoryManager.ctor (schedulerConfig 2 "fcfs" 2)) with
      world :=
        { heap := twoProcessHeap 3
          scheduler := (Scheduler.ctor (schedulerConfig 2 "fcfs" 2)).addProcess 1
          memory := MemoryManager.ctor (schedulerConfig 2 "fcfs" 2) } }
    freshlyAdmittedState (.addProcess 2)
    (FreshReachable.step _ _ (.addProcess 1) (FreshReachable.init _ _)
      (fun p hp => by
        cases hp
        exact ⟨FreshHandle_initialState _ _ _ 1, rfl⟩)
      (fun l p hp => by cases hp) rfl)
    (fun p hp => by
      cases hp
      exact ⟨FreshHandle_of_idle _ 2 (by decide) (by decide), rfl⟩)
    (fun l p hp => by cases hp) rfl

theorem FreshReachable_quorumState :
    FreshReachable (schedulerConfig 2 "fcfs" 2) quorumState :=
  FreshReachable_afterSteps _ _
    (by
      intro a ha
      simp only [List.mem_cons, List.mem_singleton, List.not_mem_nil, or_false] at ha
      rcases ha with h | h | h | h | h <;> rw [h] <;>
        exact ⟨(fun p hp => by cases hp), (fun l p hp => by cases hp)⟩)
    _ FreshReachable_freshlyAdmittedState

/-! ## The claims -/

/-- **C1.** For a footprint of `k >= 1` frames, `findFirstFit` returns the
smallest index `s` at which frames `s .. s+k-1` all exist and are free, it
returns `frames.size()` exactly when there is no such index, and every call of
`allocateMemory` that allocates records that index as the start frame of the
new entry and marks the `k` frames from it with the name of the process. -/
theorem C1_findFirstFit_lowest_free_run (m : MemoryManager) (hk : 1 ≤ m.framesPerProcess) :
    ((∃ t, FreeRunAt m.frames m.framesPerProcess t) →
        FreeRunAt m.frames m.framesPerProcess m.findFirstFit ∧
        ∀ t, FreeRunAt m.frames m.framesPerProcess t → m.findFirstFit ≤ t) ∧
    (m.findFirstFit = m.frames.length ↔ ¬ ∃ t, FreeRunAt m.frames m.framesPerProcess t) ∧
    (∀ (config : Config) (lockAcquired : Bool) (p : Handle) (w : World), w.memory = m →
        (allocateMemory config lockAcquired (some p) w).1 = true →
        (mapFind (w.heap p).name
            (allocateMemory config lockAcquired (some p) w).2.memory.processMemoryMap).map
              ProcessMemoryInfo.startFrame = some m.findFirstFit ∧
        ∀ i, i < m.framesPerProcess →
          ((allocateMemory config lockAcquired (some p) w).2.memory.frames[
              m.findFirstFit + i]?).map Frame.status = some (false, (w.heap p).name)) := by
  refine ⟨?_, ?_, ?_⟩
  · rintro ⟨t, ht⟩
    rcases findFirstFit_spec m hk with ⟨_, h1⟩ | h2
    · exact absurd ht (h1 t)
    · exact h2
  · constructor
    · rintro h ⟨t, ht⟩
      have := ht.run_le_length hk
      rcases findFirstFit_spec m hk with ⟨_, h1⟩ | h2
      · exact h1 t ht
      · have := h2.1.run_le_length hk
        omega
    · intro h
      exact findFirstFit_no_fit m (fun t ht => h ⟨t, ht⟩)
  · intro config lockAcquired p w hw hres
    subst hw
    cases lockAcquired with
    | false => exact absurd hres (by simp [allocateMemory])
    | true =>
      by_cases hfit : w.memory.findFirstFit = w.memory.frames.length
      · rw [allocateMemory_of_no_fit config p w hfit] at hres
        by_cases hrr : config.schedulerType = "rr" <;> simp [hrr] at hres
      · rw [allocateMemory_of_fit config p w hfit]
        obtain ⟨_, hrun, _⟩ := findFirstFit_fit w.memory hfit
        refine ⟨?_, fun i hi => ?_⟩
        · simp [MemoryManager.allocated, MemoryManager.updateFragmentation,
            mapFind_mapAssign_self]
        · have hlt := (hrun i hi).free_lt_length
          simp only [MemoryManager.allocated, MemoryManager.updateFragmentation,
            allocateFrames_getElem?]
          rw [if_pos ⟨by omega, by omega, hlt⟩]
          rfl

/-- Witness of C1 on `exampleMemory`: the first run of three free frames starts
at frame 4. -/
theorem C1_findFirstFit_lowest_free_run_witness :
    1 ≤ exampleMemory.framesPerProcess ∧ exampleMemory.findFirstFit = 4 ∧
      FreeRunAt exampleMemory.frames 3 exampleMemory.findFirstFit ∧
      ∀ t, FreeRunAt exampleMemory.frames 3 t → exampleMemory.findFirstFit ≤ t :=
  ⟨by decide, by decide,
    (C1_findFirstFit_lowest_free_run exampleMemory (by decide)).1 ⟨4, by decide⟩⟩

/-- **C2 (as amended).** When `findFirstFit` finds a fit at start frame `s` and
the call acquires the memory lock, `allocateMemory` for a non-null process
named `n` returns true; the frames `s .. s+k-1` were free and are each
rewritten to not free, owner `n`, addresses `[i*frameSize, (i+1)*frameSize-1]`;
every other frame is unchanged; the map holds for `n` the entry
`(s, k, s*frameSize, (s+k)*frameSize-1)`; and `n` is in the resident set. -/
theorem C2_allocateMemory_success_with_lock (config : Config) (p : Handle) (w : World)
    (s : Nat) (hs : w.memory.findFirstFit = s) (hfit : s ≠ w.memory.frames.length) :
    (allocateMemory config true (some p) w).1 = true ∧
    (allocateMemory config true (some p) w).2.memory.frames.length = w.memory.frames.length ∧
    (∀ i, s ≤ i → i < s + w.memory.framesPerProcess →
        FreeAt w.memory.frames i ∧
        (allocateMemory config true (some p) w).2.memory.frames[i]? =
          some { processName := (w.heap p).name
                 isFree := false
                 startAddress := i * w.memory.frameSize
                 endAddress := (i + 1) * w.memory.frameSize - 1 }) ∧
    (∀ i, (i < s ∨ s + w.memory.framesPerProcess ≤ i) →
        (allocateMemory config true (some p) w).2.memory.frames[i]? = w.memory.frames[i]?) ∧
    mapFind (w.heap p).name (allocateMemory config true (some p) w).2.memory.processMemoryMap =
      some { startFrame := s
             numFrames := w.memory.framesPerProcess
             startAddress := s * w.memory.frameSize
             endAddress := (s + w.memory.framesPerProcess) * w.memory.frameSize - 1 } ∧
    (w.heap p).name ∈ (allocateMemory config true (some p) w).2.memory.processesInMemory := by
  subst hs
  obtain ⟨_, hrun, _⟩ := findFirstFit_fit w.memory hfit
  rw [allocateMemory_of_fit config p w hfit]
  simp only [MemoryManager.allocated, MemoryManager.updateFragmentation,
    allocateFrames_length, allocateFrames_getElem?, mapFind_mapAssign_self]
  refine ⟨trivial, trivial, fun i h1 h2 => ?_, fun i h => ?_, trivial, mem_setInsert_self _ _⟩
  · have hfree : FreeAt w.memory.frames i := by
      have := hrun (i - w.memory.findFirstFit) (by omega)
      rwa [show w.memory.findFirstFit + (i - w.memory.findFirstFit) = i by omega] at this
    refine ⟨hfree, ?_⟩
    rw [if_pos ⟨h1, h2, hfree.free_lt_length⟩]
    rfl
  · rw [if_neg (by omega)]

/-- Witness of C2 (as amended): allocating `P1` in `exampleMemory`, where the
fit is at frame 4. -/
theorem C2_allocateMemory_success_with_lock_witness :
    (exampleWorld exampleMemory).memory.findFirstFit = 4 ∧
    4 ≠ (exampleWorld exampleMemory).memory.frames.length ∧
    (allocateMemory (exampleConfig "rr" 112 16 48) true (some 1)
      (exampleWorld exampleMemory)).1 = true ∧
    mapFind "P1" (allocateMemory (exampleConfig "rr" 112 16 48) true (some 1)
      (exampleWorld exampleMemory)).2.memory.processMemoryMap =
      some { startFrame := 4, numFrames := 3, startAddress := 64, endAddress := 111 } :=
  ⟨by decide, by decide,
    (C2_allocateMemory_success_with_lock (exampleConfig "rr" 112 16 48) 1
      (exampleWorld exampleMemory) 4 (by decide) (by decide)).1,
    (C2_allocateMemory_success_with_lock (exampleConfig "rr" 112 16 48) 1
      (exampleWorld exampleMemory) 4 (by decide) (by decide)).2.2.2.2.1⟩

/-- Counterexample to C2 as stated: in `exampleMemory` a fit exists at frame 4
and the process is not null, yet the call whose `try_lock_for` times out
returns false and `P1` gets no entry. -/
theorem C2_counterexample_lock_timeout :
    (exampleWorld exampleMemory).memory.findFirstFit = 4 ∧
    4 ≠ (exampleWorld exampleMemory).memory.frames.length ∧
    FreeRunAt (exampleWorld exampleMemory).memory.frames 3 4 ∧
    (allocateMemory (exampleConfig "rr" 112 16 48) false (some 1)
      (exampleWorld exampleMemory)).1 = false ∧
    mapFind "P1" (allocateMemory (exampleConfig "rr" 112 16 48) false (some 1)
      (exampleWorld exampleMemory)).2.memory.processMemoryMap = none :=
  ⟨by decide, by decide, by decide, by decide, by decide⟩

/-- **C3 (as amended).** A null process handle makes `allocateMemory` return
false with the world unchanged, and so does a call that does not acquire the
memory lock.  When no run of `framesPerProcess` free frames exists, a call for
a non-null process that acquires the lock returns false and leaves the memory
manager (frames, map, resident set, fragmentation) unchanged; under `"rr"` the
state of the process becomes `READY`, no other process changes, and the process
is appended at the tail of the ready queue; under `"fcfs"` the processes and the
scheduler are unchanged. -/
theorem C3_allocateMemory_no_fit_with_lock (config : Config) (w : World) :
    (∀ lockAcquired, allocateMemory config lockAcquired none w = (false, w)) ∧
    (∀ p : Handle, allocateMemory config false (some p) w = (false, w)) ∧
    ((∀ s, ¬ FreeRunAt w.memory.frames w.memory.framesPerProcess s) → ∀ p : Handle,
      (allocateMemory config true (some p) w).1 = false ∧
      (allocateMemory config true (some p) w).2.memory = w.memory ∧
      (config.schedulerType = "rr" →
        (allocateMemory config true (some p) w).2.heap p =
          { w.heap p with state := ProcessState.READY } ∧
        (∀ q, q ≠ p → (allocateMemory config true (some p) w).2.heap q = w.heap q) ∧
        (allocateMemory config true (some p) w).2.scheduler =
          { w.scheduler with readyQueue := w.scheduler.readyQueue ++ [p] }) ∧
      (config.schedulerType = "fcfs" →
        (allocateMemory config true (some p) w).2.heap = w.heap ∧
        (allocateMemory config true (some p) w).2.scheduler = w.scheduler)) := by
  refine ⟨fun _ => rfl, fun _ => rfl, fun hno p => ?_⟩
  rw [allocateMemory_of_no_fit config p w (findFirstFit_no_fit w.memory hno)]
  by_cases hrr : config.schedulerType = "rr"
  · rw [if_pos hrr]
    refine ⟨rfl, rfl, fun _ => ⟨?_, fun q hq => ?_, rfl⟩, fun h => ?_⟩
    · simp [Process.setState]
    · simp [Function.update, hq]
    · rw [hrr] at h
      exact absurd h (by decide)
  · rw [if_neg hrr]
    exact ⟨rfl, rfl, fun h => absurd h hrr, fun _ => ⟨rfl, rfl⟩⟩

/-- Witness of C3 (as amended): `fullMemory` has no run of two free frames;
under `"rr"` the call that acquires the lock returns false and puts the process
of handle 1 on the ready queue. -/
theorem C3_allocateMemory_no_fit_with_lock_witness :
    (∀ s, ¬ FreeRunAt (exampleWorld fullMemory).memory.frames
      (exampleWorld fullMemory).memory.framesPerProcess s) ∧
    (allocateMemory (exampleConfig "rr" 48 16 32) true (some 1) (exampleWorld fullMemory)).1
      = false ∧
    (allocateMemory (exampleConfig "rr" 48 16 32) true (some 1)
      (exampleWorld fullMemory)).2.scheduler.readyQueue = [1] :=
  ⟨no_fit_of_findFirstFit fullMemory (by decide) (by decide),
    ((C3_allocateMemory_no_fit_with_lock (exampleConfig "rr" 48 16 32)
      (exampleWorld fullMemory)).2.2
      (no_fit_of_findFirstFit fullMemory (by decide) (by decide)) 1).1,
    by
      rw [(((C3_allocateMemory_no_fit_with_lock (exampleConfig "rr" 48 16 32)
        (exampleWorld fullMemory)).2.2
        (no_fit_of_findFirstFit fullMemory (by decide) (by decide)) 1).2.2.1 rfl).2.2]
      rfl⟩

/-- Counterexample to C3 as stated: `fullMemory` has no run of two free frames,
the policy is `"rr"` and the process of handle 1 is `RUNNING`; the call whose
`try_lock_for` times out returns false, but the process stays `RUNNING` and the
ready queue stays empty. -/
theorem C3_counterexample_lock_timeout :
    (∀ s, ¬ FreeRunAt fullMemory.frames fullMemory.framesPerProcess s) ∧
    (exampleConfig "rr" 48 16 32).schedulerType = "rr" ∧
    (allocateMemory (exampleConfig "rr" 48 16 32) false (some 1)
      { heap := runningHeap, scheduler := idleScheduler 1, memory := fullMemory }).1 = false ∧
    ((allocateMemory (exampleConfig "rr" 48 16 32) false (some 1)
      { heap := runningHeap, scheduler := idleScheduler 1, memory := fullMemory }).2.heap
        1).state = ProcessState.RUNNING ∧
    (allocateMemory (exampleConfig "rr" 48 16 32) false (some 1)
      { heap := runningHeap, scheduler := idleScheduler 1, memory := fullMemory }
      ).2.scheduler.readyQueue = [] :=
  ⟨no_fit_of_findFirstFit fullMemory (by decide) (by decide), by decide, by decide, by decide,
    by decide⟩

/-- **C4.** `getExternalFragmentation` equals the sum, over every maximal run
of consecutive free frames whose length is strictly less than
`framesPerProcess`, of run length times `frameSize`; runs of length at least
`framesPerProcess`, the run at the end of the table included, add nothing. -/
theorem C4_getExternalFragmentation_sum_of_short_runs (m : MemoryManager) :
    m.getExternalFragmentation =
      specExternalFragmentation m.frames m.framesPerProcess m.frameSize := by
  rw [specExternalFragmentation_eq_runSum]
  simp [MemoryManager.getExternalFragmentation, fragmentationLoop_eq]

/-- **C5.** With `totalFrames = 10` and `framesPerProcess = 4` (which forces
`frameSize > 0`), starting from the freshly constructed manager: two calls that
acquire the lock allocate `P1` and then `P2`; and whenever `P1` and then `P2`
are allocated, `P1` holds frames 0..3, `P2` holds frames 4..7, frames 8..9 are
free and `getExternalFragmentation` is `2 * frameSize`; releasing `P1`
afterwards frees frames 0..3 and `getExternalFragmentation` is still
`2 * frameSize`. -/
theorem C5_fragmentation_scenario (config : Config) (heap : Handle → Process)
    (scheduler : Scheduler) (p1 p2 : Handle)
    (hT : config.maxOverallMem / config.memPerFrame = 10)
    (hk : config.memPerProc / config.memPerFrame = 4)
    (hne : (heap p1).name ≠ (heap p2).name) :
    (allocateTwice config true true p1 p2 (freshWorld config heap scheduler)).1 = true ∧
    (allocateTwice config true true p1 p2 (freshWorld config heap scheduler)).2.1 = true ∧
    ∀ lock1 lock2 : Bool,
      (allocateTwice config lock1 lock2 p1 p2 (freshWorld config heap scheduler)).1 = true →
      (allocateTwice config lock1 lock2 p1 p2 (freshWorld config heap scheduler)).2.1 = true →
      (allocateTwice config lock1 lock2 p1 p2
          (freshWorld config heap scheduler)).2.2.memory.frames.map Frame.status =
        [(false, (heap p1).name), (false, (heap p1).name), (false, (heap p1).name),
          (false, (heap p1).name), (false, (heap p2).name), (false, (heap p2).name),
          (false, (heap p2).name), (false, (heap p2).name), (true, ""), (true, "")] ∧
      (allocateTwice config lock1 lock2 p1 p2
          (freshWorld config heap scheduler)).2.2.memory.getExternalFragmentation
        = 2 * config.memPerFrame ∧
      ((allocateTwice config lock1 lock2 p1 p2
          (freshWorld config heap scheduler)).2.2.memory.releaseMemory
            (heap p1).name).frames.map Frame.status =
        [(true, ""), (true, ""), (true, ""), (true, ""), (false, (heap p2).name),
          (false, (heap p2).name), (false, (heap p2).name), (false, (heap p2).name),
          (true, ""), (true, "")] ∧
      ((allocateTwice config lock1 lock2 p1 p2
          (freshWorld config heap scheduler)).2.2.memory.releaseMemory
            (heap p1).name).getExternalFragmentation = 2 * config.memPerFrame := by
  have e1 : allocateMemory config true (some p1) (freshWorld config heap scheduler) =
      (true, { heap := heap, scheduler := scheduler
               memory := (MemoryManager.ctor config).allocated (heap p1).name }) := by
    rw [allocateMemory_of_fit]
    · rfl
    · simp [freshWorld, MemoryManager.ctor, hT, hk, MemoryManager.updateFragmentation,
        MemoryManager.findFirstFit, List.replicate, findFirstFitLoop]
  have hm1 : (MemoryManager.ctor config).allocated (heap p1).name =
      { totalFrames := 10, frameSize := config.memPerFrame, processSize := config.memPerProc
        framesPerProcess := 4
        processMemoryMap := [((heap p1).name,
          { startFrame := 0, numFrames := 4, startAddress := 0
            endAddress := 4 * config.memPerFrame - 1 })]
        frames := [allocatedFrame (heap p1).name config.memPerFrame 0,
          allocatedFrame (heap p1).name config.memPerFrame 1,
          allocatedFrame (heap p1).name config.memPerFrame 2,
          allocatedFrame (heap p1).name config.memPerFrame 3, {}, {}, {}, {}, {}, {}]
        currentFragmentation := 0
        processesInMemory := [(heap p1).name] } := by
    simp [MemoryManager.allocated, MemoryManager.ctor, hT, hk, MemoryManager.updateFragmentation,
      MemoryManager.findFirstFit, List.replicate, findFirstFitLoop, allocateFrames,
      allocatedFrame, mapAssign, setInsert, MemoryManager.getExternalFragmentation,
      fragmentationLoop]
  have hfit2 : ((MemoryManager.ctor config).allocated (heap p1).name).findFirstFit = 4 := by
    rw [hm1]
    simp [MemoryManager.findFirstFit, findFirstFitLoop, allocatedFrame]
  have e2 : allocateMemory config true (some p2)
      { heap := heap, scheduler := scheduler
        memory := (MemoryManager.ctor config).allocated (heap p1).name } =
      (true, { heap := heap, scheduler := scheduler
               memory := ((MemoryManager.ctor config).allocated (heap p1).name).allocated
                 (heap p2).name }) := by
    rw [allocateMemory_of_fit]
    · simp only [hfit2]
      rw [hm1]
      simp
  have hm2 : ((MemoryManager.ctor config).allocated (heap p1).name).allocated (heap p2).name =
      { totalFrames := 10, frameSize := config.memPerFrame, processSize := config.memPerProc
        framesPerProcess := 4
        processMemoryMap := [((heap p1).name,
          { startFrame := 0, numFrames := 4, startAddress := 0
            endAddress := 4 * config.memPerFrame - 1 }),
          ((heap p2).name,
          { startFrame := 4, numFrames := 4, startAddress := 4 * config.memPerFrame
            endAddress := 8 * config.memPerFrame - 1 })]
        frames := [allocatedFrame (heap p1).name config.memPerFrame 0,
          allocatedFrame (heap p1).name config.memPerFrame 1,
          allocatedFrame (heap p1).name config.memPerFrame 2,
          allocatedFrame (heap p1).name config.memPerFrame 3,
          allocatedFrame (heap p2).name config.memPerFrame 4,
          allocatedFrame (heap p2).name config.memPerFrame 5,
          allocatedFrame (heap p2).name config.memPerFrame 6,
          allocatedFrame (heap p2).name config.memPerFrame 7, {}, {}]
        currentFragmentation := 2 * config.memPerFrame
        processesInMemory := [(heap p1).name, (heap p2).name] } := by
    rw [MemoryManager.allocated, hfit2, hm1]
    simp [MemoryManager.updateFragmentation, allocateFrames,
      allocatedFrame, mapAssign, setInsert, MemoryManager.getExternalFragmentation,
      fragmentationLoop, hne, Ne.symm hne]
  refine ⟨by simp only [allocateTwice, e1, e2], by simp only [allocateTwice, e1, e2], ?_⟩
  intro lock1 lock2 h1 h2
  cases lock1
  · simp [allocateTwice, allocateMemory] at h1
  cases lock2
  · simp [allocateTwice, allocateMemory] at h2
  clear h1 h2
  simp only [allocateTwice, e1, e2, hm2]
  refine ⟨?_, ?_, ?_, ?_⟩
  · simp [Frame.status, allocatedFrame]
  · simp [MemoryManager.getExternalFragmentation, fragmentationLoop, allocatedFrame]
  · simp [MemoryManager.releaseMemory, mapFind, MemoryManager.updateFragmentation,
      releaseFrames, Frame.status, allocatedFrame]
  · simp [MemoryManager.releaseMemory, mapFind, MemoryManager.updateFragmentation,
      releaseFrames, MemoryManager.getExternalFragmentation, fragmentationLoop, allocatedFrame]

/-- Witness of C5: frames of 16 bytes, `P1` and `P2` from `exampleHeap`. -/
theorem C5_fragmentation_scenario_witness :
    (exampleConfig "fcfs" 160 16 64).maxOverallMem / (exampleConfig "fcfs" 160 16 64).memPerFrame
      = 10 ∧
    (exampleConfig "fcfs" 160 16 64).memPerProc / (exampleConfig "fcfs" 160 16 64).memPerFrame
      = 4 ∧
    (exampleHeap 1).name ≠ (exampleHeap 2).name ∧
    (allocateTwice (exampleConfig "fcfs" 160 16 64) true true 1 2
      (freshWorld (exampleConfig "fcfs" 160 16 64) exampleHeap
        (idleScheduler 1))).2.2.memory.getExternalFragmentation = 2 * 16 ∧
    ((allocateTwice (exampleConfig "fcfs" 160 16 64) true true 1 2
      (freshWorld (exampleConfig "fcfs" 160 16 64) exampleHeap
        (idleScheduler 1))).2.2.memory.releaseMemory "P1").getExternalFragmentation = 2 * 16 :=
  ⟨by decide, by decide, by decide,
    ((C5_fragmentation_scenario (exampleConfig "fcfs" 160 16 64) exampleHeap (idleScheduler 1)
      1 2 (by decide) (by decide) (by decide)).2.2 true true (by decide) (by decide)).2.1,
    ((C5_fragmentation_scenario (exampleConfig "fcfs" 160 16 64) exampleHeap (idleScheduler 1)
      1 2 (by decide) (by decide) (by decide)).2.2 true true (by decide) (by decide)).2.2.2⟩

/-- **C6 (as amended).** In every memory state reachable from the freshly
constructed manager by `allocateMemory` and `releaseMemory` calls in which
`allocateMemory` is never called for a name that has an entry in the map, a
frame is marked not free with owner `P` exactly when `P` has an entry and the
frame index lies in `[startFrame, startFrame + framesPerProcess)` of that entry
(so no frame is marked for a name without entry), and no frame index lies in the
recorded runs of two different names. -/
theorem C6_frame_partition_fresh_names (config : Config) (m : MemoryManager)
    (h : ReachableFresh config m) :
    (∀ (P : String) (i : Nat),
      (∃ f, m.frames[i]? = some f ∧ f.isFree = false ∧ f.processName = P) ↔
      (∃ info, mapFind P m.processMemoryMap = some info ∧
        info.startFrame ≤ i ∧ i < info.startFrame + m.framesPerProcess)) ∧
    (∀ (P Q : String) (infoP infoQ : ProcessMemoryInfo) (i : Nat),
      mapFind P m.processMemoryMap = some infoP → mapFind Q m.processMemoryMap = some infoQ →
      infoP.startFrame ≤ i → i < infoP.startFrame + m.framesPerProcess →
      infoQ.startFrame ≤ i → i < infoQ.startFrame + m.framesPerProcess → P = Q) := by
  have hinv := MemInv_of_Reachable config m (Reachable_of_ReachableFresh config m h)
  have hfresh := FreshInv_of_ReachableFresh config m h
  refine ⟨fun P i => ⟨?_, ?_⟩, ?_⟩
  · rintro ⟨f, hf, hused, hname⟩
    obtain ⟨info, h1, h2⟩ := hfresh.cover i f hf hused
    rw [hname] at h1
    exact ⟨info, mapFind_of_mem P info _ hinv.nodup h1, h2.1, h2.2⟩
  · rintro ⟨info, hfind, h1, h2⟩
    have hmem := mem_of_mapFind P info _ hfind
    have hu := (hinv.entry _ hmem).2.2 i ⟨h1, h2⟩
    have ho := hfresh.owner _ hmem i ⟨h1, h2⟩
    unfold UsedAt at hu
    cases hg : m.frames[i]? with
    | none => rw [hg] at hu; exact absurd hu (by simp)
    | some g =>
      rw [hg] at hu ho
      exact ⟨g, rfl, by simpa using hu, by simpa using ho⟩
  · intro P Q infoP infoQ i hP hQ h1 h2 h3 h4
    by_contra hne
    exact hinv.disjoint _ (mem_of_mapFind P infoP _ hP) _ (mem_of_mapFind Q infoQ _ hQ) hne i
      ⟨⟨h1, h2⟩, ⟨h3, h4⟩⟩

/-- Witness of C6 (as amended): after `P1` and `P2` are allocated in four
frames, frame 2 is marked for `P2`, whose entry starts at frame 2. -/
theorem C6_frame_partition_fresh_names_witness :
    ReachableFresh smallConfig bothAllocated ∧
    ((∃ f, bothAllocated.frames[2]? = some f ∧ f.isFree = false ∧ f.processName = "P2") ↔
      (∃ info, mapFind "P2" bothAllocated.processMemoryMap = some info ∧
        info.startFrame ≤ 2 ∧ 2 < info.startFrame + bothAllocated.framesPerProcess)) :=
  ⟨ReachableFresh_bothAllocated,
    (C6_frame_partition_fresh_names smallConfig bothAllocated
      ReachableFresh_bothAllocated).1 "P2" 2⟩

/-- Counterexample to C6 as stated: allocating `P1` twice is a sequence of
`allocateMemory` calls; afterwards frame 0 is marked not free with owner `P1`,
while the entry of `P1` records the run `[2, 4)`. -/
theorem C6_counterexample_same_name_twice :
    Reachable smallConfig twiceAllocated ∧
    (twiceAllocated.frames[0]?).map Frame.status = some (false, "P1") ∧
    (mapFind "P1" twiceAllocated.processMemoryMap).map ProcessMemoryInfo.startFrame = some 2 ∧
    twiceAllocated.framesPerProcess = 2 :=
  ⟨Reachable.allocate true (some 1) _ (Reachable.allocate true (some 1) _ Reachable.ctor),
    by decide, by decide, by decide⟩

/-- **C7.** In every memory state reachable from the freshly constructed
manager by `allocateMemory` and `releaseMemory` calls, every entry of the
process-memory map records exactly `framesPerProcess` frames, the run lies
inside `[0, totalFrames)`, every frame of the run exists and is marked not
free, and the runs recorded for two different names have no frame in common. -/
theorem C7_recorded_runs_uniform_used_disjoint (config : Config) (m : MemoryManager)
    (h : Reachable config m) :
    ∀ n info, (n, info) ∈ m.processMemoryMap →
      info.numFrames = m.framesPerProcess ∧
      info.startFrame + info.numFrames ≤ m.totalFrames ∧
      (∀ i, info.startFrame ≤ i → i < info.startFrame + info.numFrames → UsedAt m.frames i) ∧
      ∀ n2 info2, (n2, info2) ∈ m.processMemoryMap → n2 ≠ n →
        ∀ i, ¬ ((info.startFrame ≤ i ∧ i < info.startFrame + info.numFrames) ∧
                (info2.startFrame ≤ i ∧ i < info2.startFrame + info2.numFrames)) := by
  intro n info hmem
  have hinv := MemInv_of_Reachable config m h
  obtain ⟨h1, h2, h3⟩ := hinv.entry _ hmem
  simp only at h1 h2 h3
  rw [h1, ← hinv.length_eq]
  refine ⟨rfl, h2, fun i hi1 hi2 => h3 i ⟨hi1, hi2⟩, fun n2 info2 hmem2 hne i hi => ?_⟩
  have h4 := (hinv.entry _ hmem2).1
  simp only at h4
  rw [h4] at hi
  exact hinv.disjoint (n, info) hmem (n2, info2) hmem2 (Ne.symm hne) i hi

/-- Witness of C7: the two entries after `P1` and `P2` are allocated. -/
theorem C7_recorded_runs_uniform_used_disjoint_witness :
    Reachable smallConfig bothAllocated ∧
    ("P1", ({ startFrame := 0, numFrames := 2, startAddress := 0, endAddress := 1 } :
      ProcessMemoryInfo)) ∈ bothAllocated.processMemoryMap ∧
    (0 : Nat) + 2 ≤ bothAllocated.totalFrames :=
  ⟨Reachable_of_ReachableFresh _ _ ReachableFresh_bothAllocated, by decide,
    (C7_recorded_runs_uniform_used_disjoint smallConfig bothAllocated
      (Reachable_of_ReachableFresh _ _ ReachableFresh_bothAllocated) "P1"
      { startFrame := 0, numFrames := 2, startAddress := 0, endAddress := 1 }
      (by decide)).2.1⟩

/-- **C8.** When the map holds the entry `(s, c)` for `n`, `releaseMemory(n)`
rewrites each existing frame `s .. s+c-1` to free with an empty owner (its
addresses stay), leaves every other frame unchanged, removes `n` from the map
and from the resident set, leaves every other map entry and every other
resident name unchanged, and stores as fragmentation the value of
`getExternalFragmentation` on the new frame table. -/
theorem C8_releaseMemory_effect (m : MemoryManager) (n : String) (info : ProcessMemoryInfo)
    (h : mapFind n m.processMemoryMap = some info) :
    (m.releaseMemory n).frames.length = m.frames.length ∧
    (∀ i f, info.startFrame ≤ i → i < info.startFrame + info.numFrames →
      m.frames[i]? = some f →
      (m.releaseMemory n).frames[i]? = some { f with isFree := true, processName := "" }) ∧
    (∀ i, (i < info.startFrame ∨ info.startFrame + info.numFrames ≤ i) →
      (m.releaseMemory n).frames[i]? = m.frames[i]?) ∧
    mapFind n (m.releaseMemory n).processMemoryMap = none ∧
    n ∉ (m.releaseMemory n).processesInMemory ∧
    (∀ n2, n2 ≠ n →
      mapFind n2 (m.releaseMemory n).processMemoryMap = mapFind n2 m.processMemoryMap) ∧
    (∀ n2, n2 ≠ n →
      (n2 ∈ (m.releaseMemory n).processesInMemory ↔ n2 ∈ m.processesInMemory)) ∧
    (m.releaseMemory n).currentFragmentation = (m.releaseMemory n).getExternalFragmentation := by
  rw [releaseMemory_of_present m n info h]
  simp only [MemoryManager.released, MemoryManager.updateFragmentation, releaseFrames_length,
    releaseFrames_getElem?, mapFind_mapErase_self, mem_setErase]
  refine ⟨trivial, fun i f h1 h2 hf => ?_, fun i hi => ?_, trivial, fun hc => hc.2 rfl,
    fun n2 hne => mapFind_mapErase_ne n n2 _ hne, fun n2 hne => ⟨fun hc => hc.1, fun hc => ⟨hc, hne⟩⟩,
    rfl⟩
  · rw [if_pos ⟨by omega, by omega⟩, hf]
    rfl
  · rw [if_neg (by omega)]

/-- Witness of C8: releasing `A` from `residentMemory`. -/
theorem C8_releaseMemory_effect_witness :
    mapFind "A" residentMemory.processMemoryMap =
      some { startFrame := 0, numFrames := 2, startAddress := 0, endAddress := 31 } ∧
    mapFind "A" (residentMemory.releaseMemory "A").processMemoryMap = none ∧
    "A" ∉ (residentMemory.releaseMemory "A").processesInMemory :=
  ⟨by decide,
    (C8_releaseMemory_effect residentMemory "A"
      { startFrame := 0, numFrames := 2, startAddress := 0, endAddress := 31 }
      (by decide)).2.2.2.1,
    (C8_releaseMemory_effect residentMemory "A"
      { startFrame := 0, numFrames := 2, startAddress := 0, endAddress := 31 }
      (by decide)).2.2.2.2.1⟩

/-- **C9.** `releaseMemory(n)` for a name without entry in the map leaves the
whole memory manager (frames, map, resident set, fragmentation) unchanged; and
for every state and every name, releasing twice gives the state of releasing
once. -/
theorem C9_releaseMemory_idempotent (m : MemoryManager) (n : String) :
    (mapFind n m.processMemoryMap = none → m.releaseMemory n = m) ∧
    (m.releaseMemory n).releaseMemory n = m.releaseMemory n := by
  refine ⟨releaseMemory_of_absent m n, ?_⟩
  cases h : mapFind n m.processMemoryMap with
  | none => rw [releaseMemory_of_absent m n h, releaseMemory_of_absent m n h]
  | some info =>
    rw [releaseMemory_of_present m n info h]
    apply releaseMemory_of_absent
    simp [MemoryManager.released, MemoryManager.updateFragmentation, mapFind_mapErase_self]

/-- Witness of C9: `B` has no entry in `residentMemory`. -/
theorem C9_releaseMemory_idempotent_witness :
    mapFind "B" residentMemory.processMemoryMap = none ∧
    residentMemory.releaseMemory "B" = residentMemory :=
  ⟨by decide, (C9_releaseMemory_idempotent residentMemory "B").1 (by decide)⟩

/-- **C10 (as amended).** In every memory state reachable from the freshly
constructed manager under a validated configuration, `getMemoryStatistics`
reports `usedMemory = (number of map entries) * processSize`, `processCount`
equal to the number of map entries when that number is below `2^31`,
`usedMemory <= totalMemory` and `freeMemory = totalMemory - usedMemory` without
wrap-around, and `usedMemory <= (number of frames marked not free) * frameSize`,
with equality when `allocateMemory` was never called for a name that had an
entry in the map. -/
theorem C10_getMemoryStatistics_reachable (config : Config) (m : MemoryManager)
    (hv : config.Validated) (h : Reachable config m) :
    (m.getMemoryStatistics config).usedMemory = m.processMemoryMap.length * m.processSize ∧
    (m.getMemoryStatistics config).totalMemory = config.maxOverallMem ∧
    (m.processMemoryMap.length < 2 ^ 31 →
      (m.getMemoryStatistics config).processCount = m.processMemoryMap.length) ∧
    (m.getMemoryStatistics config).usedMemory ≤ (m.getMemoryStatistics config).totalMemory ∧
    (m.getMemoryStatistics config).freeMemory + (m.getMemoryStatistics config).usedMemory =
      (m.getMemoryStatistics config).totalMemory ∧
    (m.getMemoryStatistics config).usedMemory ≤ usedFrames m.frames * m.frameSize ∧
    (ReachableFresh config m →
      (m.getMemoryStatistics config).usedMemory = usedFrames m.frames * m.frameSize) := by
  obtain ⟨hpos, hdivT, hdivP⟩ := validateParameters_memory config hv.2
  have hT : config.maxOverallMem < 2 ^ 32 := hv.1.2.2.2.2.2.2.2.1
  obtain ⟨cT, cF, cP, cK⟩ := Reachable_constants config m h
  have hinv := MemInv_of_Reachable config m h
  have hproc : m.processSize = m.framesPerProcess * m.frameSize := by
    rw [cP, cK, cF]
    exact (Nat.div_mul_cancel (Nat.dvd_of_mod_eq_zero hdivP)).symm
  have htotal : m.totalFrames * m.frameSize = config.maxOverallMem := by
    rw [cT, cF]
    exact Nat.div_mul_cancel (Nat.dvd_of_mod_eq_zero hdivT)
  have hcount : usedFrames m.frames ≤ m.totalFrames := by
    rw [← hinv.length_eq]
    exact List.countP_le_length _
  have hused : m.processMemoryMap.length * m.processSize ≤ usedFrames m.frames * m.frameSize := by
    rw [hproc, ← Nat.mul_assoc]
    exact Nat.mul_le_mul_right _ hinv.count
  have hle : m.processMemoryMap.length * m.processSize ≤ config.maxOverallMem := by
    calc _ ≤ usedFrames m.frames * m.frameSize := hused
      _ ≤ m.totalFrames * m.frameSize := Nat.mul_le_mul_right _ hcount
      _ = _ := htotal
  have hmod : (m.processMemoryMap.length * m.processSize) % sizeModulus =
      m.processMemoryMap.length * m.processSize := by
    apply Nat.mod_eq_of_lt
    unfold sizeModulus
    omega
  simp only [MemoryManager.getMemoryStatistics, hmod]
  refine ⟨trivial, trivial, toInt32_of_lt _, hle, ?_, hused, fun hf => ?_⟩
  · unfold sizeModulus at *
    omega
  · have hfresh := FreshInv_of_ReachableFresh config m hf
    rw [hproc, ← Nat.mul_assoc, hfresh.count_eq]

/-- Witness of C10 (as amended): the statistics after `P1` and `P2` are
allocated in four one-byte frames. -/
theorem C10_getMemoryStatistics_reachable_witness :
    smallConfig.Validated ∧ Reachable smallConfig bothAllocated ∧
    (bothAllocated.getMemoryStatistics smallConfig).usedMemory =
      bothAllocated.processMemoryMap.length * bothAllocated.processSize ∧
    (bothAllocated.getMemoryStatistics smallConfig).usedMemory ≤
      (bothAllocated.getMemoryStatistics smallConfig).totalMemory :=
  ⟨Validated_smallConfig, Reachable_of_ReachableFresh _ _ ReachableFresh_bothAllocated,
    (C10_getMemoryStatistics_reachable smallConfig bothAllocated Validated_smallConfig
      (Reachable_of_ReachableFresh _ _ ReachableFresh_bothAllocated)).1,
    (C10_getMemoryStatistics_reachable smallConfig bothAllocated Validated_smallConfig
      (Reachable_of_ReachableFresh _ _ ReachableFresh_bothAllocated)).2.2.2.1⟩

/-- Counterexample to C10 as stated: after `P1` is allocated twice under the
validated `smallConfig`, the map has one entry and `usedMemory` is 2, while
four frames of one byte are marked not free. -/
theorem C10_counterexample_same_name_twice :
    smallConfig.Validated ∧ Reachable smallConfig twiceAllocated ∧
    (twiceAllocated.getMemoryStatistics smallConfig).usedMemory = 2 ∧
    usedFrames twiceAllocated.frames * twiceAllocated.frameSize = 4 :=
  ⟨Validated_smallConfig,
    Reachable.allocate true (some 1) _ (Reachable.allocate true (some 1) _ Reachable.ctor),
    by decide, by decide⟩

/-- **C11 (code defect).** One core, `"fcfs"`, no delay, `P1` and `P2` of three
instructions each admitted in this order: the worker executes the three
instructions of `P1`, appends `P1` to the finished list and then stops in the
end-of-turn block, in `updateCoreStatus`, locking the `mutex` it holds.  `P2`
is still in the ready queue and none of its instructions has run. -/
theorem C11_fcfs_worker_stuck_after_first_process :
    (workerPass (schedulerConfig 1 "fcfs" 2) 10
      (admittedWorld (schedulerConfig 1 "fcfs" 2) 3)).stop = WorkerStop.relockedMutex ∧
    (workerPass (schedulerConfig 1 "fcfs" 2) 10
      (admittedWorld (schedulerConfig 1 "fcfs" 2) 3)).state.executed = [1, 1, 1] ∧
    (workerPass (schedulerConfig 1 "fcfs" 2) 10
      (admittedWorld (schedulerConfig 1 "fcfs" 2) 3)).state.world.scheduler.finishedProcesses
        = [1] ∧
    (workerPass (schedulerConfig 1 "fcfs" 2) 10
      (admittedWorld (schedulerConfig 1 "fcfs" 2) 3)).state.world.scheduler.readyQueue = [2] ∧
    ((workerPass (schedulerConfig 1 "fcfs" 2) 10
      (admittedWorld (schedulerConfig 1 "fcfs" 2) 3)).state.world.heap 2).commandCounter = 0 := by
  decide

/-- **C12 (code defect).** One core, `"rr"` with quantum 2, no delay, `P1` and
`P2` of three instructions each admitted in this order: the worker executes two
instructions of `P1`, requeues `P1` behind `P2` and then stops in the
end-of-turn block, in `updateCoreStatus`, locking the `mutex` it holds.  No
instruction of `P2` has run. -/
theorem C12_rr_worker_stuck_after_first_turn :
    (workerPass (schedulerConfig 1 "rr" 2) 10
      (admittedWorld (schedulerConfig 1 "rr" 2) 3)).stop = WorkerStop.relockedMutex ∧
    (workerPass (schedulerConfig 1 "rr" 2) 10
      (admittedWorld (schedulerConfig 1 "rr" 2) 3)).state.executed = [1, 1] ∧
    (workerPass (schedulerConfig 1 "rr" 2) 10
      (admittedWorld (schedulerConfig 1 "rr" 2) 3)).state.world.scheduler.readyQueue = [2, 1] ∧
    ((workerPass (schedulerConfig 1 "rr" 2) 10
      (admittedWorld (schedulerConfig 1 "rr" 2) 3)).state.world.heap 2).commandCounter = 0 := by
  decide

/-- **C13.** For a ready queue `h :: rest` and the configured quantum limit,
`roundRobinSchedule` removes `h` from the head.  If the quantum counter of `h`
has reached the limit it resets that counter to 0, sets the state of `h` to
`READY`, leaves the queue as `rest` followed by `h` and returns no process,
whatever `rest` holds; otherwise it returns `h`, leaves the queue as `rest` and
does not modify `h`.  Nothing else changes. -/
theorem C13_roundRobinSchedule_head (config : Config) (w : World) (h : Handle)
    (rest : List Handle) (hq : w.scheduler.readyQueue = h :: rest) :
    ((w.heap h).quantumTime ≥ config.quantumCycles →
      (roundRobinSchedule config w).1 = none ∧
      (roundRobinSchedule config w).2.scheduler =
        { w.scheduler with readyQueue := rest ++ [h] } ∧
      (roundRobinSchedule config w).2.heap h =
        { w.heap h with quantumTime := 0, state := ProcessState.READY } ∧
      (∀ q, q ≠ h → (roundRobinSchedule config w).2.heap q = w.heap q) ∧
      (roundRobinSchedule config w).2.memory = w.memory) ∧
    ((w.heap h).quantumTime < config.quantumCycles →
      (roundRobinSchedule config w).1 = some h ∧
      (roundRobinSchedule config w).2.scheduler = { w.scheduler with readyQueue := rest } ∧
      (roundRobinSchedule config w).2.heap = w.heap ∧
      (roundRobinSchedule config w).2.memory = w.memory) := by
  constructor
  · intro hexp
    have he : isQuantumExpired config (w.heap h) = true := by
      simpa [isQuantumExpired] using hexp
    have e : roundRobinSchedule config w = (none, handleQuantumExpiration
        { w with scheduler := { w.scheduler with readyQueue := rest } } h) := by
      simp [roundRobinSchedule, hq, he]
    rw [e]
    refine ⟨rfl, rfl, ?_, fun q hne => ?_, rfl⟩
    · simp [handleQuantumExpiration, Process.resetQuantumTime, Process.setState]
    · simp [handleQuantumExpiration, Function.update, hne]
  · intro hlt
    have he : isQuantumExpired config (w.heap h) = false := by
      simpa [isQuantumExpired] using hlt
    have e : roundRobinSchedule config w =
        (some h, { w with scheduler := { w.scheduler with readyQueue := rest } }) := by
      simp [roundRobinSchedule, hq, he]
    rw [e]
    exact ⟨rfl, rfl, rfl, rfl⟩

/-- Witness of C13: under `"rr"` with quantum 2, `P1` at the head of the queue
with quantum counter 0 is returned and `P2` stays queued. -/
theorem C13_roundRobinSchedule_head_witness :
    (admittedWorld (schedulerConfig 1 "rr" 2) 3).scheduler.readyQueue = [1, 2] ∧
    (roundRobinSchedule (schedulerConfig 1 "rr" 2)
      (admittedWorld (schedulerConfig 1 "rr" 2) 3)).1 = some 1 ∧
    (roundRobinSchedule (schedulerConfig 1 "rr" 2)
      (admittedWorld (schedulerConfig 1 "rr" 2) 3)).2.scheduler.readyQueue = [2] :=
  ⟨rfl,
    ((C13_roundRobinSchedule_head (schedulerConfig 1 "rr" 2)
      (admittedWorld (schedulerConfig 1 "rr" 2) 3) 1 [2] rfl).2 (by decide)).1,
    by decide⟩

/-- **C14.** In a scheduler state with a non-empty ready queue and core slots as
the constructor sizes them (at most `numCPU`): if slot `c` is the lowest free
slot and the policy yields the process `p`, `getNextProcess` returns `p` with its
core id set to `c`, marks slot `c` busy, leaves every other slot unchanged and
appends `p` to the running list, `p` being the head that the policy took off the
ready queue; if no slot is free, it returns no process and leaves the world
(ready queue, core slots, running list) unchanged. -/
theorem C14_getNextProcess_binds_lowest_free_core (config : Config) (w : World)
    (hq : w.scheduler.readyQueue ≠ [])
    (hsize : (w.scheduler.coreStatus.length : Int) ≤ config.numCPU) :
    (∀ (c : Nat) (p : Handle) (w1 : World), LowestFreeCore w.scheduler.coreStatus c →
      policySchedule config w = (some p, w1) →
      ∃ w2, getNextProcess config w = .ok (some p, w2) ∧
        w2.heap p = { w.heap p with cpuCoreID := (c : Int) } ∧
        (∀ q, q ≠ p → w2.heap q = w.heap q) ∧
        w2.scheduler.coreStatus = w.scheduler.coreStatus.set c true ∧
        w2.scheduler.coreStatus[c]? = some true ∧
        (∀ i, i ≠ c → w2.scheduler.coreStatus[i]? = w.scheduler.coreStatus[i]?) ∧
        w2.scheduler.runningProcesses = w.scheduler.runningProcesses ++ [p] ∧
        w.scheduler.readyQueue = p :: w2.scheduler.readyQueue) ∧
    ((∀ b ∈ w.scheduler.coreStatus, b = true) → getNextProcess config w = .ok (none, w)) := by
  constructor
  · intro c p w1 hc hp
    obtain ⟨h1, h2, _, h4⟩ := policySchedule_some config w w1 p hp
    have hlt := LowestFreeCore_lt_length hc
    refine ⟨_, getNextProcess_of_some config w w1 p c hsize hc hp, ?_, ?_, ?_, ?_, ?_, ?_, ?_⟩
    · simp [h2]
    · intro q hne
      simp [Function.update, hne, h2]
    · rw [h4]
    · rw [h4]
      simp [List.getElem?_set, hlt]
    · intro i hi
      rw [h4]
      simp [List.getElem?_set, Ne.symm hi]
    · rw [h4]
    · exact h1
  · intro hbusy
    have hne : w.scheduler.readyQueue.isEmpty = false := by
      cases h : w.scheduler.readyQueue with
      | nil => exact absurd h hq
      | cons x xs => rfl
    simp [getNextProcess, hne, availableCoreLoop_of_all_busy _ hbusy]

/-- Witness of C14: two free cores, `P1` at the head of the queue, `"fcfs"`. -/
theorem C14_getNextProcess_binds_lowest_free_core_witness :
    (admittedWorld (schedulerConfig 2 "fcfs" 2) 3).scheduler.readyQueue ≠ [] ∧
    (((admittedWorld (schedulerConfig 2 "fcfs" 2) 3).scheduler.coreStatus.length : Nat) : Int) ≤
      (schedulerConfig 2 "fcfs" 2).numCPU ∧
    LowestFreeCore (admittedWorld (schedulerConfig 2 "fcfs" 2) 3).scheduler.coreStatus 0 ∧
    ∃ w2, getNextProcess (schedulerConfig 2 "fcfs" 2)
        (admittedWorld (schedulerConfig 2 "fcfs" 2) 3) = .ok (some 1, w2) ∧
      (w2.heap 1).cpuCoreID = 0 ∧ w2.scheduler.coreStatus = [true, false] ∧
      w2.scheduler.runningProcesses = [1] :=
  ⟨by decide, by decide, by decide, by
    obtain ⟨w2, h1, h2, _, h4, _, _, h7, _⟩ :=
      (C14_getNextProcess_binds_lowest_free_core (schedulerConfig 2 "fcfs" 2)
        (admittedWorld (schedulerConfig 2 "fcfs" 2) 3) (by decide) (by decide)).1 0 1
        { admittedWorld (schedulerConfig 2 "fcfs" 2) 3 with
          scheduler := { (admittedWorld (schedulerConfig 2 "fcfs" 2) 3).scheduler with
            readyQueue := [2] } } (by decide) rfl
    exact ⟨w2, h1, by rw [h2]; rfl, by rw [h4]; rfl, by rw [h7]; rfl⟩⟩

/-- **C15 (code defect).** The end-of-turn block of `executeProcesses` never
completes: it holds `mutex` when it calls `updateCoreStatus`, whose first
statement locks `mutex` again, so the call has no defined result for any world
and any process, and the core slots are as they were when the block was
entered. -/
theorem C15_endOfTurn_relocks_mutex (w : World) (p : Handle) :
    endOfTurn w p = none ∧
    (endOfTurnLists w p).scheduler.coreStatus = w.scheduler.coreStatus := by
  constructor
  · simp [endOfTurn, updateCoreStatus]
  · unfold endOfTurnLists
    by_cases h : (w.heap p).isFinished = true <;> simp [h]

/-- **C16 (as amended).** In every scheduler state reachable from the
constructed scheduler by the steps admission (`addProcess`, or the re-admission of
a failed `allocateMemory` under `"rr"`) of a process that is neither in the
ready queue nor in the running list, and dispatch (`getNextProcess`), there are
`numCPU` core slots, the processes in the running list are pairwise distinct
and have pairwise distinct core ids in `[0, numCores)`, and a core slot is
marked busy if and only if exactly one process in the running list has that
core id. -/
theorem C16_running_list_and_cores (config : Config) (w : World)
    (h : SchedulerReachableFresh config w) :
    w.scheduler.coreStatus.length = config.numCPU.toNat ∧
    w.scheduler.runningProcesses.Nodup ∧
    (∀ p ∈ w.scheduler.runningProcesses,
      0 ≤ (w.heap p).cpuCoreID ∧ (w.heap p).cpuCoreID < (w.scheduler.coreStatus.length : Int)) ∧
    (∀ p ∈ w.scheduler.runningProcesses, ∀ q ∈ w.scheduler.runningProcesses,
      p ≠ q → (w.heap p).cpuCoreID ≠ (w.heap q).cpuCoreID) ∧
    (∀ c : Nat, c < w.scheduler.coreStatus.length →
      (w.scheduler.coreStatus[c]? = some true ↔
        ∃! p, p ∈ w.scheduler.runningProcesses ∧ (w.heap p).cpuCoreID = (c : Int))) := by
  have hinv := SchedInv_of_reachable config w h
  refine ⟨coreStatus_length_of_reachable config w h, (List.nodup_append.1 hinv.nodup).2.1,
    fun p hp => ?_, fun p hp q hq hne heq => hne (hinv.inj p hp q hq heq), fun c hc => ⟨?_, ?_⟩⟩
  · obtain ⟨c, h1, h2⟩ := hinv.bound p hp
    have hlt : c < w.scheduler.coreStatus.length := by
      by_contra hc
      rw [List.getElem?_eq_none (by omega)] at h2
      exact absurd h2 (by simp)
    rw [h1]
    exact ⟨by omega, by omega⟩
  · intro hb
    obtain ⟨p, hp1, hp2⟩ := hinv.busy c hb
    refine ⟨p, ⟨hp1, hp2⟩, fun q hq => ?_⟩
    exact hinv.inj q hq.1 p hp1 (by rw [hq.2, hp2])
  · rintro ⟨p, ⟨hp1, hp2⟩, _⟩
    obtain ⟨d, h1, h2⟩ := hinv.bound p hp1
    rw [hp2] at h1
    have : c = d := by exact_mod_cast h1
    rw [this]
    exact h2

/-- Witness of C16 (as amended): `P1` and `P2` admitted and dispatched on two
cores. -/
theorem C16_running_list_and_cores_witness :
    SchedulerReachableFresh (schedulerConfig 2 "fcfs" 2)
      (dispatchWorld (schedulerConfig 2 "fcfs" 2)
        (dispatchWorld (schedulerConfig 2 "fcfs" 2)
          (admittedWorld (schedulerConfig 2 "fcfs" 2) 3))) ∧
    (dispatchWorld (schedulerConfig 2 "fcfs" 2)
      (dispatchWorld (schedulerConfig 2 "fcfs" 2)
        (admittedWorld (schedulerConfig 2 "fcfs" 2) 3))).scheduler.runningProcesses.Nodup :=
  ⟨SchedulerReachableFresh_dispatched,
    (C16_running_list_and_cores _ _ SchedulerReachableFresh_dispatched).2.1⟩

/-- Counterexample to C16 as stated: on two cores, admitting `P1` twice and
dispatching twice is a sequence of admission and dispatch steps; afterwards the
running list holds `P1` twice, core slot 0 is busy, and the core id of `P1` is
1, so that no running process has core id 0. -/
theorem C16_counterexample_admitted_twice :
    SchedulerReachable (schedulerConfig 2 "fcfs" 2)
      (dispatchWorld (schedulerConfig 2 "fcfs" 2)
        (dispatchWorld (schedulerConfig 2 "fcfs" 2)
          (twiceAdmittedWorld (schedulerConfig 2 "fcfs" 2)))) ∧
    (dispatchWorld (schedulerConfig 2 "fcfs" 2)
      (dispatchWorld (schedulerConfig 2 "fcfs" 2)
        (twiceAdmittedWorld (schedulerConfig 2 "fcfs" 2)))).scheduler.runningProcesses
          = [1, 1] ∧
    (dispatchWorld (schedulerConfig 2 "fcfs" 2)
      (dispatchWorld (schedulerConfig 2 "fcfs" 2)
        (twiceAdmittedWorld (schedulerConfig 2 "fcfs" 2)))).scheduler.coreStatus
          = [true, true] ∧
    ((dispatchWorld (schedulerConfig 2 "fcfs" 2)
      (dispatchWorld (schedulerConfig 2 "fcfs" 2)
        (twiceAdmittedWorld (schedulerConfig 2 "fcfs" 2)))).heap 1).cpuCoreID = 1 :=
  ⟨SchedulerReachable.dispatch _ _ (some 1)
    (SchedulerReachable.dispatch _ _ (some 1)
      (SchedulerReachable.addProcess _ 1
        (SchedulerReachable.addProcess _ 1
          (SchedulerReachable.init (twoProcessHeap 3)
            (MemoryManager.ctor (schedulerConfig 2 "fcfs" 2)))))
      rfl)
    rfl, by decide, by decide, by decide⟩

/-- **C18 (as amended).** In every state of the scheduler step model that is
reached with fresh admissions only (every process is, when it is admitted, in
no queue and in no worker's hands, with quantum counter 0) under a quantum
limit of at least 1: every call of `waitForCycleSync` is made by a worker that
holds a process of the running list; the waiting count of the barrier is the
number of workers that called since the last call that incremented the cycle
counter, each of which holds a process of the running list and is blocked in
the barrier; and a step increments the cycle counter, by exactly one, only if
every worker whose process is in the running list has called
`waitForCycleSync` since the previous increment, the incrementing call
included (a tick of the backup clock increments it only while the running list
is empty). -/
theorem C18_increment_needs_every_running_worker (config : Config) (st st2 : SystemState)
    (a : ThreadStep) (hq : 1 ≤ config.quantumCycles) (hr : FreshReachable config st)
    (hs : threadStep config st a = some st2) :
    st.world.scheduler.coresWaiting = (st.called.length : Int) ∧
    st.called.Nodup ∧
    (∀ i ∈ st.called, HoldsRunning st i ∧ ∃ held, st.workers[i]? = some (.inBarrier held)) ∧
    (∀ i, a = .sync i → HoldsRunning st i) ∧
    (st2.world.scheduler.cpuCycles = st.world.scheduler.cpuCycles ∨
      (st2.world.scheduler.cpuCycles = st.world.scheduler.cpuCycles + 1 ∧
        ((∃ i, a = .sync i ∧ i ∉ st.called ∧ st2.called = [] ∧
            (st.called.length : Int) + 1 ≥
              max 1 (st.world.scheduler.runningProcesses.length : Int)) ∨
          (a = .tick ∧ st.world.scheduler.runningProcesses = [])))) ∧
    (st2.world.scheduler.cpuCycles ≠ st.world.scheduler.cpuCycles →
      (∀ (j : Nat) (pos : WorkerAt) (p : Handle), st.workers[j]? = some pos →
        pos.process = some p → p ∈ st.world.scheduler.runningProcesses →
        j ∈ st.called ∨ a = .sync j) ∧
      ∀ j, HoldsRunning st j → j ∈ st.called ∨ a = .sync j) := by
  have hinv := BarrierInv_of_fresh config st hr
  have hhold := HolderInv_of_reachable config st hq hr
  obtain ⟨h1, h2, h3⟩ := threadStep_cpuCycles config st st2 a hs
  rw [hinv.count] at h1
  have hcalled : ∀ i ∈ st.called,
      HoldsRunning st i ∧ ∃ held, st.workers[i]? = some (.inBarrier held) := by
    intro i hi
    obtain ⟨held, hh⟩ := hinv.blocked i hi
    refine ⟨?_, held, hh⟩
    cases held with
    | none => exact absurd rfl (hhold.no_idle i _ hh).2
    | some pd =>
      obtain ⟨p, d⟩ := pd
      exact ⟨p, d, hhold.held_running i _ p hh rfl, Or.inr (Or.inr hh)⟩
  have hcaller : ∀ i, a = .sync i → ∃ p d, st.workers[i]? = some (.beforeSync (some (p, d))) := by
    intro i hi
    rw [hi] at hs
    simp only [threadStep] at hs
    split at hs
    · rename_i held hpos
      cases held with
      | none => exact absurd rfl (hhold.no_idle i _ hpos).1
      | some pd =>
        obtain ⟨p, d⟩ := pd
        exact ⟨p, d, hpos⟩
    · cases hs
  have hsync : ∀ i, a = .sync i → HoldsRunning st i := by
    intro i hi
    obtain ⟨p, d, hpos⟩ := hcaller i hi
    exact ⟨p, d, hhold.held_running i _ p hpos rfl, Or.inr (Or.inl hpos)⟩
  have hnotin : ∀ i, a = .sync i → i ∉ st.called := by
    intro i hi hc
    obtain ⟨p, d, hpos⟩ := hcaller i hi
    obtain ⟨held, hh⟩ := hinv.blocked i hc
    rw [hh] at hpos
    cases hpos
  have hlink : st2.world.scheduler.cpuCycles ≠ st.world.scheduler.cpuCycles →
      ∀ (j : Nat) (pos : WorkerAt) (p : Handle), st.workers[j]? = some pos →
        pos.process = some p → p ∈ st.world.scheduler.runningProcesses →
        j ∈ st.called ∨ a = .sync j := by
    intro hne j pos p hj hp hrun
    by_cases hsy : ∃ i, a = .sync i
    · obtain ⟨i, hi⟩ := hsy
      by_cases hquo : (st.called.length : Int) + 1 ≥
          max 1 (st.world.scheduler.runningProcesses.length : Int)
      · have hcover := holders_cover config st hhold (st.called ++ [i])
          (List.Nodup.append hinv.nodup (List.nodup_singleton i)
            (by simpa using hnotin i hi))
          (by
            intro k hk
            rcases List.mem_append.1 hk with h | h
            · obtain ⟨pos2, p2, e1, e2, _⟩ := HoldsRunning_process st k (hcalled k h).1
              exact ⟨pos2, p2, e1, e2⟩
            · rw [List.mem_singleton.1 h]
              obtain ⟨pos2, p2, e1, e2, _⟩ := HoldsRunning_process st i (hsync i hi)
              exact ⟨pos2, p2, e1, e2⟩)
          (by
            rw [List.length_append, List.length_singleton]
            omega)
          j pos p hj hp
        rcases List.mem_append.1 hcover with h | h
        · exact Or.inl h
        · right
          rw [hi, List.mem_singleton.1 h]
      · exact absurd ((h1 i hi).2 (by omega)).1 hne
    · have hns : ∀ i, a ≠ .sync i := fun i hi => hsy ⟨i, hi⟩
      by_cases ht : a = .tick
      · by_cases he : st.world.scheduler.runningProcesses = []
        · rw [he] at hrun
          cases hrun
        · exact absurd ((h2 ht).2 he) hne
      · exact absurd (h3 hns ht) hne
  refine ⟨hinv.count, hinv.nodup, hcalled, hsync, ?_, fun hne => ⟨hlink hne, ?_⟩⟩
  · by_cases hsy : ∃ i, a = .sync i
    · obtain ⟨i, hi⟩ := hsy
      by_cases hquo : (st.called.length : Int) + 1 ≥
          max 1 (st.world.scheduler.runningProcesses.length : Int)
      · right
        obtain ⟨e1, e2⟩ := (h1 i hi).1 hquo
        exact ⟨e1, Or.inl ⟨i, hi, hnotin i hi, e2, hquo⟩⟩
      · left
        exact ((h1 i hi).2 (by omega)).1
    · have hns : ∀ i, a ≠ .sync i := fun i hi => hsy ⟨i, hi⟩
      by_cases ht : a = .tick
      · by_cases he : st.world.scheduler.runningProcesses = []
        · right
          exact ⟨(h2 ht).1 he, Or.inr ⟨ht, he⟩⟩
        · left
          exact (h2 ht).2 he
      · left
        exact h3 hns ht
  · intro j hj
    obtain ⟨pos, p, e1, e2, e3⟩ := HoldsRunning_process st j hj
    exact hlink hne j pos p e1 e2 e3

/-- Witness of C18 (as amended): in `quorumState` the call of
`waitForCycleSync` by worker 1 increments the cycle counter, and worker 0, which
holds `P1`, has called before. -/
theorem C18_increment_needs_every_running_worker_witness :
    FreshReachable (schedulerConfig 2 "fcfs" 2) quorumState ∧
    quorumState.workers = [.inBarrier (some (1, 0)), .beforeSync (some (2, 0))] ∧
    quorumState.world.scheduler.runningProcesses = [1, 2] ∧
    (threadStep (schedulerConfig 2 "fcfs" 2) quorumState (.sync 1)).map
      (fun st => st.world.scheduler.cpuCycles) = some 1 ∧
    (0 ∈ quorumState.called ∨ ThreadStep.sync 1 = ThreadStep.sync 0) :=
  ⟨FreshReachable_quorumState, by decide, by decide, by decide,
    (C18_increment_needs_every_running_worker (schedulerConfig 2 "fcfs" 2) quorumState
      (afterSteps (schedulerConfig 2 "fcfs" 2) [.sync 1] quorumState) (.sync 1) (by decide)
      FreshReachable_quorumState rfl).2.2.2.2.2 (by decide) |>.1 0 _ 1
      (by decide : quorumState.workers[0]? = some (.inBarrier (some (1, 0)))) rfl (by decide)⟩

/-- Counterexample to C18 as stated: on two cores under `"rr"` with quantum 1,
`P1` is admitted twice; worker 0 fetches it and executes one instruction, so
that it holds the only process of the running list and has not yet called
`waitForCycleSync`; worker 1 finds `P1` expired at the head of the queue and
gets no process.  This state is reachable, and the call of `waitForCycleSync`
by worker 1 increments the cycle counter from 0 to 1. -/
theorem C18_counterexample_idle_call_increments :
    SystemReachable (schedulerConfig 2 "rr" 1) idleCallState ∧
    idleCallState.workers = [.beforeSync (some (1, 0)), .beforeSync none] ∧
    idleCallState.world.scheduler.runningProcesses = [1] ∧
    HoldsRunning idleCallState 0 ∧
    idleCallState.called = [] ∧
    idleCallState.world.scheduler.cpuCycles = 0 ∧
    (threadStep (schedulerConfig 2 "rr" 1) idleCallState (.sync 1)).map
      (fun st => (st.world.scheduler.cpuCycles, st.called)) = some (1, []) :=
  ⟨SystemReachable_afterSteps _ _ _ (SystemReachable.init _ _), by decide, by decide,
    ⟨1, 0, by decide, Or.inr (Or.inl (by decide))⟩, by decide, by decide, by decide⟩

/-- **C19.** For every process, every configured core count `numCPU` and every
integer `id`, `setCPUCoreID(id)` succeeds, setting the core id to `id` and
nothing else, if and only if `-1 <= id < numCPU`; for every other `id` it
throws `std::invalid_argument`, so that the process keeps its core id: no value
is clamped into range. -/
theorem C19_setCPUCoreID_range (config : Config) (p : Process) (id : Int) :
    ((-1 ≤ id ∧ id < config.numCPU) ↔
      p.setCPUCoreID config id = .ok { p with cpuCoreID := id }) ∧
    (¬ (-1 ≤ id ∧ id < config.numCPU) ↔
      p.setCPUCoreID config id = .error InvalidArgument.invalidCPUCoreID) ∧
    (∀ q, p.setCPUCoreID config id = .ok q → q.cpuCoreID = id) := by
  unfold Process.setCPUCoreID
  by_cases h : id ≥ -1 ∧ id < config.numCPU
  · rw [if_pos h]
    refine ⟨⟨fun _ => rfl, fun _ => h⟩, ⟨fun hc => absurd h hc, fun hc => by cases hc⟩, ?_⟩
    intro q hq
    cases hq
    rfl
  · rw [if_neg h]
    refine ⟨⟨fun hc => absurd hc h, fun hc => by cases hc⟩, ⟨fun _ => rfl, fun _ => h⟩, ?_⟩
    intro q hq
    cases hq

/-- **C20 (as amended).** For every manager state, world and name:
`createProcess(name)` throws a `std::runtime_error` before any write, leaving
the map, `nextPID` and the world as they were, if `name` is empty or a process
of that name is registered.  Otherwise, if no statement of its `try` block
throws, it throws nothing, registers the new process under `name`, leaving
every other registration as it was, gives it the current `nextPID`, the name
and the state of a fresh process, increments `nextPID` by one and appends the
process at the tail of the ready queue; and if a statement of the `try` block
throws, the exception leaves the call with `nextPID` incremented by one and the
scheduler unchanged, the map being unchanged unless it was `addProcess` that
threw.  So the call throws if and only if `name` is empty or registered or a
statement of the `try` block throws. -/
theorem C20_createProcess_contract (newHandle : Handle) (outcome : TryOutcome) (name : String)
    (pm : ProcessManager) (w : World) :
    ((name = "" ∨ ∃ h, mapFind name pm.processes = some h) →
      ∃ e, e ≠ RuntimeError.rethrown ∧
        createProcess newHandle outcome name pm w = (some e, pm, w)) ∧
    (name ≠ "" → mapFind name pm.processes = none →
      (∀ lines, outcome = .completes lines →
        (createProcess newHandle outcome name pm w).1 = none ∧
        mapFind name (createProcess newHandle outcome name pm w).2.1.processes =
          some newHandle ∧
        (∀ n, n ≠ name →
          mapFind n (createProcess newHandle outcome name pm w).2.1.processes =
            mapFind n pm.processes) ∧
        (createProcess newHandle outcome name pm w).2.1.processes.length =
          pm.processes.length + 1 ∧
        (createProcess newHandle outcome name pm w).2.1.nextPID = pm.nextPID + 1 ∧
        (createProcess newHandle outcome name pm w).2.2.heap newHandle =
          newProcess pm.nextPID name lines ∧
        (∀ q, q ≠ newHandle →
          (createProcess newHandle outcome name pm w).2.2.heap q = w.heap q) ∧
        (createProcess newHandle outcome name pm w).2.2.scheduler =
          { w.scheduler with readyQueue := w.scheduler.readyQueue ++ [newHandle] } ∧
        (createProcess newHandle outcome name pm w).2.2.memory = w.memory) ∧
      ((∀ lines, outcome ≠ .completes lines) →
        (createProcess newHandle outcome name pm w).1 = some .rethrown ∧
        (createProcess newHandle outcome name pm w).2.1.nextPID = pm.nextPID + 1 ∧
        (createProcess newHandle outcome name pm w).2.2.scheduler = w.scheduler ∧
        (createProcess newHandle outcome name pm w).2.2.memory = w.memory ∧
        ((∀ lines, outcome ≠ .addProcessThrows lines) →
          (createProcess newHandle outcome name pm w).2.1.processes = pm.processes ∧
          (createProcess newHandle outcome name pm w).2.2 = w))) ∧
    ((createProcess newHandle outcome name pm w).1.isSome = true ↔
      (name = "" ∨ (∃ h, mapFind name pm.processes = some h) ∨
        ∀ lines, outcome ≠ .completes lines)) := by
  by_cases h1 : name = ""
  · have he : createProcess newHandle outcome name pm w = (some .nameEmpty, pm, w) := by
      unfold createProcess
      rw [if_pos h1]
    rw [he]
    exact ⟨(fun _ => ⟨_, by decide, rfl⟩), (fun hc => absurd h1 hc),
      ⟨(fun _ => Or.inl h1), (fun _ => rfl)⟩⟩
  · cases hf : mapFind name pm.processes with
    | some h =>
      have he : createProcess newHandle outcome name pm w = (some .nameExists, pm, w) := by
        unfold createProcess
        rw [if_neg h1, hf]
        rfl
      rw [he]
      exact ⟨(fun _ => ⟨_, by decide, rfl⟩), (fun _ hc => by cases hc),
        ⟨(fun _ => Or.inr (Or.inl ⟨h, rfl⟩)), (fun _ => rfl)⟩⟩
    | none =>
      have hnot : ¬ (name = "" ∨ ∃ h, (none : Option Handle) = some h) := by
        rintro (hc | ⟨h, hc⟩)
        · exact h1 hc
        · cases hc
      have he : createProcess newHandle outcome name pm w =
          (match outcome with
          | .constructorThrows => (some .rethrown, { pm with nextPID := pm.nextPID + 1 }, w)
          | .insertThrows _ => (some .rethrown, { pm with nextPID := pm.nextPID + 1 }, w)
          | .addProcessThrows lines =>
            (some .rethrown,
              { processes := mapAssign name newHandle pm.processes, nextPID := pm.nextPID + 1 },
              { w with
                heap := Function.update w.heap newHandle (newProcess pm.nextPID name lines) })
          | .completes lines =>
            (none,
              { processes := mapAssign name newHandle pm.processes, nextPID := pm.nextPID + 1 },
              { w with
                heap := Function.update w.heap newHandle (newProcess pm.nextPID name lines)
                scheduler := w.scheduler.addProcess newHandle })) := by
        unfold createProcess
        rw [if_neg h1, hf]
        rfl
      rw [he]
      refine ⟨(fun hc => absurd hc hnot), (fun _ _ => ?_), ?_⟩
      · cases outcome with
        | constructorThrows =>
          exact ⟨(fun lines hl => by cases hl),
            (fun _ => ⟨rfl, rfl, rfl, rfl, (fun _ => ⟨rfl, rfl⟩)⟩)⟩
        | insertThrows lines =>
          exact ⟨(fun lines hl => by cases hl),
            (fun _ => ⟨rfl, rfl, rfl, rfl, (fun _ => ⟨rfl, rfl⟩)⟩)⟩
        | addProcessThrows lines =>
          exact ⟨(fun lines hl => by cases hl),
            (fun _ => ⟨rfl, rfl, rfl, rfl, (fun hc => absurd rfl (hc lines))⟩)⟩
        | completes lines =>
          refine ⟨(fun lines2 hl => ?_), (fun hc => absurd rfl (hc lines))⟩
          cases hl
          refine ⟨rfl, mapFind_mapAssign_self _ _ _,
            (fun n hn => mapFind_mapAssign_ne _ _ _ _ hn), ?_, rfl, ?_, ?_, rfl, rfl⟩
          · show (mapAssign name newHandle pm.processes).length = _
            rw [mapAssign_of_absent name newHandle pm.processes hf]
            simp
          · show Function.update w.heap newHandle _ newHandle = _
            rw [Function.update_same]
          · intro q hq
            show Function.update w.heap newHandle _ q = _
            rw [Function.update_noteq hq]
      · cases outcome with
        | constructorThrows =>
          exact ⟨(fun _ => Or.inr (Or.inr (fun lines hl => by cases hl))), (fun _ => rfl)⟩
        | insertThrows lines =>
          exact ⟨(fun _ => Or.inr (Or.inr (fun lines hl => by cases hl))), (fun _ => rfl)⟩
        | addProcessThrows lines =>
          exact ⟨(fun _ => Or.inr (Or.inr (fun lines hl => by cases hl))), (fun _ => rfl)⟩
        | completes lines =>
          refine ⟨(fun hc => by cases hc), (fun hc => ?_)⟩
          rcases hc with hc | ⟨h, hc⟩ | hc
          · exact absurd hc h1
          · cases hc
          · exact absurd rfl (hc lines)

/-- Witness of C20 (as amended): creating `P3` in a manager that knows `P1`,
next PID 7, when no statement of the `try` block throws. -/
theorem C20_createProcess_contract_witness :
    (createProcess 3 (.completes 4) "P3" { processes := [("P1", 1)], nextPID := 7 }
        (admittedWorld (schedulerConfig 1 "fcfs" 2) 3)).1 = none ∧
    (createProcess 3 (.completes 4) "P3" { processes := [("P1", 1)], nextPID := 7 }
        (admittedWorld (schedulerConfig 1 "fcfs" 2) 3)).2.1.nextPID = 8 ∧
    (createProcess 3 (.completes 4) "P3" { processes := [("P1", 1)], nextPID := 7 }
        (admittedWorld (schedulerConfig 1 "fcfs" 2) 3)).2.2.scheduler.readyQueue = [1, 2, 3] :=
  have h := ((C20_createProcess_contract 3 (.completes 4) "P3"
    { processes := [("P1", 1)], nextPID := 7 }
    (admittedWorld (schedulerConfig 1 "fcfs" 2) 3)).2.1 (by decide) (by decide)).1 4 rfl
  ⟨h.1, h.2.2.2.2.1.trans (by decide), by rw [h.2.2.2.2.2.2.2.1]; rfl⟩

/-- Counterexample to C20 as stated: `P3` is not empty and not registered in a
manager that knows `P1`, next PID 7, and the constructor of `Process` throws.
The exception leaves `createProcess`, and `nextPID` is 8 afterwards. -/
theorem C20_counterexample_constructor_throws :
    ("P3" ≠ "") ∧
    mapFind "P3" [("P1", 1)] = (none : Option Handle) ∧
    (createProcess 3 .constructorThrows "P3" { processes := [("P1", 1)], nextPID := 7 }
        (admittedWorld (schedulerConfig 1 "fcfs" 2) 3)).1 = some .rethrown ∧
    (createProcess 3 .constructorThrows "P3" { processes := [("P1", 1)], nextPID := 7 }
        (admittedWorld (schedulerConfig 1 "fcfs" 2) 3)).2.1 =
      { processes := [("P1", 1)], nextPID := 8 } ∧
    (createProcess 3 .constructorThrows "P3" { processes := [("P1", 1)], nextPID := 7 }
        (admittedWorld (schedulerConfig 1 "fcfs" 2) 3)).2.2.scheduler.readyQueue = [1, 2] := by
  decide

/-- **C21.** For every assignment of the configuration fields,
`validateParameters` raises no error if and only if `1 <= numCPU <= 128`, the
scheduler type is `"fcfs"` or `"rr"`, `quantumCycles >= 1`,
`batchProcessFreq >= 1`, `minInstructions >= 1`,
`maxInstructions >= minInstructions`, the three memory sizes are positive,
`maxOverallMem` and `memPerProc` are multiples of `memPerFrame`,
`memPerProc <= maxOverallMem` and `memPerFrame <= memPerProc` (the test on the
unsigned `delaysPerExec` never fails).  Every accepted configuration gives the
constructed memory manager `1 <= framesPerProcess <= totalFrames`, and with the
built-in memory sizes 16384, 16 and 4096 the memory tests all pass. -/
theorem C21_validateParameters_accepts_iff (c : Config) :
    (validateParameters c = .ok () ↔
      (1 ≤ c.numCPU ∧ c.numCPU ≤ 128 ∧ (c.schedulerType = "fcfs" ∨ c.schedulerType = "rr") ∧
        1 ≤ c.quantumCycles ∧ 1 ≤ c.batchProcessFreq ∧ 1 ≤ c.minInstructions ∧
        c.minInstructions ≤ c.maxInstructions ∧
        0 < c.maxOverallMem ∧ 0 < c.memPerFrame ∧ 0 < c.memPerProc ∧
        c.maxOverallMem % c.memPerFrame = 0 ∧ c.memPerProc % c.memPerFrame = 0 ∧
        c.memPerProc ≤ c.maxOverallMem ∧ c.memPerFrame ≤ c.memPerProc)) ∧
    (validateParameters c = .ok () →
      1 ≤ (MemoryManager.ctor c).framesPerProcess ∧
      (MemoryManager.ctor c).framesPerProcess ≤ (MemoryManager.ctor c).totalFrames) ∧
    (c.maxOverallMem = 16384 → c.memPerFrame = 16 → c.memPerProc = 4096 →
      (validateParameters c = .ok () ↔
        (1 ≤ c.numCPU ∧ c.numCPU ≤ 128 ∧ (c.schedulerType = "fcfs" ∨ c.schedulerType = "rr") ∧
          1 ≤ c.quantumCycles ∧ 1 ≤ c.batchProcessFreq ∧ 1 ≤ c.minInstructions ∧
          c.minInstructions ≤ c.maxInstructions))) := by
  have key : validateParameters c = .ok () ↔
      (1 ≤ c.numCPU ∧ c.numCPU ≤ 128 ∧ (c.schedulerType = "fcfs" ∨ c.schedulerType = "rr") ∧
        1 ≤ c.quantumCycles ∧ 1 ≤ c.batchProcessFreq ∧ 1 ≤ c.minInstructions ∧
        c.minInstructions ≤ c.maxInstructions ∧
        0 < c.maxOverallMem ∧ 0 < c.memPerFrame ∧ 0 < c.memPerProc ∧
        c.maxOverallMem % c.memPerFrame = 0 ∧ c.memPerProc % c.memPerFrame = 0 ∧
        c.memPerProc ≤ c.maxOverallMem ∧ c.memPerFrame ≤ c.memPerProc) := by
    unfold validateParameters
    simp only [ite_error_eq_ok]
    constructor
    · rintro ⟨h1, h2, h3, h4, h5, h6, _, h8, h9, h10, h11, h12, h13, h14, _⟩
      refine ⟨by omega, by omega, ?_, by omega, by omega, by omega, by omega, by omega,
        by omega, by omega, by omega, by omega, by omega, by omega⟩
      by_cases hf : c.schedulerType = "fcfs"
      · exact Or.inl hf
      · by_cases hr : c.schedulerType = "rr"
        · exact Or.inr hr
        · exact absurd ⟨hf, hr⟩ h2
    · rintro ⟨h1, h2, h3, h4, h5, h6, h7, h8, h9, h10, h11, h12, h13, h14⟩
      refine ⟨by omega, ?_, by omega, by omega, by omega, by omega, by omega, by omega,
        by omega, by omega, by omega, by omega, by omega, by omega, trivial⟩
      rintro ⟨hf, hr⟩
      rcases h3 with h | h
      · exact hf h
      · exact hr h
  refine ⟨key, fun h => ?_, fun e1 e2 e3 => ?_⟩
  · obtain ⟨_, _, _, _, _, _, _, h8, h9, h10, h11, h12, h13, h14⟩ := key.1 h
    show 1 ≤ c.memPerProc / c.memPerFrame ∧
      c.memPerProc / c.memPerFrame ≤ c.maxOverallMem / c.memPerFrame
    exact ⟨(Nat.one_le_div_iff h9).2 h14, Nat.div_le_div_right h13⟩
  · rw [key, e1, e2, e3]
    constructor
    · rintro ⟨h1, h2, h3, h4, h5, h6, h7, _⟩
      exact ⟨h1, h2, h3, h4, h5, h6, h7⟩
    · rintro ⟨h1, h2, h3, h4, h5, h6, h7⟩
      exact ⟨h1, h2, h3, h4, h5, h6, h7, by decide, by decide, by decide, by decide, by decide,
        by decide, by decide⟩

/-- **C22.** `stopScheduling` does not return from every reachable state.  With
two cores under `"fcfs"`, the state `barrierBlockedState` is reachable: worker 0
is blocked in `waitForCycleSync` with `coresWaiting = 1` while worker 1 holds
the finished `P2`, which is still in the running list.  Whatever steps the
threads take from there, worker 0 stays in `waitForCycleSync` (the wait tests
`coresWaiting == 0` only, and no worker calls `waitForCycleSync` again), so the
`join`s of `stopScheduling` do not return.  From the state that
`startScheduling` leaves, where every worker waits on the ready queue,
`stopScheduling` does return. -/
theorem C22_stopScheduling_blocked_in_barrier (steps : List ThreadStep) :
    SystemReachable (schedulerConfig 2 "fcfs" 2) barrierBlockedState ∧
    barrierBlockedState.workers = [.inBarrier (some (1, 0)), .loopHead 2 0] ∧
    barrierBlockedState.world.scheduler.coresWaiting = 1 ∧
    barrierBlockedState.world.scheduler.runningProcesses = [1, 2] ∧
    (afterSteps (schedulerConfig 2 "fcfs" 2) steps barrierBlockedState).workers[0]? =
      some (.inBarrier (some (1, 0))) ∧
    stopScheduling (schedulerConfig 2 "fcfs" 2) steps barrierBlockedState = none ∧
    (∀ (heap : Handle → Process) (memory : MemoryManager),
      (stopScheduling (schedulerConfig 2 "fcfs" 2) []
        (initialState (schedulerConfig 2 "fcfs" 2) heap memory)).isSome = true) := by
  refine ⟨?_, by decide, by decide, by decide, ?_, ?_, fun heap memory => rfl⟩
  · exact SystemReachable_afterSteps _ _ _ (SystemReachable.init _ _)
  · exact (BlockedInv_position
      (BlockedInv_afterSteps _ steps _ BlockedInv_barrierBlockedState)).1
  · have h := (BlockedInv_afterSteps (schedulerConfig 2 "fcfs" 2)
      (steps.filter (fun a => !a.isFetch)) _ BlockedInv_barrierBlockedState).workers
    unfold stopScheduling
    simp only
    rw [if_neg]
    rcases h with ⟨hw, _⟩ | hw | hw <;> rw [hw] <;> decide

/-- **C23.** The dispatch turn does not make its delay rounds for every delay
that the configuration accepts.  One core, `"fcfs"`, `P1` with one remaining
instruction and quantum counter 0, dispatched alone.  With the accepted delay
`d = 2 ^ 31` (`longDelayConfig`) the `int delays` of the turn is negative, no
delay round is made, and the turn executes the instruction and calls the
barrier once, not `1 * (d + 1)` times.  With the delay 1 the same turn calls
the barrier `1 * (1 + 1)` times. -/
theorem C23_delay_above_int_range_skips_delay_rounds :
    validateParameters longDelayConfig = .ok () ∧
    longDelayConfig.delaysPerExec = 2 ^ 31 ∧
    toInt32 longDelayConfig.delaysPerExec = -2147483648 ∧
    ((dispatchWorld longDelayConfig (admittedWorld longDelayConfig 1)).heap 1).linesOfCode -
      ((dispatchWorld longDelayConfig (admittedWorld longDelayConfig 1)).heap 1).commandCounter
      = 1 ∧
    ((dispatchWorld longDelayConfig (admittedWorld longDelayConfig 1)).heap 1).quantumTime = 0 ∧
    (dispatchWorld longDelayConfig (admittedWorld longDelayConfig 1)).scheduler.runningProcesses
      = [1] ∧
    (dispatchTurn longDelayConfig 1 10
      (dispatchWorld longDelayConfig (admittedWorld longDelayConfig 1))).stop =
        WorkerStop.loopLeft ∧
    (dispatchTurn longDelayConfig 1 10
      (dispatchWorld longDelayConfig (admittedWorld longDelayConfig 1))).state.executed = [1] ∧
    (dispatchTurn longDelayConfig 1 10
      (dispatchWorld longDelayConfig (admittedWorld longDelayConfig 1))).state.barrierCalls = 1 ∧
    (dispatchTurn shortDelayConfig 1 10
      (dispatchWorld shortDelayConfig (admittedWorld shortDelayConfig 1))).state.executed = [1] ∧
    (dispatchTurn shortDelayConfig 1 10
      (dispatchWorld shortDelayConfig (admittedWorld shortDelayConfig 1))).state.barrierCalls =
        1 * (1 + 1) :=
  ⟨rfl, by decide, by decide, by decide, by decide, by decide, by decide, by decide, by decide,
    by decide, by decide⟩

/-- **C24.** In every memory state reachable from the freshly constructed
manager by `allocateMemory` and `releaseMemory` calls, with
`framesPerProcess = k >= 1`: every recorded start frame is a multiple of `k`;
`getExternalFragmentation` is 0 or `(totalFrames mod k) * frameSize`; it is 0
when `totalFrames` is a multiple of `k`, and so in every state reached under
the built-in memory sizes 16384, 16 and 4096. -/
theorem C24_aligned_runs_and_fragmentation (config : Config) (m : MemoryManager)
    (hr : Reachable config m) (hk : 1 ≤ m.framesPerProcess) :
    (∀ n info, mapFind n m.processMemoryMap = some info →
      m.framesPerProcess ∣ info.startFrame) ∧
    (m.getExternalFragmentation = 0 ∨
      m.getExternalFragmentation = (m.totalFrames % m.framesPerProcess) * m.frameSize) ∧
    (m.totalFrames % m.framesPerProcess = 0 → m.getExternalFragmentation = 0) ∧
    (config.maxOverallMem = 16384 → config.memPerFrame = 16 → config.memPerProc = 4096 →
      m.getExternalFragmentation = 0) := by
  have hal := AlignedInv_of_Reachable config m hr
  have hinv := MemInv_of_Reachable config m hr
  have hcases := hal.fragmentation_cases hk
  rw [hinv.length_eq] at hcases
  have hzero : m.totalFrames % m.framesPerProcess = 0 → m.getExternalFragmentation = 0 := by
    intro h0
    rcases hcases with h1 | h1
    · exact h1
    · rw [h1, h0, Nat.zero_mul]
  refine ⟨fun n info hf => ?_, hcases, hzero, fun e1 e2 e3 => ?_⟩
  · obtain ⟨b, hb⟩ := hal.start _ (mem_of_mapFind n info _ hf)
    exact ⟨b, by rw [hb, Nat.mul_comm]⟩
  · obtain ⟨c1, _, _, c4⟩ := Reachable_constants config m hr
    apply hzero
    rw [c1, c4, e1, e2, e3]

/-- Witness of C24: `P1` and `P2` allocated under `smallConfig`. -/
theorem C24_aligned_runs_and_fragmentation_witness :
    Reachable smallConfig bothAllocated ∧ 1 ≤ bothAllocated.framesPerProcess ∧
    bothAllocated.getExternalFragmentation = 0 :=
  ⟨Reachable_of_ReachableFresh _ _ ReachableFresh_bothAllocated, by decide,
    (C24_aligned_runs_and_fragmentation smallConfig bothAllocated
      (Reachable_of_ReachableFresh _ _ ReachableFresh_bothAllocated) (by decide)).2.2.1
      (by decide)⟩

/-- **C25.** For every frame table, every footprint `framesPerProcess >= 1` and
every frame size (at least 1, as in every constructed manager):
`isMemoryFull` is true, which is to say that `findFirstFit` returns
`frames.size()`, that `hasAvailableMemory` is false and that a call of
`allocateMemory` returns false, if and only if `getExternalFragmentation`
equals the number of free frames times `frameSize`. -/
theorem C25_isMemoryFull_iff_all_free_space_fragmented (m : MemoryManager)
    (hk : 1 ≤ m.framesPerProcess) (hfs : 1 ≤ m.frameSize) :
    (m.isMemoryFull = true ↔
      m.getExternalFragmentation = freeFrames m.frames * m.frameSize) ∧
    (m.isMemoryFull = true ↔ m.findFirstFit = m.frames.length) ∧
    (m.isMemoryFull = true ↔ m.hasAvailableMemory = false) ∧
    (m.isMemoryFull = true →
      ∀ (config : Config) (lockAcquired : Bool) (process : Option Handle) (w : World),
        w.memory = m → (allocateMemory config lockAcquired process w).1 = false) := by
  have hfull : m.isMemoryFull = true ↔ m.findFirstFit = m.frames.length := by
    simp [MemoryManager.isMemoryFull]
  refine ⟨?_, hfull, by simp [MemoryManager.hasAvailableMemory], ?_⟩
  · rw [hfull]
    unfold MemoryManager.getExternalFragmentation
    constructor
    · intro h
      have hno := no_fit_of_findFirstFit m hk h
      have hl : 0 + leadingFree m.frames < m.framesPerProcess := by
        by_contra hc
        exact hno 0 ((leadingFree_ge_iff _ _).1 (by omega))
      rw [fragmentationLoop_of_no_run _ _ _ 0 0 hl hno, Nat.zero_add, Nat.zero_add]
    · intro h
      by_contra hc
      have hrun := (findFirstFit_fit m hc).2.1
      have := fragmentationLoop_of_run m.framesPerProcess m.frameSize hk hfs m.frames 0 0
        (Or.inr ⟨_, hrun⟩)
      rw [Nat.zero_add, Nat.zero_add] at this
      omega
  · intro h config lockAcquired process w hw
    subst hw
    cases process with
    | none => rfl
    | some p =>
      cases lockAcquired with
      | false => rfl
      | true =>
        rw [allocateMemory_of_no_fit config p w (hfull.1 h)]
        by_cases hrr : config.schedulerType = "rr"
        · rw [if_pos hrr]
        · rw [if_neg hrr]

/-- Witness of C25: `fullMemory` has one free frame between two used ones and a
footprint of two frames. -/
theorem C25_isMemoryFull_iff_all_free_space_fragmented_witness :
    fullMemory.isMemoryFull = true ∧ freeFrames fullMemory.frames = 1 ∧
    fullMemory.getExternalFragmentation = 16 :=
  ⟨by decide, by decide,
    ((C25_isMemoryFull_iff_all_free_space_fragmented fullMemory (by decide) (by decide)).1.1
      (by decide)).trans (by decide)⟩

/-- **C26.** In every reachable memory state, for every process whose name has
no entry in the process-memory map: if `allocateMemory(process)` returns true,
a following `releaseMemory(name)` leaves every frame with the free flag and the
owner it had before the allocation, and the process-memory map, the resident
set and the stored fragmentation exactly as they were before the allocation. -/
theorem C26_release_undoes_allocate (config : Config) (lockAcquired : Bool) (p : Handle)
    (w : World) (hr : Reachable config w.memory)
    (hnew : mapFind (w.heap p).name w.memory.processMemoryMap = none)
    (hok : (allocateMemory config lockAcquired (some p) w).1 = true) :
    ((allocateMemory config lockAcquired (some p) w).2.memory.releaseMemory
        (w.heap p).name).frames.map Frame.status = w.memory.frames.map Frame.status ∧
    ((allocateMemory config lockAcquired (some p) w).2.memory.releaseMemory
        (w.heap p).name).processMemoryMap = w.memory.processMemoryMap ∧
    ((allocateMemory config lockAcquired (some p) w).2.memory.releaseMemory
        (w.heap p).name).processesInMemory = w.memory.processesInMemory ∧
    ((allocateMemory config lockAcquired (some p) w).2.memory.releaseMemory
        (w.heap p).name).currentFragmentation = w.memory.currentFragmentation := by
  have hinv := RestoreInv_of_Reachable config w.memory hr
  have hlock : lockAcquired = true := by
    cases lockAcquired with
    | true => rfl
    | false => simp [allocateMemory] at hok
  subst hlock
  have hfit : w.memory.findFirstFit ≠ w.memory.frames.length := by
    intro hc
    rw [allocateMemory_of_no_fit config p w hc] at hok
    by_cases hrr : config.schedulerType = "rr"
    · rw [if_pos hrr] at hok; cases hok
    · rw [if_neg hrr] at hok; cases hok
  rw [allocateMemory_of_fit config p w hfit]
  have hfind : mapFind (w.heap p).name (w.memory.allocated (w.heap p).name).processMemoryMap =
      some { startFrame := w.memory.findFirstFit
             numFrames := w.memory.framesPerProcess
             startAddress := w.memory.findFirstFit * w.memory.frameSize
             endAddress :=
               (w.memory.findFirstFit + w.memory.framesPerProcess) * w.memory.frameSize - 1 } := by
    simp only [MemoryManager.allocated, MemoryManager.updateFragmentation]
    exact mapFind_mapAssign_self _ _ _
  have hstatus := status_released_allocated w.memory (w.heap p).name hinv hfit
  have hnot : (w.heap p).name ∉ w.memory.processesInMemory :=
    fun hc => hinv.resident _ hc hnew
  simp only [releaseMemory_of_present _ _ _ hfind]
  simp only [MemoryManager.released, MemoryManager.allocated, MemoryManager.updateFragmentation]
  refine ⟨hstatus, mapErase_mapAssign_of_absent _ _ _ hnew,
    setErase_setInsert_of_not_mem _ _ hnot, ?_⟩
  rw [hinv.fragmentation]
  unfold MemoryManager.getExternalFragmentation
  apply fragmentationLoop_congr
  have := congrArg (List.map Prod.fst) hstatus
  simpa [List.map_map, Function.comp_def, Frame.status] using this

/-- Witness of C26: `P1` allocated in and released from the fresh manager of
`smallConfig`. -/
theorem C26_release_undoes_allocate_witness :
    Reachable smallConfig (freshWorld smallConfig exampleHeap (idleScheduler 1)).memory ∧
    mapFind (exampleHeap 1).name
      (freshWorld smallConfig exampleHeap (idleScheduler 1)).memory.processMemoryMap = none ∧
    (allocateMemory smallConfig true (some 1)
      (freshWorld smallConfig exampleHeap (idleScheduler 1))).1 = true ∧
    ((allocateMemory smallConfig true (some 1)
      (freshWorld smallConfig exampleHeap (idleScheduler 1))).2.memory.releaseMemory
        (exampleHeap 1).name).processMemoryMap = [] :=
  ⟨Reachable.ctor, by decide, by decide,
    (C26_release_undoes_allocate smallConfig true 1
      (freshWorld smallConfig exampleHeap (idleScheduler 1)) Reachable.ctor (by decide)
      (by decide)).2.1⟩

/-- **C27 (as amended).** Starting from the freshly constructed manager with
`totalFrames = T` and `framesPerProcess = k >= 1`, for every sequence of
`allocateMemory` calls that all acquire the memory lock, with no release in
between: the `i`-th call (counting from 0) returns true, with the map entry of
its process at start frame `i * k`, if `(i + 1) * k <= T`, and returns false
otherwise; the number of calls that return true is the smaller of the number
of calls and `T / k`. -/
theorem C27_allocations_fill_in_order (config : Config) (heap : Handle → Process)
    (scheduler : Scheduler) (ps : List Handle)
    (hk : 1 ≤ (MemoryManager.ctor config).framesPerProcess) :
    (∀ i, i < ps.length →
      ((i + 1) * (MemoryManager.ctor config).framesPerProcess ≤
          (MemoryManager.ctor config).totalFrames →
        ∃ info, (allocateSequence config (ps.map (fun p => (true, p)))
            (freshWorld config heap scheduler)).1[i]? = some (true, some info) ∧
          info.startFrame = i * (MemoryManager.ctor config).framesPerProcess) ∧
      ((MemoryManager.ctor config).totalFrames <
          (i + 1) * (MemoryManager.ctor config).framesPerProcess →
        ∃ e, (allocateSequence config (ps.map (fun p => (true, p)))
            (freshWorld config heap scheduler)).1[i]? = some (false, e))) ∧
    ((allocateSequence config (ps.map (fun p => (true, p)))
        (freshWorld config heap scheduler)).1.countP (fun r => r.1)) =
      min ps.length
        ((MemoryManager.ctor config).totalFrames / (MemoryManager.ctor config).framesPerProcess)
    := by
  have hlen : (MemoryManager.ctor config).frames.length =
      (MemoryManager.ctor config).totalFrames := (MemInv_ctor config).length_eq
  obtain ⟨h1, h2⟩ := allocateSequence_of_prefix config ps (freshWorld config heap scheduler) 0
    (PrefixFilled_ctor config) hk
  simp only [freshWorld, Nat.zero_add, Nat.sub_zero] at h1 h2
  rw [hlen] at h1 h2
  exact ⟨h1, h2⟩

/-- Witness of C27 (as amended): four frames, a footprint of two, three calls. -/
theorem C27_allocations_fill_in_order_witness :
    1 ≤ (MemoryManager.ctor smallConfig).framesPerProcess ∧
    ((allocateSequence smallConfig ([1, 2, 1].map (fun p => (true, p)))
        (freshWorld smallConfig exampleHeap (idleScheduler 1))).1.countP (fun r => r.1)) = 2 :=
  ⟨by decide,
    (C27_allocations_fill_in_order smallConfig exampleHeap (idleScheduler 1) [1, 2, 1]
      (by decide)).2.trans (by decide)⟩

/-- Counterexample to C27 as stated: four frames, a footprint of two, `P1` and
then `P2`; the call for `P1` does not get the memory lock within its 100 ms and
returns false although `(0 + 1) * 2 <= 4`, and the call for `P2` is placed at
start frame 0, not at 2. -/
theorem C27_counterexample_lock_timeout :
    (MemoryManager.ctor smallConfig).totalFrames = 4 ∧
    (MemoryManager.ctor smallConfig).framesPerProcess = 2 ∧
    (exampleHeap 1).name ≠ (exampleHeap 2).name ∧
    (allocateSequence smallConfig [(false, 1), (true, 2)]
        (freshWorld smallConfig exampleHeap (idleScheduler 1))).1 =
      [(false, none),
       (true, some { startFrame := 0, numFrames := 2, startAddress := 0, endAddress := 1 })] := by
  decide

/-- **C28.** With quantum limit at least 1, in every state that the threads
reach when processes are admitted by `createProcess` only (each with a newly
made `Process`), every process in the ready queue has quantum counter 0.
Hence, for a non-empty queue, the quantum-expired test of `roundRobinSchedule`
is false for the head, `roundRobinSchedule` pops and returns the head, and
`getNextProcess` with a free core slot returns the head, bound to the lowest
free slot. -/
theorem C28_queued_processes_have_quantum_zero (config : Config) (st : SystemState)
    (hq : 1 ≤ config.quantumCycles) (hr : CreatedReachable config st) :
    (∀ p ∈ st.world.scheduler.readyQueue, (st.world.heap p).quantumTime = 0) ∧
    (∀ (head : Handle) (rest : List Handle), st.world.scheduler.readyQueue = head :: rest →
      isQuantumExpired config (st.world.heap head) = false ∧
      roundRobinSchedule config st.world =
        (some head,
          { st.world with scheduler := { st.world.scheduler with readyQueue := rest } }) ∧
      ∀ c, LowestFreeCore st.world.scheduler.coreStatus c →
        getNextProcess config st.world = .ok (some head,
          { st.world with
            heap := Function.update st.world.heap head
              { st.world.heap head with cpuCoreID := (c : Int) }
            scheduler :=
              { st.world.scheduler with
                readyQueue := rest
                coreStatus := st.world.scheduler.coreStatus.set c true
                runningProcesses := st.world.scheduler.runningProcesses ++ [head] } })) := by
  have hinv := QueueInv_of_reachable config st hr
  refine ⟨hinv.quantum, ?_⟩
  intro head rest hqueue
  have h0 : (st.world.heap head).quantumTime = 0 :=
    hinv.quantum head (by rw [hqueue]; exact List.mem_cons_self _ _)
  obtain ⟨he, hrr, hp⟩ := policySchedule_head config st.world head rest hq hqueue h0
  refine ⟨he, hrr, ?_⟩
  intro c hc
  have hlt := LowestFreeCore_lt_length hc
  have hsize : (st.world.scheduler.coreStatus.length : Int) ≤ config.numCPU := by
    have hcores := hinv.cores
    omega
  exact getNextProcess_of_some config st.world _ head c hsize hc hp

/-- Witness of C28: in `createdState` the queue is `[P1]`, `P1` has quantum
counter 0 and `getNextProcess` returns it. -/
theorem C28_queued_processes_have_quantum_zero_witness :
    createdState.world.scheduler.readyQueue = [1] ∧
    (createdState.world.heap 1).quantumTime = 0 ∧
    ((getNextProcess (schedulerConfig 1 "rr" 2) createdState.world).toOption.map Prod.fst) =
      some (some 1) :=
  ⟨rfl,
    (C28_queued_processes_have_quantum_zero (schedulerConfig 1 "rr" 2) createdState
      (by decide) CreatedReachable_createdState).1 1 (by decide),
    by
      rw [((C28_queued_processes_have_quantum_zero (schedulerConfig 1 "rr" 2) createdState
        (by decide) CreatedReachable_createdState).2 1 [] rfl).2.2 0 (by decide)]
      rfl⟩

end Csopesy
